import Mathlib

/-!
Verification of the serverless-dns/trie succinct-trie core.

The JavaScript sources are shallowly embedded: the 16-bit-unit bit buffer
(src/src/bufreader.js, src/src/bufwriter.js), the rank directory
(src/src/rank.js), the tag-bitmap codec (the unnamed stamp module,
src/unnamed/part_000), and the frozen-trie reader (src/src/ftrie.js).
Buffers of 16-bit code units are modelled as `List Nat` with every element
below 2^16; machine arithmetic is Nat with explicit `% 2^32` where the
JavaScript coercions matter.  Functions that can throw are embedded as
`Except String _`.
-/

set_option maxRecDepth 10000

namespace TrieSpec

/-- Halving recursion behind the popcount table, with explicit fuel so that
it evaluates by kernel reduction; 32 levels cover every 32-bit value. -/
def countSetBitsAux : Nat → Nat → Nat
  | 0, _ => 0
  | fuel + 1, n => if n = 0 then 0 else n % 2 + countSetBitsAux fuel (n / 2)

/-- Popcount of a 32-bit value.  Embeds `countSetBits` from
src/src/bitsutil.js: the 256-entry table there satisfies
`table[i] = (i & 1) + table[i / 2]`, and `countSetBits` sums the table over
the four bytes of its 32-bit argument, which computes exactly this halving
recursion (32 halvings suffice for a 32-bit value). -/
def countSetBits (n : Nat) : Nat := countSetBitsAux 32 n

theorem countSetBitsAux_zero (fuel : Nat) : countSetBitsAux fuel 0 = 0 := by
  cases fuel <;> simp [countSetBitsAux]

theorem countSetBits_zero : countSetBits 0 = 0 := rfl

theorem countSetBitsAux_congr :
    ∀ f1 f2 n, n < 2 ^ f1 → n < 2 ^ f2 → countSetBitsAux f1 n = countSetBitsAux f2 n := by
  intro f1
  induction f1 with
  | zero =>
    intro f2 n h1 _
    have : n = 0 := by simpa using h1
    subst this
    rw [countSetBitsAux_zero, countSetBitsAux_zero]
  | succ g ih =>
    intro f2 n h1 h2
    rcases Nat.eq_zero_or_pos n with h0 | h0
    · subst h0
      rw [countSetBitsAux_zero, countSetBitsAux_zero]
    · cases f2 with
      | zero =>
        exfalso
        have : n = 0 := by simpa using h2
        omega
      | succ g2 =>
        show (if n = 0 then 0 else n % 2 + countSetBitsAux g (n / 2)) =
          (if n = 0 then 0 else n % 2 + countSetBitsAux g2 (n / 2))
        rw [if_neg (by omega), if_neg (by omega)]
        have hd1 : n / 2 < 2 ^ g := by
          rw [pow_succ] at h1
          omega
        have hd2 : n / 2 < 2 ^ g2 := by
          rw [pow_succ] at h2
          omega
        rw [ih g2 (n / 2) hd1 hd2]

theorem countSetBits_pos (n : Nat) (hn : 0 < n) (hb : n < 2 ^ 32) :
    countSetBits n = n % 2 + countSetBits (n / 2) := by
  show countSetBitsAux 32 n = n % 2 + countSetBitsAux 32 (n / 2)
  show (if n = 0 then 0 else n % 2 + countSetBitsAux 31 (n / 2)) =
    n % 2 + countSetBitsAux 32 (n / 2)
  rw [if_neg (by omega)]
  congr 1
  exact countSetBitsAux_congr 31 32 (n / 2) (by omega) (by omega)

/-- Popcount of an even/odd split: `countSetBits (2*a + b)` for a bit `b`. -/
theorem countSetBits_two_mul_add (a b : Nat) (hb : b ≤ 1) (ha : a < 2 ^ 31) :
    countSetBits (2 * a + b) = countSetBits a + b := by
  rcases Nat.eq_zero_or_pos (2 * a + b) with h | h
  · have ha0 : a = 0 := by omega
    have hb0 : b = 0 := by omega
    simp [ha0, hb0, countSetBits_zero]
  · rw [countSetBits_pos _ h (by
      have : (2:Nat) ^ 32 = 2 * 2 ^ 31 := by ring
      omega)]
    have h1 : (2 * a + b) % 2 = b := by omega
    have h2 : (2 * a + b) / 2 = a := by omega
    rw [h1, h2]; omega

/-- `MaskTop[16][k]` from src/src/bufreader.js: keeps the low `16 - k` bits. -/
def maskTop (k : Nat) : Nat := 2 ^ (16 - k) - 1

/-- One 16-bit word of a buffer; out-of-range reads give 0, matching the
JavaScript semantics where reading past an array yields `undefined` and
`undefined & mask` coerces to 0. -/
def word16 (bytes : List Nat) (k : Nat) : Nat := bytes.getD k 0

/-- A buffer is well formed when every code unit fits in 16 bits. -/
def WfBuf (bytes : List Nat) : Prop := ∀ w ∈ bytes, w < 2 ^ 16

instance (bytes : List Nat) : Decidable (WfBuf bytes) := by
  unfold WfBuf
  infer_instance

theorem word16_lt (bytes : List Nat) (h : WfBuf bytes) (k : Nat) :
    word16 bytes k < 2 ^ 16 := by
  unfold word16 List.getD
  cases hg : bytes[k]? with
  | none => simp [hg]
  | some w =>
    have := List.getElem?_mem hg
    simpa [hg] using h w this

/-- Bit `j` of the bit string: MSB-first within each 16-bit word (`W = 16`
in src/unnamed/part_001). -/
def streamBit (bytes : List Nat) (j : Nat) : Bool :=
  (word16 bytes (j / 16)).testBit (15 - j % 16)

/-- The value of the `n` bits starting at bit `p`, MSB-first.  This is the
mathematical reading that `BitString.get` is proved to compute. -/
def bitsVal (bytes : List Nat) (p : Nat) : Nat → Nat
  | 0 => 0
  | n + 1 => 2 * bitsVal bytes p n + (if streamBit bytes (p + n) then 1 else 0)

theorem bitsVal_succ (bytes : List Nat) (p n : Nat) :
    bitsVal bytes p (n + 1) =
      2 * bitsVal bytes p n + (if streamBit bytes (p + n) then 1 else 0) := rfl

theorem bitsVal_lt (bytes : List Nat) (p n : Nat) : bitsVal bytes p n < 2 ^ n := by
  induction n with
  | zero => simp [bitsVal]
  | succ m ih =>
    unfold bitsVal
    have : 2 ^ (m + 1) = 2 * 2 ^ m := by ring
    split <;> omega

/-- Splitting a bit field: the value of `m + n` bits is the value of the
first `m` shifted past the value of the last `n`. -/
theorem bitsVal_add (bytes : List Nat) (p m n : Nat) :
    bitsVal bytes p (m + n) = bitsVal bytes p m * 2 ^ n + bitsVal bytes (p + m) n := by
  induction n with
  | zero => simp [bitsVal]
  | succ k ih =>
    have h1 : m + (k + 1) = (m + k) + 1 := by omega
    rw [h1, bitsVal_succ, bitsVal_succ, ih]
    have h2 : p + (m + k) = p + m + k := by omega
    rw [h2]
    ring

/-- A bit field whose stream bits agree with the binary digits of `v`
(MSB first) has value `v`. -/
theorem bitsVal_eq_of_testBit (bytes : List Nat) (p n v : Nat)
    (hv : v < 2 ^ n)
    (h : ∀ k, k < n → streamBit bytes (p + k) = v.testBit (n - 1 - k)) :
    bitsVal bytes p n = v := by
  induction n generalizing v with
  | zero => simp [bitsVal]; omega
  | succ m ih =>
    unfold bitsVal
    have hlow : streamBit bytes (p + m) = v.testBit 0 := by
      have := h m (by omega)
      simpa using this
    have hhigh : bitsVal bytes p m = v / 2 := by
      refine ih (v / 2) (by omega) ?_
      intro k hk
      have := h k (by omega)
      rw [this]
      rw [Nat.testBit_div_two]
      congr 1
      omega
    rw [hhigh, hlow]
    have := Nat.div_add_mod v 2
    rcases Nat.mod_two_eq_zero_or_one v with hm | hm
    · have : v.testBit 0 = false := by
        simp [Nat.testBit, Nat.one_and_eq_mod_two, hm]
      rw [this]; simp; omega
    · have : v.testBit 0 = true := by
        simp [Nat.testBit, Nat.one_and_eq_mod_two, hm]
      rw [this]; simp; omega

/-- Number of set bits among the `n` stream bits starting at `p`. -/
def onesIn (bytes : List Nat) (p : Nat) : Nat → Nat
  | 0 => 0
  | n + 1 => onesIn bytes p n + (if streamBit bytes (p + n) then 1 else 0)

/-- Number of zero bits among the `n` stream bits starting at `p`. -/
def zerosIn (bytes : List Nat) (p : Nat) : Nat → Nat
  | 0 => 0
  | n + 1 => zerosIn bytes p n + (if streamBit bytes (p + n) then 0 else 1)

theorem onesIn_add_zerosIn (bytes : List Nat) (p n : Nat) :
    onesIn bytes p n + zerosIn bytes p n = n := by
  induction n with
  | zero => simp [onesIn, zerosIn]
  | succ m ih =>
    unfold onesIn zerosIn
    split <;> omega

theorem onesIn_succ (bytes : List Nat) (p n : Nat) :
    onesIn bytes p (n + 1) =
      onesIn bytes p n + (if streamBit bytes (p + n) then 1 else 0) := rfl

theorem onesIn_split (bytes : List Nat) (p m n : Nat) :
    onesIn bytes p (m + n) = onesIn bytes p m + onesIn bytes (p + m) n := by
  induction n with
  | zero => simp [onesIn]
  | succ k ih =>
    have h1 : m + (k + 1) = (m + k) + 1 := by omega
    rw [h1]
    simp only [onesIn_succ]
    rw [ih, show p + (m + k) = p + m + k by omega]
    omega

theorem zerosIn_split (bytes : List Nat) (p m n : Nat) :
    zerosIn bytes p (m + n) = zerosIn bytes p m + zerosIn bytes (p + m) n := by
  have h1 := onesIn_add_zerosIn bytes p (m + n)
  have h2 := onesIn_add_zerosIn bytes p m
  have h3 := onesIn_add_zerosIn bytes (p + m) n
  have h4 := onesIn_split bytes p m n
  omega

theorem zerosIn_succ_right (bytes : List Nat) (p n : Nat) :
    zerosIn bytes p (n + 1) =
      zerosIn bytes p n + (if streamBit bytes (p + n) then 0 else 1) := rfl

theorem zerosIn_mono (bytes : List Nat) (p : Nat) {m n : Nat} (h : m ≤ n) :
    zerosIn bytes p m ≤ zerosIn bytes p n := by
  rw [show n = m + (n - m) by omega, zerosIn_split]
  omega

/-- Popcount of a bit field equals the number of set stream bits in it
(for fields of at most 31 bits, enough for every 16-bit-strided read). -/
theorem countSetBits_bitsVal (bytes : List Nat) (p n : Nat) (hn : n ≤ 31) :
    countSetBits (bitsVal bytes p n) = onesIn bytes p n := by
  induction n with
  | zero => simp [bitsVal, onesIn, countSetBits_zero]
  | succ m ih =>
    unfold bitsVal onesIn
    have hmlt : bitsVal bytes p m < 2 ^ 31 := by
      have h1 := bitsVal_lt bytes p m
      have h2 : (2:Nat) ^ m ≤ 2 ^ 31 := Nat.pow_le_pow_right (by omega) (by omega)
      omega
    have hstep : countSetBits (2 * bitsVal bytes p m +
        (if streamBit bytes (p + m) then 1 else 0)) =
        countSetBits (bitsVal bytes p m) + (if streamBit bytes (p + m) then 1 else 0) := by
      apply countSetBits_two_mul_add
      · split <;> omega
      · exact hmlt
    rw [hstep, ih (by omega)]

/-- Disjoint-or is addition: appending `k` low bits below a shifted value. -/
theorem shiftLeft_lor_eq_add (a b k : Nat) (h : b < 2 ^ k) :
    (a <<< k) ||| b = a * 2 ^ k + b := by
  apply Nat.eq_of_testBit_eq
  intro i
  rcases Nat.lt_or_ge i k with hi | hi
  · rw [Nat.testBit_lor, Nat.testBit_shiftLeft]
    have h2 : (a * 2 ^ k + b).testBit i = b.testBit i := by
      have hmod : (a * 2 ^ k + b) % 2 ^ k = b % 2 ^ k := by
        simp [Nat.add_mod, Nat.mul_mod_left]
      rw [show (a * 2 ^ k + b).testBit i = ((a * 2 ^ k + b) % 2 ^ k).testBit i by
        rw [Nat.testBit_mod_two_pow]; simp [hi]]
      rw [hmod, Nat.testBit_mod_two_pow]; simp [hi]
    rw [h2]
    simp [Nat.not_le.mpr hi]
  · rw [Nat.testBit_lor, Nat.testBit_shiftLeft]
    have hb : b.testBit i = false :=
      Nat.testBit_eq_false_of_lt (lt_of_lt_of_le h (Nat.pow_le_pow_right (by omega) hi))
    rw [hb]
    have hsplit : (a * 2 ^ k + b).testBit i = a.testBit (i - k) := by
      rw [Nat.testBit, Nat.shiftRight_eq_div_pow]
      have hdiv : (a * 2 ^ k + b) / 2 ^ i = a / 2 ^ (i - k) := by
        rw [show (2:Nat) ^ i = 2 ^ k * 2 ^ (i - k) by rw [← pow_add]; congr 1; omega]
        rw [← Nat.div_div_eq_div_mul]
        congr 1
        rw [Nat.mul_comm, Nat.mul_add_div (by positivity), Nat.div_eq_of_lt h]
        omega
      rw [hdiv, ← Nat.shiftRight_eq_div_pow, ← Nat.testBit]
    rw [hsplit]
    simp [hi]

/-- The cross-word accumulation loop of `BitString.get`
(src/src/bufreader.js): while `n ≥ 16` shift in whole words, then finish
with the top bits of the last word.  Fuel-structured (fuel ≥ n suffices)
so the function evaluates by kernel reduction. -/
def getLoop (bytes : List Nat) : Nat → Nat → Nat → Nat → Nat
  | 0, result, _, _ => result
  | fuel + 1, result, p, n =>
    if 16 ≤ n then
      getLoop bytes fuel ((result <<< 16) ||| word16 bytes (p / 16)) (p + 16) (n - 16)
    else if 0 < n then (result <<< n) ||| (word16 bytes (p / 16) >>> (16 - n))
    else result

/-- `BitString.get` (src/src/bufreader.js): the `n` bits starting at bit
position `p`, MSB-first within each 16-bit code unit. -/
def bsGet (bytes : List Nat) (p n : Nat) : Nat :=
  if p % 16 + n ≤ 16 then
    ((word16 bytes (p / 16)) &&& (maskTop (p % 16))) >>> (16 - p % 16 - n)
  else
    getLoop bytes n ((word16 bytes (p / 16)) &&& (maskTop (p % 16)))
      (p + (16 - p % 16)) (n - (16 - p % 16))

/-- The single-word read of `get` extracts exactly the bit field. -/
theorem get_single (bytes : List Nat) (p n : Nat) (hn : p % 16 + n ≤ 16) :
    ((word16 bytes (p / 16)) &&& (maskTop (p % 16))) >>> (16 - p % 16 - n) =
      bitsVal bytes p n := by
  set j := p % 16 with hj
  set w := word16 bytes (p / 16) with hw
  have hjlt : j < 16 := by rw [hj]; omega
  symm
  apply bitsVal_eq_of_testBit
  · apply Nat.lt_pow_two_of_testBit
    intro i hi
    rw [Nat.testBit_shiftRight, maskTop, Nat.and_pow_two_sub_one_eq_mod,
      Nat.testBit_mod_two_pow]
    have : ¬ (16 - j - n + i < 16 - j) := by omega
    simp [this]
  · intro k hk
    rw [Nat.testBit_shiftRight, maskTop, Nat.and_pow_two_sub_one_eq_mod,
      Nat.testBit_mod_two_pow]
    have hdiv : (p + k) / 16 = p / 16 := by omega
    have hmod : (p + k) % 16 = j + k := by omega
    rw [streamBit, hdiv, hmod, ← hw]
    have harith : 16 - j - n + (n - 1 - k) = 15 - (j + k) := by omega
    rw [harith]
    have : 15 - (j + k) < 16 - j := by omega
    simp [this]

/-- A whole aligned word read as 16 stream bits is the word itself. -/
theorem bitsVal_word (bytes : List Nat) (h : WfBuf bytes) (p : Nat)
    (hp : p % 16 = 0) : bitsVal bytes p 16 = word16 bytes (p / 16) := by
  apply bitsVal_eq_of_testBit
  · exact word16_lt bytes h _
  · intro k hk
    rw [streamBit]
    have hdiv : (p + k) / 16 = p / 16 := by omega
    have hmod : (p + k) % 16 = k := by omega
    rw [hdiv, hmod, show 16 - 1 - k = 15 - k by omega]

/-- The top `n` bits of an aligned word are the first `n` stream bits. -/
theorem bitsVal_word_top (bytes : List Nat) (h : WfBuf bytes) (p n : Nat)
    (hp : p % 16 = 0) (hn : n ≤ 16) :
    bitsVal bytes p n = word16 bytes (p / 16) >>> (16 - n) := by
  apply bitsVal_eq_of_testBit
  · have hlt := word16_lt bytes h (p / 16)
    rw [Nat.shiftRight_eq_div_pow]
    apply Nat.div_lt_of_lt_mul
    calc word16 bytes (p / 16) < 2 ^ 16 := hlt
    _ ≤ 2 ^ (16 - n) * 2 ^ n := by rw [← pow_add]; apply Nat.pow_le_pow_right <;> omega
  · intro k hk
    rw [Nat.testBit_shiftRight, streamBit]
    have hdiv : (p + k) / 16 = p / 16 := by omega
    have hmod : (p + k) % 16 = k := by omega
    rw [hdiv, hmod]
    congr 1
    omega

theorem getLoop_eq (bytes : List Nat) (h : WfBuf bytes) :
    ∀ fuel result p n, n ≤ fuel → p % 16 = 0 →
    getLoop bytes fuel result p n = result * 2 ^ n + bitsVal bytes p n := by
  intro fuel
  induction fuel with
  | zero =>
    intro result p n hf hp
    have : n = 0 := by omega
    subst this
    simp [getLoop, bitsVal]
  | succ f ih =>
    intro result p n hf hp
    show (if 16 ≤ n then
        getLoop bytes f ((result <<< 16) ||| word16 bytes (p / 16)) (p + 16) (n - 16)
      else if 0 < n then (result <<< n) ||| (word16 bytes (p / 16) >>> (16 - n))
      else result) = result * 2 ^ n + bitsVal bytes p n
    by_cases h16 : 16 ≤ n
    · rw [if_pos h16]
      rw [ih _ (p + 16) (n - 16) (by omega) (by omega)]
      rw [shiftLeft_lor_eq_add _ _ _ (word16_lt bytes h _)]
      have hsplit : n = 16 + (n - 16) := by omega
      conv_rhs => rw [hsplit]
      rw [bitsVal_add, bitsVal_word bytes h p hp]
      ring
    · rw [if_neg h16]
      by_cases h0 : 0 < n
      · rw [if_pos h0]
        rw [← bitsVal_word_top bytes h p n hp (by omega)]
        exact shiftLeft_lor_eq_add _ _ _ (bitsVal_lt bytes p n)
      · rw [if_neg h0]
        have : n = 0 := by omega
        simp [this, bitsVal]

/-- `BitString.get` computes the MSB-first value of its bit field. -/
theorem bsGet_eq (bytes : List Nat) (h : WfBuf bytes) (p n : Nat) :
    bsGet bytes p n = bitsVal bytes p n := by
  unfold bsGet
  by_cases hc : p % 16 + n ≤ 16
  · simp only [hc, if_true]
    exact get_single bytes p n hc
  · simp only [hc, if_false]
    rw [getLoop_eq bytes h n _ _ _ (by omega) (by omega)]
    have hfirst : (word16 bytes (p / 16)) &&& (maskTop (p % 16)) =
        bitsVal bytes p (16 - p % 16) := by
      have := get_single bytes p (16 - p % 16) (by omega)
      rw [show 16 - p % 16 - (16 - p % 16) = 0 by omega] at this
      simpa using this
    rw [hfirst]
    have hsplit : n = (16 - p % 16) + (n - (16 - p % 16)) := by omega
    conv_rhs => rw [hsplit]
    rw [bitsVal_add]

/-- `bitsSetTable256[v]` (src/src/bitsutil.js): the 256-entry popcount
table.  Indexing it with any `v ≥ 256` reads `undefined`, which poisons
the enclosing sum to `NaN`; `none` models that. -/
def bitsSetTable256 (v : Nat) : Option Nat :=
  if v < 256 then some (countSetBits v) else none

/-- JavaScript `+` over possibly-`NaN` counts: any `NaN` operand makes the
sum `NaN`. -/
def nanAdd (a b : Option Nat) : Option Nat :=
  match a, b with
  | some x, some y => some (x + y)
  | _, _ => none

/-- Accumulation loop of `BitString.count`, fuel-structured (fuel ≥ n). -/
def bsCountAux (bytes : List Nat) : Nat → Nat → Nat → Option Nat
  | 0, p, n => bitsSetTable256 (bsGet bytes p n)
  | fuel + 1, p, n =>
    if 16 ≤ n then
      nanAdd (bitsSetTable256 (bsGet bytes p 16)) (bsCountAux bytes fuel (p + 16) (n - 16))
    else bitsSetTable256 (bsGet bytes p n)

/-- `BitString.count` (src/src/bufreader.js lines 136-145): the bits in
`[p, p + n)` accumulated 16 at a time through `bitsSetTable256`.  The
table has only 256 entries, so any 16-bit (or trailing) chunk whose value
is at least 256 reads `undefined` and the whole count is `NaN`
(`none`). -/
def bsCount (bytes : List Nat) (p n : Nat) : Option Nat := bsCountAux bytes n p n

theorem table256_some (v c : Nat) (h : bitsSetTable256 v = some c) :
    c = countSetBits v := by
  unfold bitsSetTable256 at h
  by_cases hv : v < 256
  · rw [if_pos hv] at h
    exact (Option.some.inj h).symm
  · rw [if_neg hv] at h
    exact absurd h (by simp)

theorem nanAdd_some (a b : Option Nat) (c : Nat) (h : nanAdd a b = some c) :
    ∃ x y, a = some x ∧ b = some y ∧ c = x + y := by
  cases a with
  | none => exact absurd h (by simp [nanAdd])
  | some x =>
    cases b with
    | none => exact absurd h (by simp [nanAdd])
    | some y => exact ⟨x, y, rfl, rfl, (Option.some.inj h).symm⟩

/-- A `count` that returns a number returns the exact number of set bits
in its range. -/
theorem bsCountAux_eq (bytes : List Nat) (h : WfBuf bytes) :
    ∀ fuel p n v, n ≤ fuel + 15 → bsCountAux bytes fuel p n = some v →
      v = onesIn bytes p n := by
  intro fuel
  induction fuel with
  | zero =>
    intro p n v hn hv
    have hc : v = countSetBits (bsGet bytes p n) := table256_some _ _ hv
    rw [hc, bsGet_eq bytes h, countSetBits_bitsVal bytes p n (by omega)]
  | succ f ih =>
    intro p n v hn hv
    rw [show bsCountAux bytes (f + 1) p n =
      (if 16 ≤ n then
        nanAdd (bitsSetTable256 (bsGet bytes p 16)) (bsCountAux bytes f (p + 16) (n - 16))
      else bitsSetTable256 (bsGet bytes p n)) from rfl] at hv
    by_cases h16 : 16 ≤ n
    · rw [if_pos h16] at hv
      obtain ⟨a, b, ha, hb, hc⟩ := nanAdd_some _ _ _ hv
      have ha2 : a = countSetBits (bsGet bytes p 16) := table256_some _ _ ha
      have hb2 : b = onesIn bytes (p + 16) (n - 16) := ih (p + 16) (n - 16) b (by omega) hb
      rw [hc, ha2, hb2, bsGet_eq bytes h, countSetBits_bitsVal bytes p 16 (by omega)]
      have hsplit : n = 16 + (n - 16) := by omega
      conv_rhs => rw [hsplit]
      rw [onesIn_split]
    · rw [if_neg h16] at hv
      have hc : v = countSetBits (bsGet bytes p n) := table256_some _ _ hv
      rw [hc, bsGet_eq bytes h, countSetBits_bitsVal bytes p n (by omega)]

/-- When no table read overflows, `count` is the exact popcount. -/
theorem bsCount_eq (bytes : List Nat) (h : WfBuf bytes) (p n : Nat)
    (hdef : bsCount bytes p n ≠ none) :
    bsCount bytes p n = some (onesIn bytes p n) := by
  cases hc : bsCount bytes p n with
  | none => exact absurd hc hdef
  | some v =>
    rw [bsCountAux_eq bytes h n p n v (by omega) hc]

/-! ### BitWriter (src/src/bufwriter.js) -/

/-- Writer state: the `bits16` array of 16-bit code units under construction
and `top`, the number of bits written so far. -/
structure BitWriter where
  bits16 : List Nat
  top : Nat
deriving Repr, DecidableEq

/-- A fresh `BitWriter` (`init` in src/src/bufwriter.js). -/
def initWriter : BitWriter := ⟨[], 0⟩

/-- Array store `this.bits16[i] = v`: JavaScript arrays extend with
(undefined, here zero-coerced) entries when writing past the end. -/
def setPad (l : List Nat) (i v : Nat) : List Nat :=
  (l ++ List.replicate (i + 1 - l.length) 0).set i v

theorem setPad_length (l : List Nat) (i v : Nat) :
    (setPad l i v).length = max l.length (i + 1) := by
  simp [setPad]
  omega

theorem getD_append_replicate (l : List Nat) (m k : Nat) :
    (l ++ List.replicate m 0).getD k 0 = l.getD k 0 := by
  rcases Nat.lt_or_ge k l.length with hk | hk
  · rw [List.getD_eq_getElem?_getD, List.getD_eq_getElem?_getD,
      List.getElem?_append_left hk]
  · rw [List.getD_eq_getElem?_getD, List.getD_eq_getElem?_getD]
    rw [List.getElem?_eq_none hk]
    rcases Nat.lt_or_ge k (l.length + m) with hk2 | hk2
    · rw [List.getElem?_append_right hk]
      rw [List.getElem?_replicate]
      have : k - l.length < m := by omega
      simp [this]
    · rw [List.getElem?_eq_none (by simp; omega)]

theorem setPad_getD_eq (l : List Nat) (i v : Nat) :
    (setPad l i v).getD i 0 = v := by
  unfold setPad
  have hlen : i < (l ++ List.replicate (i + 1 - l.length) 0).length := by
    simp; omega
  rw [List.getD_eq_getElem?_getD, List.getElem?_set_self (by simpa using hlen)]
  rfl

theorem setPad_getD_ne (l : List Nat) (i v k : Nat) (h : k ≠ i) :
    (setPad l i v).getD k 0 = l.getD k 0 := by
  unfold setPad
  rw [List.getD_eq_getElem?_getD, List.getElem?_set_ne (by omega)]
  rw [← List.getD_eq_getElem?_getD, getD_append_replicate]

theorem streamBit_setPad (l : List Nat) (i v j : Nat) :
    streamBit (setPad l i v) j =
      if j / 16 = i then v.testBit (15 - j % 16) else streamBit l j := by
  unfold streamBit word16
  by_cases h : j / 16 = i
  · rw [h, setPad_getD_eq]
    simp
  · rw [setPad_getD_ne _ _ _ _ h]
    simp [h]

/-- `BitWriter.write16` (src/src/bufwriter.js): write the low `numBits ≤ 16`
bits of `data` at the current top.  For `numBits > 16` the source logs an
error and returns without writing. -/
def write16 (st : BitWriter) (data numBits : Nat) : BitWriter :=
  if 16 < numBits then st
  else
    let brim := 16 - st.top % 16
    let cur := st.top / 16
    let e := st.bits16.getD cur 0
    let b := data &&& maskTop (16 - numBits)
    if numBits ≤ brim then
      { bits16 := setPad st.bits16 cur (e ||| (b <<< (brim - numBits))),
        top := st.top + numBits }
    else
      let rem := numBits - brim
      let spill := (data &&& maskTop (16 - rem)) <<< (16 - rem)
      { bits16 := setPad (setPad st.bits16 cur (e ||| (b >>> rem))) (cur + 1) spill,
        top := st.top + numBits }

/-- Chunking loop of `BitWriter.write`, fuel-structured (fuel ≥ numBits
suffices since every chunk takes at least one bit). -/
def bwWriteAux (data : Nat) : Nat → BitWriter → Nat → BitWriter
  | 0, st, _ => st
  | fuel + 1, st, numBits =>
    if 0 < numBits then
      let i := (numBits - 1) / 16
      let b := (data % 2 ^ 32) >>> (i * 16)
      let l := if numBits % 16 = 0 then 16 else numBits % 16
      bwWriteAux data fuel (write16 st b l) (numBits - l)
    else st

/-- `BitWriter.write` (src/src/bufwriter.js): write `numBits ≤ 32` bits,
splitting into a top partial chunk and 16-bit chunks.  `data >>> (i*16)` is
the JavaScript unsigned shift of the 32-bit coercion of `data`. -/
def bwWrite (st : BitWriter) (data numBits : Nat) : BitWriter :=
  bwWriteAux data numBits st numBits

/-- Writer invariant: all words fit 16 bits, the array does not extend past
the word containing `top`, and every bit at or above `top` is still zero. -/
def WriterWf (st : BitWriter) : Prop :=
  (∀ w ∈ st.bits16, w < 2 ^ 16) ∧
  st.bits16.length ≤ st.top / 16 + 1 ∧
  ∀ j, st.top ≤ j → streamBit st.bits16 j = false

theorem initWriter_wf : WriterWf initWriter := by
  refine ⟨by simp [initWriter], by simp [initWriter], ?_⟩
  intro j _
  simp [initWriter, streamBit, word16, List.getD]

theorem writer_getD_lt (st : BitWriter) (hwf : WriterWf st) (k : Nat) :
    st.bits16.getD k 0 < 2 ^ 16 :=
  word16_lt st.bits16 hwf.1 k

theorem lor_lt_two_pow (a b n : Nat) (ha : a < 2 ^ n) (hb : b < 2 ^ n) :
    a ||| b < 2 ^ n := by
  apply Nat.lt_pow_two_of_testBit
  intro i hi
  rw [Nat.testBit_lor]
  rw [Nat.testBit_eq_false_of_lt (lt_of_lt_of_le ha (Nat.pow_le_pow_right (by omega) hi))]
  rw [Nat.testBit_eq_false_of_lt (lt_of_lt_of_le hb (Nat.pow_le_pow_right (by omega) hi))]
  rfl

theorem shiftLeft_lt_two_pow (b s n k : Nat) (hb : b < 2 ^ n) (hs : n + s ≤ k) :
    b <<< s < 2 ^ k := by
  rw [Nat.shiftLeft_eq]
  calc b * 2 ^ s < 2 ^ n * 2 ^ s :=
        (Nat.mul_lt_mul_right (Nat.two_pow_pos s)).mpr hb
  _ = 2 ^ (n + s) := by rw [pow_add]
  _ ≤ 2 ^ k := Nat.pow_le_pow_right (by omega) hs

theorem testBit_shiftLeft_low (b s m : Nat) (h : m < s) :
    (b <<< s).testBit m = false := by
  rw [Nat.testBit_shiftLeft]
  simp [Nat.not_le.mpr h]

theorem testBit_shiftLeft_high (b s m : Nat) (h : s ≤ m) :
    (b <<< s).testBit m = b.testBit (m - s) := by
  rw [Nat.testBit_shiftLeft]
  simp [h]

/-- The complete behaviour of one `write16` call on a well-formed writer:
it stays well formed, advances `top` by `numBits`, preserves every bit
below the old `top`, and deposits the low `numBits` bits of `data`
MSB-first at the old `top`. -/
theorem write16_spec (st : BitWriter) (data numBits : Nat)
    (hwf : WriterWf st) (hn : numBits ≤ 16) :
    WriterWf (write16 st data numBits) ∧
    (write16 st data numBits).top = st.top + numBits ∧
    (∀ j, j < st.top →
      streamBit (write16 st data numBits).bits16 j = streamBit st.bits16 j) ∧
    bitsVal (write16 st data numBits).bits16 st.top numBits = data % 2 ^ numBits := by
  obtain ⟨hwords, hlen, htrail⟩ := hwf
  have h16 : ¬ 16 < numBits := by omega
  unfold write16
  simp only [h16, if_false]
  set j0 := st.top % 16 with hj0
  set brim := 16 - st.top % 16 with hbrim
  set cur := st.top / 16 with hcur
  set e := st.bits16.getD cur 0 with he
  have hj0lt : j0 < 16 := by omega
  have hbrim_pos : 1 ≤ brim := by omega
  have htop : st.top = 16 * cur + j0 := by rw [hcur, hj0]; omega
  have hb_eq : data &&& maskTop (16 - numBits) = data % 2 ^ numBits := by
    rw [maskTop, show 16 - (16 - numBits) = numBits by omega,
      Nat.and_pow_two_sub_one_eq_mod]
  set b := data &&& maskTop (16 - numBits) with hbdef
  have hblt : b < 2 ^ numBits := by rw [hb_eq]; exact Nat.mod_lt _ (by positivity)
  have helt : e < 2 ^ 16 := writer_getD_lt st ⟨hwords, hlen, htrail⟩ cur
  have hetrail : ∀ m, m < brim → e.testBit m = false := by
    intro m hm
    have := htrail (16 * cur + (15 - m)) (by omega)
    rw [streamBit, word16] at this
    rw [show (16 * cur + (15 - m)) / 16 = cur by omega,
      show (16 * cur + (15 - m)) % 16 = 15 - m by omega,
      show 15 - (15 - m) = m by omega] at this
    exact this
  by_cases hcase : numBits ≤ brim
  · -- single-word case
    simp only [hcase, if_true]
    set w1 := e ||| (b <<< (brim - numBits)) with hw1
    have hw1lt : w1 < 2 ^ 16 :=
      lor_lt_two_pow _ _ _ helt (shiftLeft_lt_two_pow _ _ _ _ hblt (by omega))
    have hwordbit : ∀ m, w1.testBit m =
        (e.testBit m || (if brim - numBits ≤ m ∧ m < brim then
          b.testBit (m - (brim - numBits)) else false)) := by
      intro m
      rw [hw1, Nat.testBit_lor]
      congr 1
      by_cases hm1 : m < brim - numBits
      · rw [testBit_shiftLeft_low _ _ _ hm1]
        have hc : ¬ (brim - numBits ≤ m ∧ m < brim) := by omega
        rw [if_neg hc]
      · rw [testBit_shiftLeft_high _ _ _ (by omega)]
        by_cases hm2 : m < brim
        · have hc : brim - numBits ≤ m ∧ m < brim := by omega
          rw [if_pos hc]
        · have hfalse : b.testBit (m - (brim - numBits)) = false := by
            apply Nat.testBit_eq_false_of_lt
            apply lt_of_lt_of_le hblt
            apply Nat.pow_le_pow_right (by omega)
            omega
          have hc : ¬ (brim - numBits ≤ m ∧ m < brim) := by omega
          rw [if_neg hc, hfalse]
    refine ⟨⟨?_, ?_, ?_⟩, ?_, ?_, ?_⟩
    · -- words bounded
      show ∀ w ∈ setPad st.bits16 cur w1, w < 2 ^ 16
      intro w hw
      simp only [setPad] at hw
      rcases List.mem_or_eq_of_mem_set hw with hmem | heq
      · rcases List.mem_append.mp hmem with hmem2 | hmem2
        · exact hwords w hmem2
        · rw [List.eq_of_mem_replicate hmem2]; positivity
      · rw [heq]; exact hw1lt
    · -- length bound
      show (setPad st.bits16 cur w1).length ≤ (st.top + numBits) / 16 + 1
      rw [setPad_length]
      have : (st.top + numBits) / 16 ≥ cur := by rw [hcur]; omega
      omega
    · -- trailing zeros
      intro j hj
      have hj2 : st.top + numBits ≤ j := hj
      show streamBit (setPad st.bits16 cur w1) j = false
      rw [streamBit_setPad]
      by_cases hjc : j / 16 = cur
      · simp only [hjc, if_true]
        have hjm : j % 16 ≥ j0 + numBits := by omega
        rw [hwordbit]
        rw [hetrail _ (by omega)]
        have hc : ¬ (brim - numBits ≤ 15 - j % 16 ∧ 15 - j % 16 < brim) := by omega
        rw [if_neg hc]
        rfl
      · rw [if_neg hjc]
        apply htrail
        omega
    · trivial
    · -- preserved bits
      intro j hj
      show streamBit (setPad st.bits16 cur w1) j = streamBit st.bits16 j
      rw [streamBit_setPad]
      by_cases hjc : j / 16 = cur
      · rw [if_pos hjc]
        have hjm : j % 16 < j0 := by omega
        rw [hwordbit]
        have hc : ¬ (brim - numBits ≤ 15 - j % 16 ∧ 15 - j % 16 < brim) := by omega
        rw [if_neg hc]
        unfold streamBit word16
        rw [hjc, ← he]
        simp
      · rw [if_neg hjc]
    · -- the new field
      show bitsVal (setPad st.bits16 cur w1) st.top numBits = data % 2 ^ numBits
      rw [← hb_eq]
      apply bitsVal_eq_of_testBit _ _ _ _ hblt
      intro k hk
      rw [streamBit_setPad]
      have hdiv : (st.top + k) / 16 = cur := by omega
      have hmod : (st.top + k) % 16 = j0 + k := by omega
      rw [if_pos hdiv, hmod]
      rw [hwordbit]
      rw [hetrail _ (by omega)]
      have hc : brim - numBits ≤ 15 - (j0 + k) ∧ 15 - (j0 + k) < brim := by omega
      rw [if_pos hc]
      simp only [Bool.false_or]
      congr 1
      omega
  · -- spill case: the field crosses into the next word
    simp only [hcase, if_false]
    set rem := numBits - brim with hrem
    have hrem_pos : 1 ≤ rem := by omega
    have hrem16 : rem ≤ 15 := by omega
    have hspill_eq : data &&& maskTop (16 - rem) = data % 2 ^ rem := by
      rw [maskTop, show 16 - (16 - rem) = rem by omega, Nat.and_pow_two_sub_one_eq_mod]
    set c := data &&& maskTop (16 - rem) with hcdef
    have hclt : c < 2 ^ rem := by rw [hspill_eq]; exact Nat.mod_lt _ (by positivity)
    set w1 := e ||| (b >>> rem) with hw1
    set w2 := c <<< (16 - rem) with hw2
    have hshlt : b >>> rem < 2 ^ brim := by
      rw [Nat.shiftRight_eq_div_pow]
      apply Nat.div_lt_of_lt_mul
      calc b < 2 ^ numBits := hblt
      _ ≤ 2 ^ rem * 2 ^ brim := by rw [← pow_add]; apply Nat.pow_le_pow_right <;> omega
    have hw1lt : w1 < 2 ^ 16 :=
      lor_lt_two_pow _ _ _ helt (lt_of_lt_of_le hshlt (Nat.pow_le_pow_right (by omega) (by omega)))
    have hw2lt : w2 < 2 ^ 16 := shiftLeft_lt_two_pow _ _ _ _ hclt (by omega)
    have hw1bit : ∀ m, w1.testBit m =
        (e.testBit m || b.testBit (rem + m)) := by
      intro m
      rw [hw1, Nat.testBit_lor, Nat.testBit_shiftRight]
    have hw2bit_low : ∀ m, m < 16 - rem → w2.testBit m = false := fun m hm =>
      testBit_shiftLeft_low _ _ _ hm
    have hw2bit_high : ∀ m, 16 - rem ≤ m → w2.testBit m = c.testBit (m - (16 - rem)) :=
      fun m hm => testBit_shiftLeft_high _ _ _ hm
    have htop' : st.top + numBits = 16 * (cur + 1) + rem := by omega
    refine ⟨⟨?_, ?_, ?_⟩, ?_, ?_, ?_⟩
    · show ∀ w ∈ setPad (setPad st.bits16 cur w1) (cur + 1) w2, w < 2 ^ 16
      intro w hw
      simp only [setPad] at hw
      rcases List.mem_or_eq_of_mem_set hw with hmem | heq
      · rcases List.mem_append.mp hmem with hmem2 | hmem2
        · rcases List.mem_or_eq_of_mem_set hmem2 with hmem3 | heq3
          · rcases List.mem_append.mp hmem3 with hmem4 | hmem4
            · exact hwords w hmem4
            · rw [List.eq_of_mem_replicate hmem4]; positivity
          · rw [heq3]; exact hw1lt
        · rw [List.eq_of_mem_replicate hmem2]; positivity
      · rw [heq]; exact hw2lt
    · show (setPad (setPad st.bits16 cur w1) (cur + 1) w2).length ≤
          (st.top + numBits) / 16 + 1
      rw [setPad_length, setPad_length]
      have h1 : (st.top + numBits) / 16 = cur + 1 := by omega
      omega
    · intro j hj
      have hj2 : st.top + numBits ≤ j := hj
      show streamBit (setPad (setPad st.bits16 cur w1) (cur + 1) w2) j = false
      rw [streamBit_setPad]
      by_cases hjc2 : j / 16 = cur + 1
      · simp only [hjc2, if_true]
        have hjm : j % 16 ≥ rem := by omega
        exact hw2bit_low _ (by omega)
      · simp only [hjc2, if_false]
        rw [streamBit_setPad]
        by_cases hjc : j / 16 = cur
        · omega
        · rw [if_neg hjc]
          apply htrail
          omega
    · trivial
    · intro j hj
      show streamBit (setPad (setPad st.bits16 cur w1) (cur + 1) w2) j = streamBit st.bits16 j
      rw [streamBit_setPad]
      have hjc2 : ¬ j / 16 = cur + 1 := by omega
      rw [if_neg hjc2]
      rw [streamBit_setPad]
      by_cases hjc : j / 16 = cur
      · rw [if_pos hjc]
        have hjm : j % 16 < j0 := by omega
        rw [hw1bit]
        have hbz : b.testBit (rem + (15 - j % 16)) = false := by
          apply Nat.testBit_eq_false_of_lt
          apply lt_of_lt_of_le hblt
          apply Nat.pow_le_pow_right (by omega)
          omega
        rw [hbz]
        simp only [Bool.or_false]
        unfold streamBit word16
        rw [hjc, ← he]
      · rw [if_neg hjc]
    · show bitsVal (setPad (setPad st.bits16 cur w1) (cur + 1) w2) st.top numBits =
          data % 2 ^ numBits
      rw [← hb_eq]
      apply bitsVal_eq_of_testBit _ _ _ _ hblt
      intro k hk
      rw [streamBit_setPad, streamBit_setPad]
      by_cases hkb : k < brim
      · have hdiv : (st.top + k) / 16 = cur := by omega
        have hmod : (st.top + k) % 16 = j0 + k := by omega
        have hne : ¬ (st.top + k) / 16 = cur + 1 := by omega
        rw [if_neg hne, if_pos hdiv, hmod]
        rw [hw1bit, hetrail _ (by omega)]
        simp only [Bool.false_or]
        congr 1
        omega
      · have hdiv : (st.top + k) / 16 = cur + 1 := by omega
        have hmod : (st.top + k) % 16 = k - brim := by omega
        rw [if_pos hdiv, hmod]
        rw [hw2bit_high _ (by omega)]
        have hcb : c.testBit (15 - (k - brim) - (16 - rem)) =
            b.testBit (numBits - 1 - k) := by
          rw [hspill_eq, hb_eq, Nat.testBit_mod_two_pow,
            Nat.testBit_mod_two_pow]
          have h1 : 15 - (k - brim) - (16 - rem) = numBits - 1 - k := by omega
          rw [h1]
          have h2 : numBits - 1 - k < rem := by omega
          have h3 : numBits - 1 - k < numBits := by omega
          simp [h2, h3]
        rw [hcb]

/-- Two buffers that agree on a bit range have the same field value there. -/
theorem bitsVal_congr (a b : List Nat) (p n : Nat)
    (h : ∀ k, k < n → streamBit a (p + k) = streamBit b (p + k)) :
    bitsVal a p n = bitsVal b p n := by
  induction n with
  | zero => rfl
  | succ m ih =>
    rw [bitsVal_succ, bitsVal_succ, ih (fun k hk => h k (by omega)), h m (by omega)]

theorem mod_pow_split (d a b : Nat) :
    d % 2 ^ (a + b) = (d / 2 ^ b % 2 ^ a) * 2 ^ b + d % 2 ^ b := by
  rw [pow_add, Nat.mul_comm (2 ^ a) (2 ^ b), Nat.mod_mul]
  ring

theorem mod_pow_div (x m k : Nat) :
    (x % 2 ^ (m + k)) / 2 ^ m = (x / 2 ^ m) % 2 ^ k := by
  rw [pow_add, Nat.mod_mul]
  rw [Nat.add_mul_div_left _ _ (show (0:Nat) < 2 ^ m by positivity)]
  rw [Nat.div_eq_of_lt (Nat.mod_lt _ (show (0:Nat) < 2 ^ m by positivity))]
  omega

/-- The complete behaviour of `BitWriter.write` for `numBits ≤ 32`: appends
the low `numBits` bits of (the 32-bit coercion of) `data` MSB-first. -/
theorem bwWriteAux_succ (data f : Nat) (st : BitWriter) (numBits : Nat)
    (hpos : 0 < numBits) :
    bwWriteAux data (f + 1) st numBits =
      bwWriteAux data f
        (write16 st ((data % 2 ^ 32) >>> (((numBits - 1) / 16) * 16))
          (if numBits % 16 = 0 then 16 else numBits % 16))
        (numBits - (if numBits % 16 = 0 then 16 else numBits % 16)) := by
  show (if 0 < numBits then
      let i := (numBits - 1) / 16
      let b := (data % 2 ^ 32) >>> (i * 16)
      let l := if numBits % 16 = 0 then 16 else numBits % 16
      bwWriteAux data f (write16 st b l) (numBits - l)
    else st) = _
  rw [if_pos hpos]

theorem bwWriteAux_spec (data : Nat) :
    ∀ fuel st numBits, WriterWf st → numBits ≤ 32 → numBits ≤ fuel →
    WriterWf (bwWriteAux data fuel st numBits) ∧
    (bwWriteAux data fuel st numBits).top = st.top + numBits ∧
    (∀ j, j < st.top →
      streamBit (bwWriteAux data fuel st numBits).bits16 j = streamBit st.bits16 j) ∧
    bitsVal (bwWriteAux data fuel st numBits).bits16 st.top numBits =
      data % 2 ^ numBits := by
  intro fuel
  induction fuel with
  | zero =>
    intro st numBits hwf h32 hfu
    have h0 : numBits = 0 := by omega
    subst h0
    exact ⟨hwf, by simp [bwWriteAux], fun j _ => rfl,
      by simp [bwWriteAux, bitsVal, Nat.mod_one]⟩
  | succ f ih =>
    intro st numBits hwf h32 hfu
    by_cases hpos : 0 < numBits
    · rw [bwWriteAux_succ data f st numBits hpos]
      set l := if numBits % 16 = 0 then 16 else numBits % 16 with hldef
      have hl1 : 1 ≤ l := by rw [hldef]; split <;> omega
      have hl16 : l ≤ 16 := by rw [hldef]; split <;> omega
      have hlle : l ≤ numBits := by
        rw [hldef]; split <;> omega
      have hi16 : ((numBits - 1) / 16) * 16 = numBits - l := by
        rw [hldef]; split <;> omega
      set b := (data % 2 ^ 32) >>> (((numBits - 1) / 16) * 16) with hbdef
      obtain ⟨hwf1, htop1, hpres1, hfield1⟩ := write16_spec st b l hwf hl16
      obtain ⟨hwf2, htop2, hpres2, hfield2⟩ :=
        ih (write16 st b l) (numBits - l) hwf1 (by omega) (by omega)
      refine ⟨hwf2, by omega, ?_, ?_⟩
      · intro j hj
        rw [hpres2 j (by omega), hpres1 j hj]
      · have hnum : l + (numBits - l) = numBits := by omega
        have hadd := bitsVal_add
          (bwWriteAux data f (write16 st b l) (numBits - l)).bits16 st.top l (numBits - l)
        rw [hnum] at hadd
        have hfirstc : bitsVal (bwWriteAux data f (write16 st b l) (numBits - l)).bits16
            st.top l = bitsVal (write16 st b l).bits16 st.top l := by
          apply bitsVal_congr
          intro k hk
          apply hpres2
          omega
        have hsecond : bitsVal (bwWriteAux data f (write16 st b l) (numBits - l)).bits16
            (st.top + l) (numBits - l) = data % 2 ^ (numBits - l) := by
          rw [show st.top + l = (write16 st b l).top by omega]
          exact hfield2
        rw [hadd, hfirstc, hfield1, hsecond]
        have hb_chunk : b % 2 ^ l = (data / 2 ^ (numBits - l)) % 2 ^ l := by
          rw [hbdef, hi16, Nat.shiftRight_eq_div_pow]
          have hml : (numBits - l) + (32 - (numBits - l)) = 32 := by omega
          rw [show (2:Nat) ^ 32 = 2 ^ ((numBits - l) + (32 - (numBits - l))) by rw [hml]]
          rw [mod_pow_div]
          rw [Nat.mod_mod_of_dvd _ (pow_dvd_pow 2 (by omega))]
        rw [hb_chunk]
        have hms := mod_pow_split data l (numBits - l)
        rw [hnum] at hms
        omega
    · have h0 : numBits = 0 := by omega
      subst h0
      have hid : bwWriteAux data (f + 1) st 0 = st := by
        show (if 0 < 0 then
            let i := (0 - 1) / 16
            let b := (data % 2 ^ 32) >>> (i * 16)
            let l := if 0 % 16 = 0 then 16 else 0 % 16
            bwWriteAux data f (write16 st b l) (0 - l)
          else st) = st
        rw [if_neg hpos]
      rw [hid]
      exact ⟨hwf, by simp, fun j _ => rfl, by simp [bitsVal, Nat.mod_one]⟩

/-- The complete behaviour of `BitWriter.write` for `numBits ≤ 32`: appends
the low `numBits` bits of (the 32-bit coercion of) `data` MSB-first. -/
theorem bwWrite_spec (st : BitWriter) (data numBits : Nat)
    (hwf : WriterWf st) (hn : numBits ≤ 32) :
    WriterWf (bwWrite st data numBits) ∧
    (bwWrite st data numBits).top = st.top + numBits ∧
    (∀ j, j < st.top →
      streamBit (bwWrite st data numBits).bits16 j = streamBit st.bits16 j) ∧
    bitsVal (bwWrite st data numBits).bits16 st.top numBits = data % 2 ^ numBits :=
  bwWriteAux_spec data numBits st numBits hwf hn (by omega)

/-- Append a list of `(value, width)` fields with `BitWriter.write`. -/
def writeFields (st : BitWriter) : List (Nat × Nat) → BitWriter
  | [] => st
  | (v, n) :: rest => writeFields (bwWrite st v n) rest

/-- Sum of the field widths: the cumulative bit offset past the fields. -/
def widthsSum : List (Nat × Nat) → Nat
  | [] => 0
  | (_, n) :: rest => n + widthsSum rest

theorem writeFields_spec (fields : List (Nat × Nat)) (st : BitWriter)
    (hwf : WriterWf st) (hn : ∀ f ∈ fields, f.2 ≤ 32) :
    WriterWf (writeFields st fields) ∧
    (writeFields st fields).top = st.top + widthsSum fields ∧
    (∀ j, j < st.top →
      streamBit (writeFields st fields).bits16 j = streamBit st.bits16 j) := by
  induction fields generalizing st with
  | nil => exact ⟨hwf, by simp [writeFields, widthsSum], fun j _ => rfl⟩
  | cons f rest ih =>
    obtain ⟨v, n⟩ := f
    obtain ⟨hwf1, htop1, hpres1, _⟩ :=
      bwWrite_spec st v n hwf (hn (v, n) (by simp))
    obtain ⟨hwf2, htop2, hpres2⟩ :=
      ih (bwWrite st v n) hwf1 (fun g hg => hn g (by simp [hg]))
    refine ⟨hwf2, ?_, ?_⟩
    · show (writeFields (bwWrite st v n) rest).top = st.top + widthsSum ((v, n) :: rest)
      rw [htop2, htop1, widthsSum]
      omega
    · intro j hj
      show streamBit (writeFields (bwWrite st v n) rest).bits16 j = streamBit st.bits16 j
      rw [hpres2 j (by omega), hpres1 j hj]

/-- Each field written by `writeFields` is readable back at its cumulative
offset: the `k`-th field's bits hold `v_k % 2 ^ n_k`. -/
theorem writeFields_field (fields : List (Nat × Nat)) (st : BitWriter)
    (hwf : WriterWf st) (hn : ∀ f ∈ fields, f.2 ≤ 32)
    (k : Nat) (hk : k < fields.length) :
    bitsVal (writeFields st fields).bits16
        (st.top + widthsSum (fields.take k)) (fields.get ⟨k, hk⟩).2 =
      (fields.get ⟨k, hk⟩).1 % 2 ^ (fields.get ⟨k, hk⟩).2 := by
  induction fields generalizing st k with
  | nil => simp at hk
  | cons f rest ih =>
    obtain ⟨v, n⟩ := f
    obtain ⟨hwf1, htop1, hpres1, hfield1⟩ :=
      bwWrite_spec st v n hwf (hn (v, n) (by simp))
    obtain ⟨_, _, hpres2⟩ :=
      writeFields_spec rest (bwWrite st v n) hwf1 (fun g hg => hn g (by simp [hg]))
    cases k with
    | zero =>
      show bitsVal (writeFields (bwWrite st v n) rest).bits16 (st.top + 0) n =
        v % 2 ^ n
      rw [Nat.add_zero]
      rw [bitsVal_congr _ (bwWrite st v n).bits16 st.top n
        (fun j hj => hpres2 _ (by omega))]
      exact hfield1
    | succ m =>
      have hm : m < rest.length := by simpa using hk
      have := ih (bwWrite st v n) (hwf1) (fun g hg => hn g (by simp [hg])) m hm
      rw [htop1] at this
      show bitsVal (writeFields (bwWrite st v n) rest).bits16
          (st.top + (n + widthsSum (rest.take m))) (rest.get ⟨m, hm⟩).2 =
        (rest.get ⟨m, hm⟩).1 % 2 ^ (rest.get ⟨m, hm⟩).2
      rw [show st.top + (n + widthsSum (rest.take m)) =
        st.top + n + widthsSum (rest.take m) by omega]
      exact this

/-- C9: For every finite sequence of fields `(v_k, n_k)` with `1 ≤ n_k ≤ 31`
appended via `BitWriter.write`, reading each field back from the finished
blob with `BitString.get` at the cumulative bit offset of that field, with
width `n_k`, yields `v_k` taken modulo `2 ^ n_k`. -/
theorem c9_bitwriter_bitstring_roundtrip (fields : List (Nat × Nat))
    (hw : ∀ f ∈ fields, 1 ≤ f.2 ∧ f.2 ≤ 31)
    (k : Nat) (hk : k < fields.length) :
    bsGet (writeFields initWriter fields).bits16
        (widthsSum (fields.take k)) (fields.get ⟨k, hk⟩).2 =
      (fields.get ⟨k, hk⟩).1 % 2 ^ (fields.get ⟨k, hk⟩).2 := by
  have hn32 : ∀ f ∈ fields, f.2 ≤ 32 := fun f hf => by
    have := (hw f hf).2
    omega
  obtain ⟨hwffinal, _, _⟩ := writeFields_spec fields initWriter initWriter_wf hn32
  rw [bsGet_eq _ hwffinal.1]
  have := writeFields_field fields initWriter initWriter_wf hn32 k hk
  simpa [initWriter] using this

theorem c9_bitwriter_bitstring_roundtrip_witness :
    bsGet (writeFields initWriter [(5, 3), (300, 9), (70000, 31)]).bits16
        (widthsSum ([(5, 3), (300, 9), (70000, 31)].take 1)) 9 = 300 % 2 ^ 9 :=
  c9_bitwriter_bitstring_roundtrip [(5, 3), (300, 9), (70000, 31)]
    (by decide) 1 (by decide)

/-! ### pos0 (src/src/bufreader.js) -/

/-- `testBit` view of a bit field: bit `m` of the value is stream bit
`p + (n - 1 - m)` (MSB first). -/
theorem testBit_bitsVal (bytes : List Nat) (p n : Nat) :
    ∀ m, (bitsVal bytes p n).testBit m =
      if m < n then streamBit bytes (p + (n - 1 - m)) else false := by
  induction n with
  | zero => intro m; simp [bitsVal]
  | succ k ih =>
    intro m
    rw [bitsVal_succ]
    cases m with
    | zero =>
      rw [Nat.testBit_zero]
      have h0 : 0 < k + 1 := by omega
      rw [if_pos h0, show k + 1 - 1 - 0 = k by omega]
      by_cases hb : streamBit bytes (p + k)
      · rw [if_pos hb, hb]
        have hmod : (2 * bitsVal bytes p k + 1) % 2 = 1 := by omega
        simp [hmod]
      · rw [if_neg hb]
        rw [show streamBit bytes (p + k) = false from by simp [hb]]
        have hmod : ¬ (2 * bitsVal bytes p k + 0) % 2 = 1 := by omega
        simp [hmod]
    | succ m' =>
      have hdiv : (2 * bitsVal bytes p k +
          (if streamBit bytes (p + k) then 1 else 0)) / 2 = bitsVal bytes p k := by
        split <;> omega
      rw [← Nat.testBit_div_two, hdiv, ih m']
      by_cases hm : m' < k
      · rw [if_pos hm, if_pos (by omega)]
        congr 2
        omega
      · rw [if_neg hm, if_neg (by omega)]

/-- A range with no zero bits is all ones. -/
theorem zerosIn_eq_zero_all_ones (bytes : List Nat) (p : Nat) :
    ∀ m, zerosIn bytes p m = 0 → ∀ k, k < m → streamBit bytes (p + k) = true := by
  intro m
  induction m with
  | zero => intro _ k hk; omega
  | succ j ih =>
    intro hz k hk
    rw [zerosIn_succ_right] at hz
    rcases Nat.lt_or_ge k j with h | h
    · exact ih (by omega) k h
    · have hkj : k = j := by omega
      subst hkj
      by_cases hb : streamBit bytes (p + k)
      · exact hb
      · rw [if_neg hb] at hz
        omega

/-- `q` is the `n`-th zero bit (1-indexed) at or after position `i`:
`q` is a zero and exactly `n - 1` zeros lie in `[i, q)`. -/
def IsNthZeroFrom (bytes : List Nat) (i n q : Nat) : Prop :=
  i ≤ q ∧ streamBit bytes q = false ∧ zerosIn bytes i (q - i) = n - 1

instance (bytes : List Nat) (i n q : Nat) : Decidable (IsNthZeroFrom bytes i n q) := by
  unfold IsNthZeroFrom
  infer_instance

theorem xor_one_even (n : Nat) (h : n % 2 = 0) : n ^^^ 1 = n + 1 := by
  apply Nat.eq_of_testBit_eq
  intro k
  cases k with
  | zero =>
    rw [Nat.testBit_xor, Nat.testBit_zero, Nat.testBit_zero, Nat.testBit_zero]
    have h1 : ¬ (n % 2 = 1) := by omega
    have h2 : (n + 1) % 2 = 1 := by omega
    have h3 : (1:Nat) % 2 = 1 := by norm_num
    simp [h1, h2, h3]
  | succ j =>
    rw [Nat.testBit_xor]
    have h1 : Nat.testBit 1 (j + 1) = false := by
      apply Nat.testBit_eq_false_of_lt
      calc (1:Nat) < 2 ^ 1 := by norm_num
      _ ≤ 2 ^ (j + 1) := Nat.pow_le_pow_right (by omega) (by omega)
    rw [h1, Bool.xor_false]
    rw [← Nat.testBit_div_two, ← Nat.testBit_div_two,
      show (n + 1) / 2 = n / 2 from by omega]

theorem xor_one_odd (n : Nat) (h : n % 2 = 1) : n ^^^ 1 = n - 1 := by
  apply Nat.eq_of_testBit_eq
  intro k
  cases k with
  | zero =>
    rw [Nat.testBit_xor, Nat.testBit_zero, Nat.testBit_zero, Nat.testBit_zero]
    have h2 : ¬ ((n - 1) % 2 = 1) := by omega
    have h3 : (1:Nat) % 2 = 1 := by norm_num
    simp [h, h2, h3]
  | succ j =>
    rw [Nat.testBit_xor]
    have h1 : Nat.testBit 1 (j + 1) = false := by
      apply Nat.testBit_eq_false_of_lt
      calc (1:Nat) < 2 ^ 1 := by norm_num
      _ ≤ 2 ^ (j + 1) := Nat.pow_le_pow_right (by omega) (by omega)
    rw [h1, Bool.xor_false]
    rw [← Nat.testBit_div_two, ← Nat.testBit_div_two,
      show (n - 1) / 2 = n / 2 from by omega]

/-- The loop of `bit0p` (src/src/bufreader.js), including its
operator-precedence quirk: `c = c + (n < (n ^ 0x1)) ? 1 : 0` parses as
`c = (c + (n < (n ^ 1))) ? 1 : 0`, so `c` collapses to 0 or 1.  Fuel
(33 at the call site) covers the 32-bit values the source expects. -/
def bit0pLoop (p : Nat) : Nat → Nat → Nat → Nat → Nat × Nat
  | 0, _, c, i => (c, i)
  | fuel + 1, n, c, i =>
    if 0 < n ∧ c < p then
      bit0pLoop p fuel (n / 2)
        (if c + (if n < (n ^^^ 1) then 1 else 0) = 0 then 0 else 1) (i + 1)
    else (c, i)

/-- `bit0p(n, p)` (src/src/bufreader.js): scan for the p-th zero bit of `n`
from the least significant end; returns `(index, scanned)`. -/
def bit0p (n p : Nat) : Nat × Nat :=
  if p = 0 then (0, 0)
  else if n = 0 ∧ p = 1 then (1, 1)
  else
    let r := bit0pLoop p 33 n 0 0
    (if p = r.1 then r.2 else 0, r.2)

/-- `bit0(n, p, pad)` (src/src/bufreader.js): guards on `r.scanned` and
`r.index` of the `bit0p` result, then the pad adjustment. -/
def bit0 (n p pad : Nat) : Nat :=
  if (bit0p n p).2 = 0 then (bit0p n p).2
  else if 0 < (bit0p n p).1 then (bit0p n p).2
  else if (bit0p n p).2 < pad then (bit0p n p).2 + 1
  else 0

theorem bit0pLoop_spec :
    ∀ z fuel n i, z < fuel → n < 2 ^ fuel →
      (∀ m, m < z → n.testBit m = true) → n.testBit z = false →
      bit0pLoop 1 fuel n 0 i =
        if n / 2 ^ z = 0 then (0, i + z) else (1, i + z + 1) := by
  intro z
  induction z with
  | zero =>
    intro fuel n i hfu hn hbelow hz
    obtain ⟨f, rfl⟩ : ∃ f, fuel = f + 1 := ⟨fuel - 1, by omega⟩
    rcases Nat.eq_zero_or_pos n with h0 | h0
    · subst h0
      show (if 0 < 0 ∧ 0 < 1 then _ else ((0:Nat), i)) = _
      rw [if_neg (by omega)]
      simp
    · have heven : n % 2 = 0 := by
        have := Nat.testBit_zero n
        rw [hz] at this
        simp at this
        omega
      have hx : n < n ^^^ 1 := by
        have := xor_one_even n heven
        omega
      show (if 0 < n ∧ 0 < 1 then
          bit0pLoop 1 f (n / 2)
            (if 0 + (if n < (n ^^^ 1) then 1 else 0) = 0 then 0 else 1) (i + 1)
        else ((0:Nat), i)) = _
      rw [if_pos ⟨h0, by omega⟩, if_pos hx]
      have hcollapse : (if 0 + 1 = 0 then 0 else 1) = 1 := by norm_num
      rw [hcollapse]
      have hstop : ∀ g m j, bit0pLoop 1 g m 1 j = (1, j) := by
        intro g m j
        cases g with
        | zero => rfl
        | succ g2 =>
          show (if 0 < m ∧ 1 < 1 then _ else ((1:Nat), j)) = _
          rw [if_neg (by omega)]
      rw [hstop]
      have hval : n / 2 ^ 0 = n := by simp
      rw [hval, if_neg (by omega)]
  | succ z ih =>
    intro fuel n i hfu hn hbelow hz
    obtain ⟨f, rfl⟩ : ∃ f, fuel = f + 1 := ⟨fuel - 1, by omega⟩
    have hbit0 : n.testBit 0 = true := hbelow 0 (by omega)
    have hodd : n % 2 = 1 := by
      have := Nat.testBit_zero n
      rw [hbit0] at this
      simp at this
      omega
    have hpos : 0 < n := by omega
    have hx : ¬ n < n ^^^ 1 := by
      have := xor_one_odd n hodd
      omega
    show (if 0 < n ∧ 0 < 1 then
        bit0pLoop 1 f (n / 2)
          (if 0 + (if n < (n ^^^ 1) then 1 else 0) = 0 then 0 else 1) (i + 1)
      else ((0:Nat), i)) = _
    rw [if_pos ⟨hpos, by omega⟩, if_neg hx]
    have hcollapse : (if 0 + 0 = 0 then 0 else 1) = 0 := by norm_num
    rw [hcollapse]
    have hrec := ih f (n / 2) (i + 1) (by omega) (by
      have : (2:Nat) ^ (f + 1) = 2 * 2 ^ f := by ring
      omega) (fun m hm => by
        rw [Nat.testBit_div_two]
        exact hbelow (m + 1) (by omega)) (by
        rw [Nat.testBit_div_two]
        exact hz)
    rw [hrec]
    have hdiv : n / 2 / 2 ^ z = n / 2 ^ (z + 1) := by
      rw [Nat.div_div_eq_div_mul]
      congr 1
      rw [pow_succ]
      ring
    rw [hdiv]
    by_cases hq : n / 2 ^ (z + 1) = 0
    · rw [if_pos hq, if_pos hq, show i + 1 + z = i + (z + 1) by omega]
    · rw [if_neg hq, if_neg hq, show i + 1 + z + 1 = i + (z + 1) + 1 by omega]

/-- `bit0(d, 1, step)` returns the 1-based distance from the end of the
window to its last zero: if the lowest zero bit of `d` is at bit `z < step`
(all lower bits ones), the result is `z + 1`. -/
theorem bit0_spec (d step z : Nat) (hd : d < 2 ^ 32) (hz : z < step)
    (hstep : step ≤ 32)
    (hzero : d.testBit z = false) (hbelow : ∀ m, m < z → d.testBit m = true) :
    bit0 d 1 step = z + 1 := by
  rcases Nat.eq_zero_or_pos d with h0 | h0
  · subst h0
    have hz0 : z = 0 := by
      by_contra hne
      have := hbelow 0 (by omega)
      simp [Nat.zero_testBit] at this
    subst hz0
    show bit0 0 1 step = 1
    show (if (bit0p 0 1).2 = 0 then (bit0p 0 1).2
      else if 0 < (bit0p 0 1).1 then (bit0p 0 1).2
      else if (bit0p 0 1).2 < step then (bit0p 0 1).2 + 1 else 0) = 1
    have hb : bit0p 0 1 = (1, 1) := by
      show (if (1:Nat) = 0 then ((0:Nat), (0:Nat))
        else if (0:Nat) = 0 ∧ (1:Nat) = 1 then ((1:Nat), (1:Nat))
        else _) = ((1:Nat), (1:Nat))
      rw [if_neg (by omega), if_pos (by omega)]
    rw [hb]
    show (if (1:Nat) = 0 then 1 else if (0:Nat) < 1 then 1
      else if 1 < step then 1 + 1 else 0) = 1
    rw [if_neg (by omega), if_pos (by omega)]
  · have hloop := bit0pLoop_spec z 33 d 0 (by omega) (by
      calc d < 2 ^ 32 := hd
      _ ≤ 2 ^ 33 := by norm_num) hbelow hzero
    have hgen : bit0p d 1 =
        (if 1 = (bit0pLoop 1 33 d 0 0).1 then (bit0pLoop 1 33 d 0 0).2 else 0,
          (bit0pLoop 1 33 d 0 0).2) := by
      show (if (1:Nat) = 0 then ((0:Nat), (0:Nat))
        else if d = 0 ∧ (1:Nat) = 1 then ((1:Nat), (1:Nat))
        else (if 1 = (bit0pLoop 1 33 d 0 0).1 then (bit0pLoop 1 33 d 0 0).2 else 0,
          (bit0pLoop 1 33 d 0 0).2)) = _
      rw [if_neg (by omega), if_neg (by omega)]
    rw [hloop] at hgen
    show (if (bit0p d 1).2 = 0 then (bit0p d 1).2
      else if 0 < (bit0p d 1).1 then (bit0p d 1).2
      else if (bit0p d 1).2 < step then (bit0p d 1).2 + 1 else 0) = z + 1
    by_cases hq : d / 2 ^ z = 0
    · have hz1 : 1 ≤ z := by
        by_contra hlt
        have hz0 : z = 0 := by omega
        subst hz0
        rw [pow_zero, Nat.div_one] at hq
        omega
      rw [if_pos hq] at hgen
      have hgen2 : bit0p d 1 = ((0:Nat), z) := by
        rw [hgen]
        norm_num
      rw [hgen2]
      show (if z = 0 then z else if (0:Nat) < 0 then z
        else if z < step then z + 1 else 0) = z + 1
      rw [if_neg (by omega), if_neg (by omega), if_pos (by omega)]
    · rw [if_neg hq] at hgen
      have hgen2 : bit0p d 1 = (z + 1, z + 1) := by
        rw [hgen]
        norm_num
      rw [hgen2]
      show (if z + 1 = 0 then z + 1 else if (0:Nat) < z + 1 then z + 1
        else if z + 1 < step then z + 1 + 1 else 0) = z + 1
      rw [if_neg (by omega), if_pos (by omega)]

/-- The loop of `BitString.pos0` (src/src/bufreader.js).  State: read
position `i`, zeros still wanted `n`, current window width `step`, consumed
stride budget `iter`, and the running answer `index`.  The two `throw`
sites of the source are the two `.error` results; the iteration budget
`iter > length / 10` is the exact rational comparison `10 * iter > length`
(the JavaScript float division differs from the rational by far less than
the gap to the nearest integer).  Fuel-structured; the `pos0` wrapper
passes fuel that the loop, which always advances, cannot exhaust. -/
def pos0Loop (bytes : List Nat) : Nat → Nat → Nat → Nat → Nat → Nat → Except String Nat
  | 0, _, _, _, _, _ => Except.error "pos0: out of fuel"
  | fuel + 1, i, n, step, iter, index =>
    if n = 0 then Except.ok index
    else if 16 * bytes.length < i then Except.error "pos0: out of bounds"
    else if 16 * bytes.length < 10 * iter then Except.error "pos0: out of iter"
    else
      let d := bsGet bytes i step
      let bits0 := step - countSetBits d
      if n < bits0 then
        pos0Loop bytes fuel i n (max n (step / 2)) iter index
      else
        pos0Loop bytes fuel (i + step) (n - bits0) step (iter + step)
          ((i + step) - (if n - bits0 = 0 then bit0 d 1 step else 1))

/-- `BitString.pos0(i, n)` (src/src/bufreader.js): index of the `n`-th zero
bit at or after `i`; `n = 0` returns `i` itself. -/
def pos0 (bytes : List Nat) (i n : Nat) : Except String Nat :=
  if n = 0 then Except.ok i
  else pos0Loop bytes (16 * bytes.length + 64) i n 16 0 i

/-- A window holding fewer zeros than still wanted lies strictly before the
target zero. -/
theorem nthZero_not_in_window (bytes : List Nat) (i n q step : Nat)
    (hq : IsNthZeroFrom bytes i n q) (hn : 1 ≤ n)
    (hlt : zerosIn bytes i step < n) : i + step ≤ q := by
  obtain ⟨hiq, hqz, hcount⟩ := hq
  by_contra hcon
  have hqin : q - i < step := by omega
  have h1 : zerosIn bytes i (q - i + 1) = n := by
    rw [zerosIn_succ_right, show i + (q - i) = q by omega, hqz]
    simp [hcount]
    omega
  have h2 := zerosIn_mono bytes i (show q - i + 1 ≤ step by omega)
  omega

/-- Advancing past a window holding `b < n` zeros leaves the target as the
`n - b`-th zero of the rest. -/
theorem nthZero_advance (bytes : List Nat) (i n q step : Nat)
    (hq : IsNthZeroFrom bytes i n q) (hn : 1 ≤ n)
    (hlt : zerosIn bytes i step < n) :
    IsNthZeroFrom bytes (i + step) (n - zerosIn bytes i step) q := by
  have hge := nthZero_not_in_window bytes i n q step hq hn hlt
  obtain ⟨hiq, hqz, hcount⟩ := hq
  refine ⟨hge, hqz, ?_⟩
  have hsplit := zerosIn_split bytes i step (q - i - step)
  rw [show step + (q - i - step) = q - i by omega] at hsplit
  have : q - (i + step) = q - i - step := by omega
  rw [this]
  omega

/-- When the window holds exactly the wanted zeros, the target is the last
zero of the window: every later window bit is a one. -/
theorem nthZero_last_of_window (bytes : List Nat) (i n q step : Nat)
    (hq : IsNthZeroFrom bytes i n q) (hn : 1 ≤ n)
    (heq : zerosIn bytes i step = n) :
    q - i < step ∧
    (∀ k, q + 1 ≤ k → k < i + step → streamBit bytes k = true) := by
  obtain ⟨hiq, hqz, hcount⟩ := hq
  have hqin : q - i < step := by
    by_contra hcon
    have := zerosIn_mono bytes i (show step ≤ q - i by omega)
    omega
  refine ⟨hqin, ?_⟩
  have hsplit1 := zerosIn_split bytes i (q - i) (step - (q - i))
  rw [show q - i + (step - (q - i)) = step by omega] at hsplit1
  have hrest : zerosIn bytes (i + (q - i)) (step - (q - i)) = 1 := by omega
  rw [show i + (q - i) = q by omega] at hrest
  have hsplitq : zerosIn bytes q (step - (q - i)) =
      zerosIn bytes q 1 + zerosIn bytes (q + 1) (step - (q - i) - 1) := by
    have := zerosIn_split bytes q 1 (step - (q - i) - 1)
    rw [show 1 + (step - (q - i) - 1) = step - (q - i) by omega] at this
    rw [this]
  have hq1 : zerosIn bytes q 1 = 1 := by
    show zerosIn bytes q 0 + (if streamBit bytes (q + 0) then 0 else 1) = 1
    rw [show q + 0 = q by omega, hqz]
    rfl
  have hzero2 : zerosIn bytes (q + 1) (step - (q - i) - 1) = 0 := by omega
  intro k hk1 hk2
  have := zerosIn_eq_zero_all_ones bytes (q + 1) (step - (q - i) - 1) hzero2
    (k - (q + 1)) (by omega)
  rw [show q + 1 + (k - (q + 1)) = k by omega] at this
  exact this

theorem pos0Loop_done (bytes : List Nat) (fuel i step iter index : Nat)
    (hf : 0 < fuel) :
    pos0Loop bytes fuel i 0 step iter index = Except.ok index := by
  obtain ⟨f, rfl⟩ : ∃ f, fuel = f + 1 := ⟨fuel - 1, by omega⟩
  show (if (0:Nat) = 0 then Except.ok index else _) = Except.ok index
  rw [if_pos rfl]

theorem pos0Loop_ok (bytes : List Nat) (hwf : WfBuf bytes) (q : Nat) :
    ∀ fuel i n step iter index r,
      1 ≤ n → 1 ≤ step → step ≤ 16 → IsNthZeroFrom bytes i n q →
      pos0Loop bytes fuel i n step iter index = Except.ok r → r = q := by
  intro fuel
  induction fuel with
  | zero =>
    intro i n step iter index r _ _ _ _ hrun
    exact absurd hrun (by simp [pos0Loop])
  | succ f ih =>
    intro i n step iter index r hn hs1 hs16 hq hrun
    rw [show pos0Loop bytes (f + 1) i n step iter index =
      (if n = 0 then Except.ok index
      else if 16 * bytes.length < i then Except.error "pos0: out of bounds"
      else if 16 * bytes.length < 10 * iter then Except.error "pos0: out of iter"
      else
        let d := bsGet bytes i step
        let bits0 := step - countSetBits d
        if n < bits0 then
          pos0Loop bytes f i n (max n (step / 2)) iter index
        else
          pos0Loop bytes f (i + step) (n - bits0) step (iter + step)
            ((i + step) - (if n - bits0 = 0 then bit0 d 1 step else 1))) from rfl]
      at hrun
    rw [if_neg (by omega)] at hrun
    by_cases hb1 : 16 * bytes.length < i
    · rw [if_pos hb1] at hrun
      exact absurd hrun (by simp)
    rw [if_neg hb1] at hrun
    by_cases hb2 : 16 * bytes.length < 10 * iter
    · rw [if_pos hb2] at hrun
      exact absurd hrun (by simp)
    rw [if_neg hb2] at hrun
    simp only at hrun
    have hdz : step - countSetBits (bsGet bytes i step) = zerosIn bytes i step := by
      rw [bsGet_eq bytes hwf, countSetBits_bitsVal bytes i step (by omega)]
      have := onesIn_add_zerosIn bytes i step
      omega
    by_cases hshrink : n < step - countSetBits (bsGet bytes i step)
    · rw [if_pos hshrink] at hrun
      have hz : zerosIn bytes i step ≤ step := by
        have := onesIn_add_zerosIn bytes i step
        omega
      exact ih i n (max n (step / 2)) iter index r hn (by omega)
        (by rw [hdz] at hshrink; omega) hq hrun
    · rw [if_neg hshrink] at hrun
      rw [hdz] at hshrink hrun
      by_cases hdone : n - zerosIn bytes i step = 0
      · -- the window holds exactly the remaining zeros: the next iteration
        -- returns the index of the last zero of the window
        have hexact : zerosIn bytes i step = n := by omega
        obtain ⟨hqin, hones⟩ :=
          nthZero_last_of_window bytes i n q step hq hn hexact
        have hiq : i ≤ q := hq.1
        rw [hdone, if_pos rfl] at hrun
        have hbit0 : bit0 (bsGet bytes i step) 1 step = (step - 1 - (q - i)) + 1 := by
          apply bit0_spec
          · rw [bsGet_eq bytes hwf]
            calc bitsVal bytes i step < 2 ^ step := bitsVal_lt bytes i step
            _ ≤ 2 ^ 32 := Nat.pow_le_pow_right (by omega) (by omega)
          · omega
          · omega
          · rw [bsGet_eq bytes hwf, testBit_bitsVal bytes i step]
            rw [if_pos (by omega), show i + (step - 1 - (step - 1 - (q - i))) = q by omega]
            exact hq.2.1
          · intro m hm
            rw [bsGet_eq bytes hwf, testBit_bitsVal bytes i step, if_pos (by omega)]
            exact hones (i + (step - 1 - m)) (by omega) (by omega)
        rw [hbit0] at hrun
        -- the recursive call has n = 0 and returns its index at once
        cases f with
        | zero => exact absurd hrun (by simp [pos0Loop])
        | succ f2 =>
          rw [pos0Loop_done bytes (f2 + 1) _ _ _ _ (by omega)] at hrun
          have := Except.ok.inj hrun
          omega
      · -- the target lies beyond this window
        rw [if_neg hdone] at hrun
        have hles : zerosIn bytes i step ≤ step := by
          have := onesIn_add_zerosIn bytes i step
          omega
        have hadv := nthZero_advance bytes i n q step hq hn (by omega)
        exact ih (i + step) (n - zerosIn bytes i step) step (iter + step)
          ((i + step) - 1) r (by omega) hs1 hs16 hadv hrun

/-- C5 counterexample: on sixteen all-ones words followed by a zero word,
the 1st zero at or after bit 0 exists within the string (at index 256),
yet `pos0(0, 1)` aborts with its iteration-budget error (the budget is
`length / 10` and the scan must stride across 256 one-bits) instead of
returning 256.  This falsifies the claim as stated. -/
theorem c5_pos0_counterexample :
    IsNthZeroFrom (List.replicate 16 65535 ++ [0]) 0 1 256 ∧
    256 < 16 * (List.replicate 16 65535 ++ [(0:Nat)]).length ∧
    pos0 (List.replicate 16 65535 ++ [0]) 0 1 = Except.error "pos0: out of iter" :=
  ⟨by decide, by decide, rfl⟩

/-- C5 (amended): `pos0(i, 0)` returns `i` itself; and for `n ≥ 1`, whenever
the n-th zero at or after bit `i` exists within the string (at index `q`)
and `pos0(i, n)` returns without raising, the returned value is exactly
`q`.  (The unamended claim is false only because the scan may abort on its
iteration budget; see the counterexample.) -/
theorem c5_pos0_amended (bytes : List Nat) (hwf : WfBuf bytes)
    (i n q : Nat) (hn : 1 ≤ n) (hq : IsNthZeroFrom bytes i n q)
    (hin : q < 16 * bytes.length) :
    pos0 bytes i 0 = Except.ok i ∧
    ∀ r, pos0 bytes i n = Except.ok r → r = q := by
  constructor
  · show (if (0:Nat) = 0 then Except.ok i else _) = Except.ok i
    rw [if_pos rfl]
  · intro r hr
    unfold pos0 at hr
    rw [if_neg (by omega)] at hr
    exact pos0Loop_ok bytes hwf q _ i n 16 0 i r hn (by omega) (by omega) hq hr

theorem c5_pos0_amended_witness :
    (pos0 [40960] 0 0 = Except.ok 0 ∧
      ∀ r, pos0 [40960] 0 2 = Except.ok r → r = 3) ∧
    pos0 [40960] 0 2 = Except.ok 3 :=
  ⟨c5_pos0_amended [40960] (by decide) 0 2 3 (by decide) (by decide) (by decide), rfl⟩

/-! ### Rank directory (src/src/rank.js, constants from src/unnamed config) -/

/-- Fuelled ceiling base-2 logarithm: `Math.ceil(Math.log2 n)` of the
source (exact for the integer arguments the source passes; 64 halvings
cover any 64-bit value). -/
def ceilLog2Aux : Nat → Nat → Nat
  | 0, _ => 0
  | fuel + 1, n => if n ≤ 1 then 0 else ceilLog2Aux fuel ((n + 1) / 2) + 1

def ceilLog2 (n : Nat) : Nat := ceilLog2Aux 64 n

theorem ceilLog2Aux_le (fuel : Nat) :
    ∀ n k, n ≤ 2 ^ k → k ≤ fuel → ceilLog2Aux fuel n ≤ k := by
  induction fuel with
  | zero =>
    intro n k _ _
    show (0:Nat) ≤ k
    exact Nat.zero_le k
  | succ f ih =>
    intro n k hn hk
    show (if n ≤ 1 then 0 else ceilLog2Aux f ((n + 1) / 2) + 1) ≤ k
    by_cases h1 : n ≤ 1
    · rw [if_pos h1]; omega
    · rw [if_neg h1]
      have hk1 : 1 ≤ k := by
        by_contra hc
        have : k = 0 := by omega
        subst this
        simp at hn
        omega
      have hdiv : (n + 1) / 2 ≤ 2 ^ (k - 1) := by
        have h2 : (2:Nat) ^ k = 2 * 2 ^ (k - 1) := by
          rw [← pow_succ']
          congr 1
          omega
        omega
      have := ih ((n + 1) / 2) (k - 1) hdiv (by omega)
      omega

theorem ceilLog2Aux_ge (fuel : Nat) :
    ∀ n, n ≤ 2 ^ fuel → n ≤ 2 ^ ceilLog2Aux fuel n := by
  induction fuel with
  | zero =>
    intro n hn
    simpa [ceilLog2Aux] using hn
  | succ f ih =>
    intro n hn
    show n ≤ 2 ^ (if n ≤ 1 then 0 else ceilLog2Aux f ((n + 1) / 2) + 1)
    by_cases h1 : n ≤ 1
    · rw [if_pos h1]; simpa using h1
    · rw [if_neg h1]
      have hdiv : (n + 1) / 2 ≤ 2 ^ f := by
        have h2 : (2:Nat) ^ (f + 1) = 2 * 2 ^ f := by rw [← pow_succ']
        omega
      have := ih ((n + 1) / 2) hdiv
      have h3 : (2:Nat) ^ (ceilLog2Aux f ((n + 1) / 2) + 1) =
          2 * 2 ^ ceilLog2Aux f ((n + 1) / 2) := by rw [← pow_succ']
      omega

/-- A rank directory: the directory blob, a view of the trie blob, and the
configuration fields `RankDirectory.init` consumes (src/src/rank.js).  The
constants are `L1 = 32 * 32 = 1024` and `L2 = 32` (src/unnamed config). -/
structure RankDir where
  directory : List Nat
  data : List Nat
  nodecount : Nat
  selectsearch : Bool
deriving Repr, DecidableEq

/-- `l1bits = ceil(log2 numBits)` with `numBits = nodecount * 2 + 1`. -/
def rdL1Bits (d : RankDir) : Nat := ceilLog2 (d.nodecount * 2 + 1)

/-- `l2bits = ceil(log2 L1) = 10`. -/
def rdL2Bits : Nat := ceilLog2 1024

/-- `sectionBits = (L1 / L2 - 1) * l2Bits + l1Bits`. -/
def rdSectionBits (d : RankDir) : Nat := (1024 / 32 - 1) * rdL2Bits + rdL1Bits d

/-- The directory-sourced part of the popcount `rank(1, x)` body: the L1
sample plus the intra-section L2 sample (plain `get` reads, always
numbers). -/
def popRank1Dir (d : RankDir) (x : Nat) : Nat :=
  let r1 := if 1024 ≤ x then
    bsGet d.directory ((x / 1024) * rdSectionBits d - rdL1Bits d) (rdL1Bits d) else 0
  let sectionPos := if 1024 ≤ x then (x / 1024) * rdSectionBits d else 0
  let o := if 1024 ≤ x then x % 1024 else x
  let r2 := if 32 ≤ o then
    bsGet d.directory (sectionPos + (o / 32) * rdL2Bits - rdL2Bits) rdL2Bits else 0
  r1 + r2

/-- The popcount-layout `rank(1, x)` body (src/src/rank.js lines 132-159):
L1 prefix from the directory, then the intra-L1 L2 prefix, then a
table-driven count of the trailing partial L2 block read from the trie
blob.  The count — and with it the whole rank — is `NaN` (`none`)
whenever a table read overflows the 256-entry popcount table. -/
def popRank1 (d : RankDir) (x : Nat) : Option Nat :=
  (bsCount d.data (x - x % 32) (x % 32 + 1)).map (fun c => popRank1Dir d x + c)

/-- The popcount-layout `rank(which, x)`: `rank(0, x)` is literally
`x - rank(1, x) + 1` (src/src/rank.js lines 128-130); `NaN` propagates
through the subtraction. -/
def popRankW (d : RankDir) (which x : Nat) : Option Int :=
  if which = 0 then (popRank1 d x).map (fun r => (x : Int) - r + 1)
  else (popRank1 d x).map (fun r => (r : Int))

/-- `RankDirectory.rank(which, x)` (src/src/rank.js).  Under `selectsearch`
the `which` argument is ignored and the answer comes from a stored
select-sample plus a `pos0` scan of the trie blob (which can throw); the
`rank` local starts at the sentinel -1.  The result is an `Option Int`:
`none` is JS `NaN`, which only the popcount branch can produce. -/
def rdRank (d : RankDir) (which x : Nat) : Except String (Option Int) :=
  if d.selectsearch then
    let r : Int := if 32 ≤ x then
      (bsGet d.directory ((x / 32) * rdL1Bits d - rdL1Bits d) (rdL1Bits d) : Int) else -1
    let x2 := if 32 ≤ x then x % 32 else x
    if 0 < x2 then
      Except.map (fun v : Nat => (some (v : Int) : Option Int)) (pos0 d.data (r + 1).toNat x2)
    else Except.ok (some r)
  else Except.ok (popRankW d which x)

/-- The binary-search loop of `RankDirectory.select` (popcount layout):
first-occurrence search over `rank(which, ·)`.  Fuel-structured; the probe
always lies strictly between `low` and `high`, so `numBits + 2` rounds
suffice.  A `NaN` rank compares false with `y` both ways (`r === y` and
`r < y`), so it takes the final `else` branch: `high = probe`. -/
def selectLoop (d : RankDir) (which y : Nat) : Nat → Int → Int → Int → Int
  | 0, _, _, val => val
  | fuel + 1, high, low, val =>
    if 1 < high - low then
      let probe := Int.tdiv (high + low) 2
      match popRankW d which probe.toNat with
      | some r =>
        if r = (y : Int) then selectLoop d which y fuel probe low probe
        else if r < (y : Int) then selectLoop d which y fuel high probe val
        else selectLoop d which y fuel probe low val
      | none => selectLoop d which y fuel probe low val
    else val

/-- `RankDirectory.select(which, y)` (src/src/rank.js lines 166-193).
Under `selectsearch` it is `rank(0, y)` regardless of `which`; the
popcount binary search always returns a number (`val`). -/
def rdSelect (d : RankDir) (which y : Nat) : Except String (Option Int) :=
  if d.selectsearch then rdRank d 0 y
  else Except.ok (some (selectLoop d which y (d.nodecount * 2 + 3)
    ((d.nodecount * 2 + 1 : Nat) : Int) (-1) (-1)))

/-- The popcount-layout build loop of `createRankDirectory`
(src/src/rank.js lines 52-65).  State: bit position `p`, intra-L1 counter
`i`, cumulative count `count1`, intra-L1 cumulative count `count2`.  The
counts are JS numbers fed by `bits.count(p, 32)`, so they go (and stay)
`NaN` once a table read overflows; writing `NaN` through the bit writer
coerces every 16-bit chunk to 0 (`data >>> shift` on `NaN`), i.e. it
writes the value 0. -/
def buildPopLoop (data : List Nat) (numBits l1bits l2bits : Nat) :
    Nat → Nat → Nat → Option Nat → Option Nat → BitWriter → BitWriter
  | 0, _, _, _, _, dir => dir
  | fuel + 1, p, i, count1, count2, dir =>
    if p + 32 ≤ numBits then
      let c2 := nanAdd count2 (bsCount data p 32)
      if i + 32 = 1024 then
        buildPopLoop data numBits l1bits l2bits fuel (p + 32) 0 (nanAdd count1 c2) (some 0)
          (bwWrite dir ((nanAdd count1 c2).getD 0) l1bits)
      else
        buildPopLoop data numBits l1bits l2bits fuel (p + 32) (i + 32) count1 c2
          (bwWrite dir (c2.getD 0) l2bits)
    else dir

/-- The popcount build loop specialized to the case where no table read
overflows: counts are plain naturals and each block contributes its exact
popcount.  `buildPopLoop_defined` shows the real loop coincides with it
on streams whose block reads all stay inside the table. -/
def buildPopLoopI (data : List Nat) (numBits l1bits l2bits : Nat) :
    Nat → Nat → Nat → Nat → Nat → BitWriter → BitWriter
  | 0, _, _, _, _, dir => dir
  | fuel + 1, p, i, count1, count2, dir =>
    if p + 32 ≤ numBits then
      let c2 := count2 + onesIn data p 32
      if i + 32 = 1024 then
        buildPopLoopI data numBits l1bits l2bits fuel (p + 32) 0 (count1 + c2) 0
          (bwWrite dir (count1 + c2) l1bits)
      else
        buildPopLoopI data numBits l1bits l2bits fuel (p + 32) (i + 32) count1 c2
          (bwWrite dir c2 l2bits)
    else dir

/-- The select-as-rank build loop of `createRankDirectory`
(src/src/rank.js lines 66-77): store the position of every 32nd zero. -/
def buildSelLoop (data : List Nat) (numBits l1bits : Nat) :
    Nat → Nat → BitWriter → Except String BitWriter
  | 0, _, _ => Except.error "createRankDirectory: out of fuel"
  | fuel + 1, i, dir =>
    if i + 32 ≤ numBits then
      match pos0 data i 32 with
      | Except.error e => Except.error e
      | Except.ok sel => buildSelLoop data numBits l1bits fuel (sel + 1)
          (bwWrite dir sel l1bits)
    else Except.ok dir

/-- `createRankDirectory(data, config)` (src/src/rank.js lines 34-80) with
`L1 = 1024`, `L2 = 32`: builds the directory blob over `data` and returns
the assembled `RankDirectory`. -/
def createRankDirectory (data : List Nat) (nodecount : Nat) (selectsearch : Bool) :
    Except String RankDir :=
  let numBits := nodecount * 2 + 1
  let l1bits := ceilLog2 numBits
  let l2bits := ceilLog2 1024
  if selectsearch = false then
    Except.ok ⟨(buildPopLoop data numBits l1bits l2bits (numBits + 32) 0 0
      (some 0) (some 0) initWriter).bits16, data, nodecount, selectsearch⟩
  else
    (buildSelLoop data numBits l1bits (numBits + 2) 0 initWriter).map
      (fun w => ⟨w.bits16, data, nodecount, selectsearch⟩)

/-- C6 counterexample: on the popcount directory over the all-ones stream
`[0xFFFF]` (`nodecount = 4`, so `numBits = 9`), `rank(1, 8)` reads
`bitsSetTable256[511]`, one past the 256-entry table: the rank — and with
it `rank(0, 8)` and the sum `rank(0, 8) + rank(1, 8)` — is `NaN`
(`none`), not `8 + 1`. -/
theorem c6_rank_sum_counterexample :
    createRankDirectory [65535] 4 false =
      Except.ok (⟨[], [65535], 4, false⟩ : RankDir) ∧
    popRank1 (⟨[], [65535], 4, false⟩ : RankDir) 8 = none ∧
    rdRank (⟨[], [65535], 4, false⟩ : RankDir) 0 8 = Except.ok none ∧
    rdRank (⟨[], [65535], 4, false⟩ : RankDir) 1 8 = Except.ok none :=
  ⟨rfl, rfl, rfl, rfl⟩

/-- C6 (amended): on a popcount-layout directory, whenever `rank(1, x)`
is a number — its popcount-table reads stay inside the 256-entry table —
the identity holds: `rank(0, x) + rank(1, x) = x + 1`, because the source
defines `rank(0, x)` as `x - rank(1, x) + 1`.  When a table read
overflows, both ranks are `NaN` and the identity fails (see the
counterexample). -/
theorem c6_rank_sum_amended (data : List Nat) (nodecount : Nat) (d : RankDir)
    (hbuild : createRankDirectory data nodecount false = Except.ok d)
    (x : Nat) (hx : x < 2 * nodecount + 1) (r : Nat)
    (hnum : popRank1 d x = some r) :
    ∃ a b : Int, rdRank d 0 x = Except.ok (some a) ∧
      rdRank d 1 x = Except.ok (some b) ∧ a + b = x + 1 := by
  have hsel : d.selectsearch = false := by
    unfold createRankDirectory at hbuild
    rw [if_pos rfl] at hbuild
    have := Except.ok.inj hbuild
    rw [← this]
  refine ⟨(x : Int) - r + 1, r, ?_, ?_, by ring⟩
  · unfold rdRank
    rw [hsel]
    simp only [Bool.false_eq_true, if_false]
    unfold popRankW
    rw [if_pos rfl, hnum]
    rfl
  · unfold rdRank
    rw [hsel]
    simp only [Bool.false_eq_true, if_false]
    unfold popRankW
    rw [if_neg (by omega), hnum]
    rfl

theorem c6_rank_sum_witness :
    popRank1 (⟨[], [40960], 2, false⟩ : RankDir) 3 = some 2 ∧
    ∃ a b : Int, rdRank (⟨[], [40960], 2, false⟩ : RankDir) 0 3 = Except.ok (some a) ∧
      rdRank (⟨[], [40960], 2, false⟩ : RankDir) 1 3 = Except.ok (some b) ∧
      a + b = 3 + 1 :=
  ⟨rfl, c6_rank_sum_amended [40960] 2 ⟨[], [40960], 2, false⟩ rfl 3 (by omega) 2 rfl⟩

/-! ### Popcount directory build: entry-list characterization -/

/-- The `(value, width)` entry the popcount build loop writes for 1-based
block index `b`: every 32nd block stores the cumulative count in `l1bits`
bits, the others the intra-section count in `l2bits` bits. -/
def popEntry (data : List Nat) (l1bits l2bits b : Nat) : Nat × Nat :=
  if b % 32 = 0 then (onesIn data 0 (32 * b), l1bits)
  else (onesIn data (1024 * (b / 32)) (32 * b - 1024 * (b / 32)), l2bits)

/-- The list of entries the popcount build loop writes from block `b` on. -/
def popEntriesFrom (data : List Nat) (numBits l1bits l2bits : Nat) :
    Nat → Nat → List (Nat × Nat)
  | 0, _ => []
  | fuel + 1, b =>
    if 32 * b + 32 ≤ numBits then
      popEntry data l1bits l2bits (b + 1) ::
        popEntriesFrom data numBits l1bits l2bits fuel (b + 1)
    else []

theorem onesIn_le (bytes : List Nat) (p n : Nat) : onesIn bytes p n ≤ n := by
  have := onesIn_add_zerosIn bytes p n
  omega

theorem zerosIn_le (bytes : List Nat) (p n : Nat) : zerosIn bytes p n ≤ n := by
  have := onesIn_add_zerosIn bytes p n
  omega

/-- The popcount build loop, started from the canonical state of block `b`,
writes exactly the entries `popEntriesFrom` lists. -/
theorem buildPopLoop_eq (data : List Nat) (numBits l1bits l2bits : Nat) :
    ∀ fuel b dir,
      buildPopLoopI data numBits l1bits l2bits fuel (32 * b) (32 * (b % 32))
          (onesIn data 0 (1024 * (b / 32)))
          (onesIn data (1024 * (b / 32)) (32 * b - 1024 * (b / 32))) dir =
        writeFields dir (popEntriesFrom data numBits l1bits l2bits fuel b) := by
  intro fuel
  induction fuel with
  | zero => intro b dir; rfl
  | succ f ih =>
    intro b dir
    show (if 32 * b + 32 ≤ numBits then _ else _) =
      writeFields dir (if 32 * b + 32 ≤ numBits then _ else _)
    by_cases hb : 32 * b + 32 ≤ numBits
    · rw [if_pos hb, if_pos hb]
      have hble : 1024 * (b / 32) ≤ 32 * b := by omega
      have hv : onesIn data (1024 * (b / 32)) (32 * b - 1024 * (b / 32)) +
          onesIn data (32 * b) 32 =
          onesIn data (1024 * (b / 32)) (32 * (b + 1) - 1024 * (b / 32)) := by
        have := onesIn_split data (1024 * (b / 32)) (32 * b - 1024 * (b / 32)) 32
        rw [show 1024 * (b / 32) + (32 * b - 1024 * (b / 32)) = 32 * b by omega] at this
        rw [show 32 * (b + 1) - 1024 * (b / 32) =
          32 * b - 1024 * (b / 32) + 32 by omega]
        omega
      by_cases hi : 32 * (b % 32) + 32 = 1024
      · have hmod : b % 32 = 31 := by omega
        rw [if_pos hi]
        have hdiv1 : (b + 1) / 32 = b / 32 + 1 := by omega
        have hmod1 : (b + 1) % 32 = 0 := by omega
        have hc1 : onesIn data 0 (1024 * (b / 32)) +
            (onesIn data (1024 * (b / 32)) (32 * b - 1024 * (b / 32)) +
              onesIn data (32 * b) 32) =
            onesIn data 0 (1024 * ((b + 1) / 32)) := by
          rw [hv]
          have := onesIn_split data 0 (1024 * (b / 32))
            (32 * (b + 1) - 1024 * (b / 32))
          rw [Nat.zero_add] at this
          rw [show 1024 * (b / 32) + (32 * (b + 1) - 1024 * (b / 32)) =
            32 * (b + 1) by omega] at this
          rw [hdiv1]
          rw [show 1024 * (b / 32 + 1) = 32 * (b + 1) by omega]
          omega
        have hentry : popEntry data l1bits l2bits (b + 1) =
            (onesIn data 0 (1024 * ((b + 1) / 32)), l1bits) := by
          unfold popEntry
          rw [if_pos hmod1, hdiv1]
          rw [show 1024 * (b / 32 + 1) = 32 * (b + 1) by omega]
        have := ih (b + 1) (bwWrite dir
          (onesIn data 0 (1024 * (b / 32)) +
            (onesIn data (1024 * (b / 32)) (32 * b - 1024 * (b / 32)) +
              onesIn data (32 * b) 32)) l1bits)
        rw [show 32 * (b + 1) = 32 * b + 32 by omega] at this
        rw [show 32 * ((b + 1) % 32) = 0 by omega] at this
        rw [show 32 * b + 32 - 1024 * ((b + 1) / 32) = 0 by omega] at this
        rw [show onesIn data (1024 * ((b + 1) / 32)) 0 = 0 from rfl] at this
        rw [← hc1] at this
        rw [hentry, ← hc1]
        exact this
      · rw [if_neg hi]
        have hmod : b % 32 ≠ 31 := by omega
        have hdiv1 : (b + 1) / 32 = b / 32 := by omega
        have hmod1 : (b + 1) % 32 = b % 32 + 1 := by omega
        have hentry : popEntry data l1bits l2bits (b + 1) =
            (onesIn data (1024 * (b / 32)) (32 * b - 1024 * (b / 32)) +
              onesIn data (32 * b) 32, l2bits) := by
          unfold popEntry
          rw [if_neg (by omega), hdiv1, hv]
        have := ih (b + 1) (bwWrite dir
          (onesIn data (1024 * (b / 32)) (32 * b - 1024 * (b / 32)) +
            onesIn data (32 * b) 32) l2bits)
        rw [show 32 * (b + 1) = 32 * b + 32 by omega] at this
        rw [show 32 * ((b + 1) % 32) = 32 * (b % 32) + 32 by omega] at this
        rw [hdiv1] at this
        rw [show onesIn data (1024 * (b / 32)) (32 * b + 32 - 1024 * (b / 32)) =
          onesIn data (1024 * (b / 32)) (32 * b - 1024 * (b / 32)) +
            onesIn data (32 * b) 32 from by
          rw [show (32 * b + 32 - 1024 * (b / 32)) =
            32 * (b + 1) - 1024 * (b / 32) by omega, ← hv]] at this
        show buildPopLoopI data numBits l1bits l2bits f (32 * b + 32)
            (32 * (b % 32) + 32) (onesIn data 0 (1024 * (b / 32)))
            (onesIn data (1024 * (b / 32)) (32 * b - 1024 * (b / 32)) +
              onesIn data (32 * b) 32)
            (bwWrite dir
              (onesIn data (1024 * (b / 32)) (32 * b - 1024 * (b / 32)) +
                onesIn data (32 * b) 32) l2bits) =
          writeFields dir (popEntry data l1bits l2bits (b + 1) ::
            popEntriesFrom data numBits l1bits l2bits f (b + 1))
        rw [hentry]
        exact this
    · rw [if_neg hb, if_neg hb]
      rfl

/-- When every 32-bit block read of the build stays inside the popcount
table, the real build loop never goes `NaN` and coincides with the ideal
loop. -/
theorem buildPopLoop_defined (data : List Nat) (hwf : WfBuf data)
    (numBits l1bits l2bits : Nat)
    (hblocks : ∀ b, 32 * b + 32 ≤ numBits → bsCount data (32 * b) 32 ≠ none) :
    ∀ fuel b i c1 c2 dir,
      buildPopLoop data numBits l1bits l2bits fuel (32 * b) i (some c1) (some c2) dir =
        buildPopLoopI data numBits l1bits l2bits fuel (32 * b) i c1 c2 dir := by
  intro fuel
  induction fuel with
  | zero => intro b i c1 c2 dir; rfl
  | succ f ih =>
    intro b i c1 c2 dir
    have hfe : buildPopLoop data numBits l1bits l2bits (f + 1) (32 * b) i
        (some c1) (some c2) dir =
        (if 32 * b + 32 ≤ numBits then
          if i + 32 = 1024 then
            buildPopLoop data numBits l1bits l2bits f (32 * b + 32) 0
              (nanAdd (some c1) (nanAdd (some c2) (bsCount data (32 * b) 32))) (some 0)
              (bwWrite dir ((nanAdd (some c1)
                (nanAdd (some c2) (bsCount data (32 * b) 32))).getD 0) l1bits)
          else
            buildPopLoop data numBits l1bits l2bits f (32 * b + 32) (i + 32) (some c1)
              (nanAdd (some c2) (bsCount data (32 * b) 32))
              (bwWrite dir ((nanAdd (some c2) (bsCount data (32 * b) 32)).getD 0) l2bits)
        else dir) := rfl
    have hie : buildPopLoopI data numBits l1bits l2bits (f + 1) (32 * b) i c1 c2 dir =
        (if 32 * b + 32 ≤ numBits then
          if i + 32 = 1024 then
            buildPopLoopI data numBits l1bits l2bits f (32 * b + 32) 0
              (c1 + (c2 + onesIn data (32 * b) 32)) 0
              (bwWrite dir (c1 + (c2 + onesIn data (32 * b) 32)) l1bits)
          else
            buildPopLoopI data numBits l1bits l2bits f (32 * b + 32) (i + 32) c1
              (c2 + onesIn data (32 * b) 32)
              (bwWrite dir (c2 + onesIn data (32 * b) 32) l2bits)
        else dir) := rfl
    rw [hfe, hie]
    by_cases hp : 32 * b + 32 ≤ numBits
    · rw [if_pos hp, if_pos hp]
      have hcnt : bsCount data (32 * b) 32 = some (onesIn data (32 * b) 32) :=
        bsCount_eq data hwf (32 * b) 32 (hblocks b hp)
      rw [hcnt]
      have h32 : (32 * b + 32 : Nat) = 32 * (b + 1) := by ring
      by_cases hi : i + 32 = 1024
      · rw [if_pos hi, if_pos hi, h32]
        exact ih (b + 1) 0 (c1 + (c2 + onesIn data (32 * b) 32)) 0
          (bwWrite dir (c1 + (c2 + onesIn data (32 * b) 32)) l1bits)
      · rw [if_neg hi, if_neg hi, h32]
        exact ih (b + 1) (i + 32) c1 (c2 + onesIn data (32 * b) 32)
          (bwWrite dir (c2 + onesIn data (32 * b) 32) l2bits)
    · rw [if_neg hp, if_neg hp]

theorem popEntriesFrom_length (data : List Nat) (numBits l1bits l2bits : Nat) :
    ∀ fuel b, numBits / 32 ≤ b + fuel →
      (popEntriesFrom data numBits l1bits l2bits fuel b).length =
        numBits / 32 - b := by
  intro fuel
  induction fuel with
  | zero =>
    intro b hb
    show ([] : List (Nat × Nat)).length = numBits / 32 - b
    simp
    omega
  | succ f ih =>
    intro b hb
    show (if 32 * b + 32 ≤ numBits then _ :: _ else []).length = numBits / 32 - b
    by_cases hcond : 32 * b + 32 ≤ numBits
    · rw [if_pos hcond]
      have := ih (b + 1) (by omega)
      simp only [List.length_cons, this]
      omega
    · rw [if_neg hcond]
      simp
      omega

theorem popEntriesFrom_get (data : List Nat) (numBits l1bits l2bits : Nat) :
    ∀ fuel b j (h : j < (popEntriesFrom data numBits l1bits l2bits fuel b).length),
      (popEntriesFrom data numBits l1bits l2bits fuel b).get ⟨j, h⟩ =
        popEntry data l1bits l2bits (b + j + 1) := by
  intro fuel
  induction fuel with
  | zero =>
    intro b j h
    exact absurd h (by simp [popEntriesFrom])
  | succ f ih =>
    intro b j h
    by_cases hcond : 32 * b + 32 ≤ numBits
    · have hexp : popEntriesFrom data numBits l1bits l2bits (f + 1) b =
          popEntry data l1bits l2bits (b + 1) ::
            popEntriesFrom data numBits l1bits l2bits f (b + 1) := by
        show (if 32 * b + 32 ≤ numBits then _ else _) = _
        rw [if_pos hcond]
      cases j with
      | zero => simp [hexp]
      | succ m =>
        have hm : m < (popEntriesFrom data numBits l1bits l2bits f (b + 1)).length := by
          rw [hexp] at h
          simpa using h
        have := ih (b + 1) m hm
        have hmain : (popEntriesFrom data numBits l1bits l2bits (f + 1) b).get ⟨m + 1, h⟩ =
            (popEntriesFrom data numBits l1bits l2bits f (b + 1)).get ⟨m, hm⟩ := by
          simp [hexp]
        rw [hmain, this]
        congr 1
        omega
    · exfalso
      have : popEntriesFrom data numBits l1bits l2bits (f + 1) b = [] := by
        show (if 32 * b + 32 ≤ numBits then _ else _) = _
        rw [if_neg hcond]
      rw [this] at h
      simp at h

theorem popEntriesFrom_widths (data : List Nat) (numBits l1bits l2bits : Nat) :
    ∀ fuel b f, f ∈ popEntriesFrom data numBits l1bits l2bits fuel b →
      f.2 = l1bits ∨ f.2 = l2bits := by
  intro fuel
  induction fuel with
  | zero =>
    intro b f hf
    exact absurd hf (by simp [popEntriesFrom])
  | succ fl ih =>
    intro b f hf
    by_cases hcond : 32 * b + 32 ≤ numBits
    · have hexp : popEntriesFrom data numBits l1bits l2bits (fl + 1) b =
          popEntry data l1bits l2bits (b + 1) ::
            popEntriesFrom data numBits l1bits l2bits fl (b + 1) := by
        show (if 32 * b + 32 ≤ numBits then _ else _) = _
        rw [if_pos hcond]
      rw [hexp] at hf
      rcases List.mem_cons.mp hf with h | h
      · subst h
        unfold popEntry
        by_cases hb : (b + 1) % 32 = 0
        · rw [if_pos hb]; left; rfl
        · rw [if_neg hb]; right; rfl
      · exact ih (b + 1) f h
    · have : popEntriesFrom data numBits l1bits l2bits (fl + 1) b = [] := by
        show (if 32 * b + 32 ≤ numBits then _ else _) = _
        rw [if_neg hcond]
      rw [this] at hf
      simp at hf

/-- Cumulative width of the first `k` entries, measured from block `b`:
one `l1bits` entry per completed section, `l2bits` for the rest. -/
theorem widthsSum_take_popEntriesFrom (data : List Nat) (numBits l1bits l2bits : Nat) :
    ∀ fuel b k, b + k ≤ numBits / 32 → numBits / 32 ≤ b + fuel →
      widthsSum ((popEntriesFrom data numBits l1bits l2bits fuel b).take k) =
        ((b + k) / 32 - b / 32) * l1bits +
          (k - ((b + k) / 32 - b / 32)) * l2bits := by
  intro fuel
  induction fuel with
  | zero =>
    intro b k hk hfuel
    have hk0 : k = 0 := by omega
    subst hk0
    simp [popEntriesFrom, widthsSum]
  | succ f ih =>
    intro b k hk hfuel
    cases k with
    | zero =>
      simp [widthsSum]
    | succ m =>
      have hcond : 32 * b + 32 ≤ numBits := by omega
      have hexp : popEntriesFrom data numBits l1bits l2bits (f + 1) b =
          popEntry data l1bits l2bits (b + 1) ::
            popEntriesFrom data numBits l1bits l2bits f (b + 1) := by
        show (if 32 * b + 32 ≤ numBits then _ else _) = _
        rw [if_pos hcond]
      rw [hexp]
      have hrec := ih (b + 1) m (by omega) (by omega)
      show widthsSum (popEntry data l1bits l2bits (b + 1) ::
        (popEntriesFrom data numBits l1bits l2bits f (b + 1)).take m) = _
      have hws : widthsSum (popEntry data l1bits l2bits (b + 1) ::
          (popEntriesFrom data numBits l1bits l2bits f (b + 1)).take m) =
          (popEntry data l1bits l2bits (b + 1)).2 +
            widthsSum ((popEntriesFrom data numBits l1bits l2bits f (b + 1)).take m) := by
        rcases hp : popEntry data l1bits l2bits (b + 1) with ⟨v, n⟩
        rfl
      rw [hws, hrec]
      unfold popEntry
      by_cases hb : (b + 1) % 32 = 0
      · rw [if_pos hb]
        have h1 : (b + 1) / 32 = b / 32 + 1 := by omega
        have h2 : (b + 1 + m) / 32 = (b + (m + 1)) / 32 := by
          congr 1
          omega
        rw [h1]
        show l1bits + (((b + 1 + m) / 32 - (b / 32 + 1)) * l1bits +
          (m - ((b + 1 + m) / 32 - (b / 32 + 1))) * l2bits) = _
        rw [h2]
        have hge : b / 32 + 1 ≤ (b + (m + 1)) / 32 := by omega
        have e1 : (b + (m + 1)) / 32 - b / 32 =
            ((b + (m + 1)) / 32 - (b / 32 + 1)) + 1 := by omega
        have e2 : m + 1 - (((b + (m + 1)) / 32 - (b / 32 + 1)) + 1) =
            m - ((b + (m + 1)) / 32 - (b / 32 + 1)) := by omega
        rw [e1, e2]
        ring
      · rw [if_neg hb]
        have h1 : (b + 1) / 32 = b / 32 := by omega
        have h2 : (b + 1 + m) / 32 = (b + (m + 1)) / 32 := by
          congr 1
          omega
        rw [h1]
        show l2bits + (((b + 1 + m) / 32 - b / 32) * l1bits +
          (m - ((b + 1 + m) / 32 - b / 32)) * l2bits) = _
        rw [h2]
        have hle : (b + (m + 1)) / 32 - b / 32 ≤ m := by omega
        have e3 : m + 1 - ((b + (m + 1)) / 32 - b / 32) =
            (m - ((b + (m + 1)) / 32 - b / 32)) + 1 := by omega
        rw [e3]
        ring

theorem onesIn_zero (bytes : List Nat) (p : Nat) : onesIn bytes p 0 = 0 := rfl

/-- Reading a field of a freshly written blob (specialization of
`writeFields_field` through `bsGet`). -/
theorem writeFields_read (fields : List (Nat × Nat))
    (hn : ∀ f ∈ fields, f.2 ≤ 32) (k : Nat) (hk : k < fields.length) :
    bsGet (writeFields initWriter fields).bits16 (widthsSum (fields.take k))
        (fields.get ⟨k, hk⟩).2 =
      (fields.get ⟨k, hk⟩).1 % 2 ^ (fields.get ⟨k, hk⟩).2 := by
  obtain ⟨hwffinal, _, _⟩ := writeFields_spec fields initWriter initWriter_wf hn
  rw [bsGet_eq _ hwffinal.1]
  have := writeFields_field fields initWriter initWriter_wf hn k hk
  simpa [initWriter] using this

theorem ceilLog2_1024 : ceilLog2 1024 = 10 := by decide

/-- The block reads of the build all stay in-table whenever the trailing
query reads do: the read at block `b` is the query read at `x = 32b + 31`. -/
theorem blocks_defined_of_queries (data : List Nat) (numBits : Nat)
    (hdefall : ∀ z, z < numBits → bsCount data (z - z % 32) (z % 32 + 1) ≠ none) :
    ∀ b, 32 * b + 32 ≤ numBits → bsCount data (32 * b) 32 ≠ none := by
  intro b hb
  have h31 := hdefall (32 * b + 31) (by omega)
  rw [show 32 * b + 31 - (32 * b + 31) % 32 = 32 * b by omega,
    show (32 * b + 31) % 32 + 1 = 32 by omega] at h31
  exact h31

/-- The built popcount directory answers `rank(1, x)` with the number of
set bits in the first `x + 1` stream bits, for every in-stream `x`,
provided every trailing count read stays inside the popcount table. -/
theorem popRank1_built (data : List Nat) (nodecount : Nat) (hwf : WfBuf data)
    (hnc : nodecount * 2 + 1 ≤ 2 ^ 31)
    (hdefall : ∀ z, z < nodecount * 2 + 1 →
      bsCount data (z - z % 32) (z % 32 + 1) ≠ none)
    (d : RankDir)
    (hbuild : createRankDirectory data nodecount false = Except.ok d)
    (x : Nat) (hx : x < nodecount * 2 + 1) :
    popRank1 d x = some (onesIn data 0 (x + 1)) := by
  have hd : d = ⟨(buildPopLoop data (nodecount * 2 + 1)
      (ceilLog2 (nodecount * 2 + 1)) (ceilLog2 1024)
      (nodecount * 2 + 1 + 32) 0 0 (some 0) (some 0) initWriter).bits16,
      data, nodecount, false⟩ := by
    unfold createRankDirectory at hbuild
    rw [if_pos rfl] at hbuild
    exact (Except.ok.inj hbuild).symm
  have hl1le : ceilLog2 (nodecount * 2 + 1) ≤ 31 :=
    ceilLog2Aux_le 64 _ 31 hnc (by norm_num)
  have hl1ge : nodecount * 2 + 1 ≤ 2 ^ ceilLog2 (nodecount * 2 + 1) :=
    ceilLog2Aux_ge 64 _ (le_trans hnc (Nat.pow_le_pow_right (by norm_num) (by norm_num)))
  have hblocks := blocks_defined_of_queries data (nodecount * 2 + 1) hdefall
  have hfb := buildPopLoop_defined data hwf (nodecount * 2 + 1)
    (ceilLog2 (nodecount * 2 + 1)) (ceilLog2 1024) hblocks
    (nodecount * 2 + 1 + 32) 0 0 0 0 initWriter
  have hbeq := buildPopLoop_eq data (nodecount * 2 + 1)
    (ceilLog2 (nodecount * 2 + 1)) (ceilLog2 1024) (nodecount * 2 + 1 + 32) 0 initWriter
  simp only [Nat.sub_self, onesIn_zero] at hbeq
  have hdir : d.directory = (writeFields initWriter
      (popEntriesFrom data (nodecount * 2 + 1) (ceilLog2 (nodecount * 2 + 1))
        (ceilLog2 1024) (nodecount * 2 + 1 + 32) 0)).bits16 := by
    rw [hd]
    exact congrArg BitWriter.bits16 (hfb.trans hbeq)
  have hwidths : ∀ f ∈ popEntriesFrom data (nodecount * 2 + 1)
      (ceilLog2 (nodecount * 2 + 1)) (ceilLog2 1024) (nodecount * 2 + 1 + 32) 0,
      f.2 ≤ 32 := by
    intro f hf
    rcases popEntriesFrom_widths data (nodecount * 2 + 1) _ _ _ 0 f hf with h | h
    · omega
    · rw [h, ceilLog2_1024]; omega
  have hlen : (popEntriesFrom data (nodecount * 2 + 1) (ceilLog2 (nodecount * 2 + 1))
      (ceilLog2 1024) (nodecount * 2 + 1 + 32) 0).length = (nodecount * 2 + 1) / 32 :=
    popEntriesFrom_length data _ _ _ _ 0 (by omega)
  have hdata : d.data = data := by rw [hd]
  have hnode : d.nodecount = nodecount := by rw [hd]
  have hL1 : rdL1Bits d = ceilLog2 (nodecount * 2 + 1) := by
    unfold rdL1Bits
    rw [hnode]
  have hL2 : rdL2Bits = 10 := ceilLog2_1024
  -- Reading the k-th entry back (1-based block index k + 1).
  have hread : ∀ k (hk : k < (nodecount * 2 + 1) / 32),
      bsGet d.directory
          (widthsSum ((popEntriesFrom data (nodecount * 2 + 1)
            (ceilLog2 (nodecount * 2 + 1)) (ceilLog2 1024)
            (nodecount * 2 + 1 + 32) 0).take k))
          (popEntry data (ceilLog2 (nodecount * 2 + 1)) (ceilLog2 1024) (k + 1)).2 =
        (popEntry data (ceilLog2 (nodecount * 2 + 1)) (ceilLog2 1024) (k + 1)).1 %
          2 ^ (popEntry data (ceilLog2 (nodecount * 2 + 1)) (ceilLog2 1024) (k + 1)).2 := by
    intro k hk
    have hk' : k < (popEntriesFrom data (nodecount * 2 + 1)
        (ceilLog2 (nodecount * 2 + 1)) (ceilLog2 1024)
        (nodecount * 2 + 1 + 32) 0).length := by omega
    have hget := popEntriesFrom_get data (nodecount * 2 + 1)
      (ceilLog2 (nodecount * 2 + 1)) (ceilLog2 1024) (nodecount * 2 + 1 + 32) 0 k hk'
    rw [show (0 + k + 1) = k + 1 by omega] at hget
    have := writeFields_read _ hwidths k hk'
    rw [hget] at this
    rw [hdir]
    exact this
  -- Closed form of the cumulative offsets.
  have hsum : ∀ k, k ≤ (nodecount * 2 + 1) / 32 →
      widthsSum ((popEntriesFrom data (nodecount * 2 + 1)
        (ceilLog2 (nodecount * 2 + 1)) (ceilLog2 1024)
        (nodecount * 2 + 1 + 32) 0).take k) =
        (k / 32) * ceilLog2 (nodecount * 2 + 1) + (k - k / 32) * 10 := by
    intro k hk
    have := widthsSum_take_popEntriesFrom data (nodecount * 2 + 1)
      (ceilLog2 (nodecount * 2 + 1)) (ceilLog2 1024) (nodecount * 2 + 1 + 32) 0 k
      (by omega) (by omega)
    rw [this, ceilLog2_1024]
    norm_num
  have hreadO : ∀ k (hk : k < (nodecount * 2 + 1) / 32),
      bsGet d.directory (k / 32 * ceilLog2 (nodecount * 2 + 1) + (k - k / 32) * 10)
          (popEntry data (ceilLog2 (nodecount * 2 + 1)) (ceilLog2 1024) (k + 1)).2 =
        (popEntry data (ceilLog2 (nodecount * 2 + 1)) (ceilLog2 1024) (k + 1)).1 %
          2 ^ (popEntry data (ceilLog2 (nodecount * 2 + 1)) (ceilLog2 1024) (k + 1)).2 := by
    intro k hk
    have h1 := hread k hk
    rw [hsum k (by omega)] at h1
    exact h1
  have hsec : rdSectionBits d = 31 * 10 + ceilLog2 (nodecount * 2 + 1) := by
    unfold rdSectionBits
    rw [hL2, hL1]
  obtain ⟨v, hc⟩ : ∃ v, bsCount data (x - x % 32) (x % 32 + 1) = some v := by
    cases hc : bsCount data (x - x % 32) (x % 32 + 1) with
    | none => exact absurd hc (hdefall x hx)
    | some v => exact ⟨v, rfl⟩
  have hveq : v = onesIn data (x - x % 32) (x % 32 + 1) :=
    bsCountAux_eq data hwf (x % 32 + 1) (x - x % 32) (x % 32 + 1) v (by omega) hc
  have hmap : popRank1 d x = some (popRank1Dir d x + v) := by
    show (bsCount d.data (x - x % 32) (x % 32 + 1)).map
      (fun c => popRank1Dir d x + c) = some (popRank1Dir d x + v)
    rw [hdata, hc]
    rfl
  rw [hmap, hveq]
  congr 1
  show (if 1024 ≤ x then
      bsGet d.directory (x / 1024 * rdSectionBits d - rdL1Bits d) (rdL1Bits d) else 0) +
    (if 32 ≤ (if 1024 ≤ x then x % 1024 else x) then
      bsGet d.directory ((if 1024 ≤ x then x / 1024 * rdSectionBits d else 0) +
        (if 1024 ≤ x then x % 1024 else x) / 32 * rdL2Bits - rdL2Bits) rdL2Bits
      else 0) +
    onesIn data (x - x % 32) (x % 32 + 1) = onesIn data 0 (x + 1)
  rw [hsec, hL1, hL2]
  by_cases h1024 : 1024 ≤ x
  · rw [if_pos h1024, if_pos h1024, if_pos h1024]
    obtain ⟨c, hc⟩ : ∃ c, x / 1024 = c + 1 := ⟨x / 1024 - 1, by omega⟩
    -- the L1 entry
    have hk1 : 32 * (x / 1024) - 1 < (nodecount * 2 + 1) / 32 := by omega
    have hro1 := hreadO (32 * (x / 1024) - 1) hk1
    have hpe1 : popEntry data (ceilLog2 (nodecount * 2 + 1)) (ceilLog2 1024)
        (32 * (x / 1024) - 1 + 1) =
        (onesIn data 0 (1024 * (x / 1024)), ceilLog2 (nodecount * 2 + 1)) := by
      rw [show 32 * (x / 1024) - 1 + 1 = 32 * (x / 1024) by omega]
      unfold popEntry
      rw [if_pos (by omega)]
      rw [show 32 * (32 * (x / 1024)) = 1024 * (x / 1024) by ring]
    rw [hpe1] at hro1
    have hv1 : onesIn data 0 (1024 * (x / 1024)) <
        2 ^ ceilLog2 (nodecount * 2 + 1) := by
      have := onesIn_le data 0 (1024 * (x / 1024))
      omega
    rw [Nat.mod_eq_of_lt hv1] at hro1
    have e1 : x / 1024 * (31 * 10 + ceilLog2 (nodecount * 2 + 1)) -
        ceilLog2 (nodecount * 2 + 1) =
        (32 * (x / 1024) - 1) / 32 * ceilLog2 (nodecount * 2 + 1) +
          (32 * (x / 1024) - 1 - (32 * (x / 1024) - 1) / 32) * 10 := by
      rw [hc]
      rw [show (32 * (c + 1) - 1) / 32 = c by omega]
      rw [show 32 * (c + 1) - 1 - c = 31 * (c + 1) by omega]
      rw [show (c + 1) * (31 * 10 + ceilLog2 (nodecount * 2 + 1)) =
        ceilLog2 (nodecount * 2 + 1) +
          (c * ceilLog2 (nodecount * 2 + 1) + 31 * (c + 1) * 10) by ring]
      rw [Nat.add_sub_cancel_left]
    rw [e1, hro1]
    by_cases ho : 32 ≤ x % 1024
    · rw [if_pos ho]
      obtain ⟨u, hu⟩ : ∃ u, x % 1024 / 32 = u + 1 := ⟨x % 1024 / 32 - 1, by omega⟩
      have hk2 : 32 * (x / 1024) + x % 1024 / 32 - 1 < (nodecount * 2 + 1) / 32 := by
        omega
      have hro2 := hreadO (32 * (x / 1024) + x % 1024 / 32 - 1) hk2
      have hpe2 : popEntry data (ceilLog2 (nodecount * 2 + 1)) (ceilLog2 1024)
          (32 * (x / 1024) + x % 1024 / 32 - 1 + 1) =
          (onesIn data (1024 * (x / 1024)) (32 * (x % 1024 / 32)), ceilLog2 1024) := by
        rw [show 32 * (x / 1024) + x % 1024 / 32 - 1 + 1 =
          32 * (x / 1024) + x % 1024 / 32 by omega]
        unfold popEntry
        rw [if_neg (by omega)]
        rw [show (32 * (x / 1024) + x % 1024 / 32) / 32 = x / 1024 by omega]
        rw [show 32 * (32 * (x / 1024) + x % 1024 / 32) - 1024 * (x / 1024) =
          32 * (x % 1024 / 32) by omega]
      rw [hpe2, ceilLog2_1024] at hro2
      have hv2 : onesIn data (1024 * (x / 1024)) (32 * (x % 1024 / 32)) < 2 ^ 10 := by
        have := onesIn_le data (1024 * (x / 1024)) (32 * (x % 1024 / 32))
        have h2 : (2 : Nat) ^ 10 = 1024 := by norm_num
        omega
      rw [Nat.mod_eq_of_lt hv2] at hro2
      have e2 : x / 1024 * (31 * 10 + ceilLog2 (nodecount * 2 + 1)) +
          x % 1024 / 32 * 10 - 10 =
          (32 * (x / 1024) + x % 1024 / 32 - 1) / 32 * ceilLog2 (nodecount * 2 + 1) +
            (32 * (x / 1024) + x % 1024 / 32 - 1 -
              (32 * (x / 1024) + x % 1024 / 32 - 1) / 32) * 10 := by
        rw [show (32 * (x / 1024) + x % 1024 / 32 - 1) / 32 = x / 1024 by omega]
        rw [show 32 * (x / 1024) + x % 1024 / 32 - 1 - x / 1024 =
          31 * (x / 1024) + (x % 1024 / 32 - 1) by omega]
        rw [hu, hc]
        rw [show (c + 1) * (31 * 10 + ceilLog2 (nodecount * 2 + 1)) + (u + 1) * 10 =
          10 + ((c + 1) * ceilLog2 (nodecount * 2 + 1) +
            (31 * (c + 1) + (u + 1 - 1)) * 10) by
          rw [Nat.add_sub_cancel]
          ring]
        rw [Nat.add_sub_cancel_left]
      rw [e2, hro2]
      have hsplit : x + 1 = 1024 * (x / 1024) + 32 * (x % 1024 / 32) + (x % 32 + 1) := by
        omega
      rw [hsplit, onesIn_split data 0 (1024 * (x / 1024) + 32 * (x % 1024 / 32))
        (x % 32 + 1), onesIn_split data 0 (1024 * (x / 1024)) (32 * (x % 1024 / 32))]
      rw [show x - x % 32 = 1024 * (x / 1024) + 32 * (x % 1024 / 32) by omega]
      simp only [Nat.zero_add]
    · rw [if_neg ho]
      have hsplit : x + 1 = 1024 * (x / 1024) + (x % 32 + 1) := by omega
      rw [hsplit, onesIn_split data 0 (1024 * (x / 1024)) (x % 32 + 1)]
      rw [show x - x % 32 = 1024 * (x / 1024) by omega]
      simp only [Nat.zero_add]
      omega
  · rw [if_neg h1024, if_neg h1024, if_neg h1024]
    by_cases h32 : 32 ≤ x
    · rw [if_pos h32]
      have hk2 : x / 32 - 1 < (nodecount * 2 + 1) / 32 := by omega
      have hro2 := hreadO (x / 32 - 1) hk2
      have hpe2 : popEntry data (ceilLog2 (nodecount * 2 + 1)) (ceilLog2 1024)
          (x / 32 - 1 + 1) = (onesIn data 0 (32 * (x / 32)), ceilLog2 1024) := by
        rw [show x / 32 - 1 + 1 = x / 32 by omega]
        unfold popEntry
        rw [if_neg (by omega)]
        rw [show 1024 * (x / 32 / 32) = 0 by omega]
        rw [show 32 * (x / 32) - 0 = 32 * (x / 32) by omega]
      rw [hpe2, ceilLog2_1024] at hro2
      have hv2 : onesIn data 0 (32 * (x / 32)) < 2 ^ 10 := by
        have := onesIn_le data 0 (32 * (x / 32))
        have h2 : (2 : Nat) ^ 10 = 1024 := by norm_num
        omega
      rw [Nat.mod_eq_of_lt hv2] at hro2
      have e2 : 0 + x / 32 * 10 - 10 =
          (x / 32 - 1) / 32 * ceilLog2 (nodecount * 2 + 1) +
            (x / 32 - 1 - (x / 32 - 1) / 32) * 10 := by
        rw [show (x / 32 - 1) / 32 = 0 by omega, Nat.zero_mul, Nat.zero_add,
          Nat.sub_zero]
        omega
      rw [e2, hro2]
      have hsplit : x + 1 = 32 * (x / 32) + (x % 32 + 1) := by omega
      rw [hsplit, onesIn_split data 0 (32 * (x / 32)) (x % 32 + 1)]
      rw [show x - x % 32 = 32 * (x / 32) by omega]
      simp only [Nat.zero_add]
    · rw [if_neg h32]
      rw [show x - x % 32 = 0 by omega, show x % 32 = x by omega]
      simp only [Nat.zero_add]

/-- On a built popcount directory with in-table count reads, `rank(0, x)`
counts the zeros among the first `x + 1` stream bits. -/
theorem popRankW_built (data : List Nat) (nodecount : Nat) (hwf : WfBuf data)
    (hnc : nodecount * 2 + 1 ≤ 2 ^ 31)
    (hdefall : ∀ z, z < nodecount * 2 + 1 →
      bsCount data (z - z % 32) (z % 32 + 1) ≠ none)
    (d : RankDir)
    (hbuild : createRankDirectory data nodecount false = Except.ok d)
    (x : Nat) (hx : x < nodecount * 2 + 1) :
    popRankW d 0 x = some ((zerosIn data 0 (x + 1) : Nat) : Int) := by
  unfold popRankW
  rw [if_pos rfl, popRank1_built data nodecount hwf hnc hdefall d hbuild x hx]
  show some ((x : Int) - (onesIn data 0 (x + 1) : Nat) + 1) =
    some ((zerosIn data 0 (x + 1) : Nat) : Int)
  congr 1
  have h1 := onesIn_add_zerosIn data 0 (x + 1)
  have h2 := onesIn_le data 0 (x + 1)
  omega

/-- The binary search of `RankDirectory.select` over a rank oracle that
counts zeros finds the exact position of the `y`-th zero. -/
theorem selectLoop_ok (d : RankDir) (data : List Nat) (numBits y q : Nat)
    (hrank : ∀ x : Nat, x < numBits →
      popRankW d 0 x = some ((zerosIn data 0 (x + 1) : Nat) : Int))
    (hy : 1 ≤ y) (hq : IsNthZeroFrom data 0 y q) (hqlt : q < numBits) :
    ∀ fuel (high low val : Int),
      (high - low).toNat ≤ fuel →
      -1 ≤ low → low < (q : Int) → (q : Int) ≤ high → high ≤ (numBits : Int) →
      (val = -1 → (numBits : Int) ≤ high ∨
        (y : Int) < (zerosIn data 0 (high.toNat + 1) : Int)) →
      (val ≠ -1 → val = high ∧ (zerosIn data 0 (high.toNat + 1) : Int) = (y : Int)) →
      selectLoop d 0 y fuel high low val = (q : Int) := by
  have hzq : zerosIn data 0 (q + 1) = y := by
    have h1 : zerosIn data 0 (q - 0) = y - 1 := hq.2.2
    rw [Nat.sub_zero] at h1
    have h2 := zerosIn_succ_right data 0 q
    rw [Nat.zero_add, hq.2.1] at h2
    simp only [Bool.false_eq_true, if_false] at h2
    omega
  have hlt : ∀ x : Nat, x < q → zerosIn data 0 (x + 1) < y := by
    intro x hxq
    have := zerosIn_mono data 0 (show x + 1 ≤ q by omega)
    have h1 : zerosIn data 0 (q - 0) = y - 1 := hq.2.2
    rw [Nat.sub_zero] at h1
    omega
  have hge : ∀ x : Nat, q ≤ x → y ≤ zerosIn data 0 (x + 1) := by
    intro x hxq
    have := zerosIn_mono data 0 (show q + 1 ≤ x + 1 by omega)
    omega
  intro fuel
  induction fuel with
  | zero =>
    intro high low val hfuel _ hlow hhigh _ _ _
    exfalso
    omega
  | succ f ih =>
    intro high low val hfuel hm1 hlow hhigh hnb hval1 hval2
    show (if 1 < high - low then
        match popRankW d 0 (Int.tdiv (high + low) 2).toNat with
        | some r =>
          if r = (y : Int) then
            selectLoop d 0 y f (Int.tdiv (high + low) 2) low (Int.tdiv (high + low) 2)
          else if r < (y : Int) then
            selectLoop d 0 y f high (Int.tdiv (high + low) 2) val
          else selectLoop d 0 y f (Int.tdiv (high + low) 2) low val
        | none => selectLoop d 0 y f (Int.tdiv (high + low) 2) low val
      else val) = (q : Int)
    by_cases hcond : 1 < high - low
    · rw [if_pos hcond]
      have h0 : (0 : Int) ≤ high + low := by omega
      have htd : Int.tdiv (high + low) 2 = (high + low) / 2 :=
        Int.tdiv_eq_ediv h0 (by norm_num)
      have hplow : low + 1 ≤ Int.tdiv (high + low) 2 := by rw [htd]; omega
      have hphigh : Int.tdiv (high + low) 2 < high := by rw [htd]; omega
      have hp0 : (0 : Int) ≤ Int.tdiv (high + low) 2 := by omega
      have hpn : (Int.tdiv (high + low) 2).toNat < numBits := by omega
      have hr := hrank (Int.tdiv (high + low) 2).toNat hpn
      rw [hr]
      show (if (zerosIn data 0 ((Int.tdiv (high + low) 2).toNat + 1) : Int) = (y : Int) then
          selectLoop d 0 y f (Int.tdiv (high + low) 2) low (Int.tdiv (high + low) 2)
        else if (zerosIn data 0 ((Int.tdiv (high + low) 2).toNat + 1) : Int) < (y : Int) then
          selectLoop d 0 y f high (Int.tdiv (high + low) 2) val
        else selectLoop d 0 y f (Int.tdiv (high + low) 2) low val) = (q : Int)
      have hpq : ((Int.tdiv (high + low) 2).toNat : Int) = Int.tdiv (high + low) 2 := by
        omega
      by_cases he : (zerosIn data 0 ((Int.tdiv (high + low) 2).toNat + 1) : Int) = (y : Int)
      · rw [if_pos he]
        have hqle : (q : Int) ≤ Int.tdiv (high + low) 2 := by
          by_contra hcon
          have hlt2 := hlt (Int.tdiv (high + low) 2).toNat (by omega)
          omega
        refine ih (Int.tdiv (high + low) 2) low (Int.tdiv (high + low) 2)
          (by omega) hm1 hlow hqle (by omega) ?_ ?_
        · intro hcontra
          exfalso
          omega
        · intro _
          exact ⟨rfl, he⟩
      · rw [if_neg he]
        by_cases hlt2 : (zerosIn data 0 ((Int.tdiv (high + low) 2).toNat + 1) : Int) < (y : Int)
        · rw [if_pos hlt2]
          have hpq2 : Int.tdiv (high + low) 2 < (q : Int) := by
            by_contra hcon
            have := hge (Int.tdiv (high + low) 2).toNat (by omega)
            omega
          exact ih high (Int.tdiv (high + low) 2) val (by omega) (by omega) hpq2
            hhigh hnb hval1 hval2
        · rw [if_neg hlt2]
          have hgt : (y : Int) < (zerosIn data 0 ((Int.tdiv (high + low) 2).toNat + 1) : Int) := by
            omega
          have hvm1 : val = -1 := by
            by_contra hvne
            obtain ⟨hveq, hzh⟩ := hval2 hvne
            have hmono := zerosIn_mono data 0
              (show (Int.tdiv (high + low) 2).toNat + 1 ≤ high.toNat + 1 by omega)
            omega
          have hqle : (q : Int) ≤ Int.tdiv (high + low) 2 := by
            by_contra hcon
            have := hlt (Int.tdiv (high + low) 2).toNat (by omega)
            omega
          subst hvm1
          refine ih (Int.tdiv (high + low) 2) low (-1) (by omega) hm1 hlow hqle
            (by omega) ?_ ?_
          · intro _
            right
            omega
          · intro hcontra
            exact absurd rfl hcontra
    · rw [if_neg hcond]
      have hhq : high = (q : Int) := by omega
      by_cases hv : val = -1
      · exfalso
        rcases hval1 hv with h | h
        · omega
        · rw [hhq] at h
          have : (q : Int).toNat = q := by omega
          rw [this, hzq] at h
          omega
      · obtain ⟨hveq, _⟩ := hval2 hv
        rw [hveq, hhq]

/-- Crossing the `q`-th bit when it is a zero bit adds one zero. -/
theorem zerosIn_succ_at (bytes : List Nat) (i q : Nat) (hiq : i ≤ q)
    (hbit : streamBit bytes q = false) :
    zerosIn bytes i (q + 1 - i) = zerosIn bytes i (q - i) + 1 := by
  have h2 := zerosIn_succ_right bytes i (q - i)
  rw [show i + (q - i) = q by omega, hbit] at h2
  simp only [Bool.false_eq_true, if_false] at h2
  rw [show q + 1 - i = (q - i) + 1 by omega]
  omega

/-- `select(0, y)` on a built popcount directory returns the position of
the `y`-th zero of the stream, whenever that zero exists in-stream. -/
theorem rdSelect_pop_ok (data : List Nat) (nodecount : Nat) (hwf : WfBuf data)
    (hnc : nodecount * 2 + 1 ≤ 2 ^ 31)
    (hdefall : ∀ z, z < nodecount * 2 + 1 →
      bsCount data (z - z % 32) (z % 32 + 1) ≠ none)
    (d : RankDir)
    (hbuild : createRankDirectory data nodecount false = Except.ok d)
    (y q : Nat) (hy : 1 ≤ y) (hq : IsNthZeroFrom data 0 y q)
    (hqlt : q < nodecount * 2 + 1) :
    rdSelect d 0 y = Except.ok (some (q : Int)) := by
  have hd : d = ⟨(buildPopLoop data (nodecount * 2 + 1)
      (ceilLog2 (nodecount * 2 + 1)) (ceilLog2 1024)
      (nodecount * 2 + 1 + 32) 0 0 (some 0) (some 0) initWriter).bits16,
      data, nodecount, false⟩ := by
    unfold createRankDirectory at hbuild
    rw [if_pos rfl] at hbuild
    exact (Except.ok.inj hbuild).symm
  have hsel : d.selectsearch = false := by rw [hd]
  have hnode : d.nodecount = nodecount := by rw [hd]
  unfold rdSelect
  rw [hsel, hnode]
  simp only [Bool.false_eq_true, if_false]
  congr 2
  refine selectLoop_ok d data (nodecount * 2 + 1) y q
    (fun x hx => popRankW_built data nodecount hwf hnc hdefall d hbuild x hx) hy hq hqlt
    (nodecount * 2 + 3) ((nodecount * 2 + 1 : Nat) : Int) (-1) (-1)
    (by omega) (by omega) (by omega) (by omega) (by omega) ?_ ?_
  · intro _
    left
    omega
  · intro hcontra
    exact absurd rfl hcontra

/-- Intermediate-value property of the zero counter: if at least `m ≥ 1`
zeros occur in a window, the `m`-th zero occurs at a definite offset. -/
theorem zerosIn_intermediate (bytes : List Nat) (p : Nat) :
    ∀ len m, 1 ≤ m → m ≤ zerosIn bytes p len →
      ∃ j, j < len ∧ streamBit bytes (p + j) = false ∧ zerosIn bytes p j = m - 1 := by
  intro len
  induction len with
  | zero =>
    intro m hm hle
    exfalso
    have : zerosIn bytes p 0 = 0 := rfl
    omega
  | succ n ih =>
    intro m hm hle
    by_cases hc : m ≤ zerosIn bytes p n
    · obtain ⟨j, h1, h2, h3⟩ := ih m hm hc
      exact ⟨j, by omega, h2, h3⟩
    · have hsucc := zerosIn_succ_right bytes p n
      cases hb : streamBit bytes (p + n) with
      | true =>
        rw [hb] at hsucc
        simp only [if_true] at hsucc
        omega
      | false =>
        rw [hb] at hsucc
        simp only [Bool.false_eq_true, if_false] at hsucc
        exact ⟨n, by omega, hb, by omega⟩

/-- Below the `n`-th zero every earlier ordinal `m ≤ n` has its own
definite position. -/
theorem nthZero_exists_of_le (bytes : List Nat) (i n q m : Nat)
    (hq : IsNthZeroFrom bytes i n q) (hm : 1 ≤ m) (hmn : m ≤ n) :
    ∃ r, r ≤ q ∧ IsNthZeroFrom bytes i m r := by
  have hiq : i ≤ q := hq.1
  have hz1 : zerosIn bytes i (q + 1 - i) = n := by
    have h1 : zerosIn bytes i (q - i) = n - 1 := hq.2.2
    have h2 := zerosIn_succ_at bytes i q hiq hq.2.1
    omega
  obtain ⟨j, hj1, hj2, hj3⟩ := zerosIn_intermediate bytes i (q + 1 - i) m hm (by omega)
  refine ⟨i + j, by omega, by omega, hj2, ?_⟩
  rw [show i + j - i = j by omega]
  exact hj3

/-- For `n ≥ 1` the `n`-th zero position is unique. -/
theorem nthZero_unique (bytes : List Nat) (i n q r : Nat) (hn : 1 ≤ n)
    (hq : IsNthZeroFrom bytes i n q) (hr : IsNthZeroFrom bytes i n r) : q = r := by
  have key : ∀ a b : Nat, IsNthZeroFrom bytes i n a → IsNthZeroFrom bytes i n b →
      a < b → False := by
    intro a b ha hb hab
    have hza1 : zerosIn bytes i (a + 1 - i) = n := by
      have h1 : zerosIn bytes i (a - i) = n - 1 := ha.2.2
      have h2 := zerosIn_succ_at bytes i a ha.1 ha.2.1
      omega
    have hmono := zerosIn_mono bytes i (show a + 1 - i ≤ b - i by
      have := ha.1
      omega)
    have hzb : zerosIn bytes i (b - i) = n - 1 := hb.2.2
    omega
  rcases Nat.lt_trichotomy q r with h | h | h
  · exact absurd (key q r hq hr h) (fun f => f)
  · exact h
  · exact absurd (key r q hr hq h) (fun f => f)

/-- Counting restarts after a zero: the `n`-th zero from `i` is the
`(n - m)`-th zero from just past the `m`-th. -/
theorem nthZero_diff (bytes : List Nat) (i m n r q : Nat) (hm1 : 1 ≤ m)
    (hr : IsNthZeroFrom bytes i m r) (hq : IsNthZeroFrom bytes i n q)
    (hmn : m < n) : IsNthZeroFrom bytes (r + 1) (n - m) q := by
  have hir : i ≤ r := hr.1
  have hiq : i ≤ q := hq.1
  have hza1 : zerosIn bytes i (r + 1 - i) = m := by
    have h1 : zerosIn bytes i (r - i) = m - 1 := hr.2.2
    have h2 := zerosIn_succ_at bytes i r hr.1 hr.2.1
    omega
  have hrq : r < q := by
    by_contra hcon
    have hzq1 : zerosIn bytes i (q + 1 - i) = n := by
      have h1 : zerosIn bytes i (q - i) = n - 1 := hq.2.2
      have h2 := zerosIn_succ_at bytes i q hq.1 hq.2.1
      omega
    have hmono := zerosIn_mono bytes i (show q + 1 - i ≤ r + 1 - i by
      have := hq.1
      omega)
    omega
  refine ⟨by omega, hq.2.1, ?_⟩
  have hsplit := zerosIn_split bytes i (r + 1 - i) (q - r - 1)
  rw [show i + (r + 1 - i) = r + 1 by omega] at hsplit
  rw [show r + 1 - i + (q - r - 1) = q - i by omega] at hsplit
  have hq2 : zerosIn bytes i (q - i) = n - 1 := hq.2.2
  rw [show q - (r + 1) = q - r - 1 by omega]
  omega

theorem widthsSum_take_const (w : Nat) :
    ∀ (E : List (Nat × Nat)) k, (∀ f ∈ E, f.2 = w) → k ≤ E.length →
      widthsSum (E.take k) = k * w := by
  intro E
  induction E with
  | nil =>
    intro k h hk
    have : k = 0 := by simpa using hk
    subst this
    simp [widthsSum]
  | cons e rest ih =>
    intro k h hk
    cases k with
    | zero => simp [widthsSum]
    | succ m =>
      obtain ⟨v, n⟩ := e
      have hn : n = w := h (v, n) (by simp)
      show n + widthsSum (rest.take m) = (m + 1) * w
      rw [hn, ih m (fun f hf => h f (by simp [hf])) (by simpa using hk)]
      ring

/-- A successful `pos0(i, n)` run lands on the `n`-th zero. -/
theorem pos0_ok_of_nth (bytes : List Nat) (hwf : WfBuf bytes) (i n q v : Nat)
    (hn : 1 ≤ n) (hq : IsNthZeroFrom bytes i n q)
    (hrun : pos0 bytes i n = Except.ok v) : v = q := by
  unfold pos0 at hrun
  rw [if_neg (by omega)] at hrun
  exact pos0Loop_ok bytes hwf q _ i n 16 0 i v hn (by norm_num) (by norm_num) hq hrun

/-- A successful select-as-rank build writes, for every `m` whose
`32·m`-th zero lies in-stream, that zero position as the `m`-th directory
entry (1-based), all entries `l1bits` wide. -/
theorem buildSelLoop_ok (data : List Nat) (hwf : WfBuf data) (numBits l1bits : Nat) :
    ∀ fuel i dir w, buildSelLoop data numBits l1bits fuel i dir = Except.ok w →
      ∃ E : List (Nat × Nat), w = writeFields dir E ∧ (∀ f ∈ E, f.2 = l1bits) ∧
        ∀ m q, 1 ≤ m → IsNthZeroFrom data i (32 * m) q → q < numBits →
          ∃ hm : m - 1 < E.length, E.get ⟨m - 1, hm⟩ = (q, l1bits) := by
  intro fuel
  induction fuel with
  | zero =>
    intro i dir w hrun
    exact absurd hrun (by simp [buildSelLoop])
  | succ f ih =>
    intro i dir w hrun
    rw [show buildSelLoop data numBits l1bits (f + 1) i dir =
      (if i + 32 ≤ numBits then
        match pos0 data i 32 with
        | Except.error e => Except.error e
        | Except.ok sel => buildSelLoop data numBits l1bits f (sel + 1)
            (bwWrite dir sel l1bits)
      else Except.ok dir) from rfl] at hrun
    by_cases hcond : i + 32 ≤ numBits
    · rw [if_pos hcond] at hrun
      cases hp : pos0 data i 32 with
      | error e =>
        rw [hp] at hrun
        exact absurd hrun (by simp)
      | ok sel =>
        rw [hp] at hrun
        obtain ⟨E', hw, hwid, hent⟩ := ih (sel + 1) (bwWrite dir sel l1bits) w hrun
        refine ⟨(sel, l1bits) :: E', by rw [hw]; rfl, ?_, ?_⟩
        · intro fe hfe
          rcases List.mem_cons.mp hfe with h | h
          · rw [h]
          · exact hwid fe h
        · intro m q hm hq hqlt
          obtain ⟨r, hrle, hr32⟩ := nthZero_exists_of_le data i (32 * m) q 32 hq
            (by omega) (by omega)
          have hselr : sel = r := pos0_ok_of_nth data hwf i 32 r sel (by omega) hr32 hp
          subst hselr
          cases m with
          | zero => omega
          | succ m0 =>
            cases m0 with
            | zero =>
              have hqr : q = sel := nthZero_unique data i 32 q sel (by omega) hq hr32
              refine ⟨by simp, ?_⟩
              rw [hqr]
              rfl
            | succ m1 =>
              have hdiff := nthZero_diff data i 32 (32 * (m1 + 2)) sel q (by omega)
                hr32 hq (by omega)
              rw [show 32 * (m1 + 2) - 32 = 32 * (m1 + 1) by ring_nf; omega] at hdiff
              obtain ⟨hm', hget'⟩ := hent (m1 + 1) q (by omega) hdiff hqlt
              refine ⟨?_, ?_⟩
              · show m1 + 2 - 1 < E'.length + 1
                omega
              · have h1 : ((sel, l1bits) :: E').get ⟨m1 + 2 - 1, by simp; omega⟩ =
                    E'.get ⟨m1 + 1 - 1, hm'⟩ := by
                  rfl
                rw [h1, hget']
    · rw [if_neg hcond] at hrun
      have hw : w = dir := (Except.ok.inj hrun).symm
      refine ⟨[], by rw [hw]; rfl, by simp, ?_⟩
      intro m q hm hq hqlt
      exfalso
      have hqi : i ≤ q := hq.1
      have hz : zerosIn data i (q - i) = 32 * m - 1 := hq.2.2
      have hle := zerosIn_le data i (q - i)
      omega

/-- On a built select-as-rank directory, a successful `rank(0, y)` (which
is what `select(0, y)` runs) returns the position of the `y`-th zero. -/
theorem rdRank_ss_ok (data : List Nat) (nodecount : Nat) (hwf : WfBuf data)
    (hnc : nodecount * 2 + 1 ≤ 2 ^ 31) (d : RankDir)
    (hbuild : createRankDirectory data nodecount true = Except.ok d)
    (y q : Nat) (hy : 1 ≤ y) (hq : IsNthZeroFrom data 0 y q)
    (hqlt : q < nodecount * 2 + 1) (r : Option Int)
    (hrun : rdRank d 0 y = Except.ok r) : r = some ((q : Nat) : Int) := by
  have hl1ge : nodecount * 2 + 1 ≤ 2 ^ ceilLog2 (nodecount * 2 + 1) :=
    ceilLog2Aux_ge 64 _ (le_trans hnc (Nat.pow_le_pow_right (by norm_num) (by norm_num)))
  have hl1le : ceilLog2 (nodecount * 2 + 1) ≤ 31 :=
    ceilLog2Aux_le 64 _ 31 hnc (by norm_num)
  unfold createRankDirectory at hbuild
  rw [if_neg (by simp)] at hbuild
  cases hb : buildSelLoop data (nodecount * 2 + 1) (ceilLog2 (nodecount * 2 + 1))
      (nodecount * 2 + 1 + 2) 0 initWriter with
  | error e =>
    rw [hb] at hbuild
    exact absurd hbuild (by simp [Except.map])
  | ok w =>
    rw [hb] at hbuild
    have hd : d = ⟨w.bits16, data, nodecount, true⟩ := by
      have := Except.ok.inj hbuild
      exact this.symm
    have hsel : d.selectsearch = true := by rw [hd]
    have hnode : d.nodecount = nodecount := by rw [hd]
    have hdata : d.data = data := by rw [hd]
    obtain ⟨E, hwE, hwid, hent⟩ := buildSelLoop_ok data hwf (nodecount * 2 + 1)
      (ceilLog2 (nodecount * 2 + 1)) (nodecount * 2 + 1 + 2) 0 initWriter w hb
    have hwid32 : ∀ f ∈ E, f.2 ≤ 32 := by
      intro f hf
      rw [hwid f hf]
      omega
    have hdir : d.directory = (writeFields initWriter E).bits16 := by
      rw [hd, hwE]
    have hexp : rdRank d 0 y =
        (if 0 < (if 32 ≤ y then y % 32 else y) then
          Except.map (fun v : Nat => (some (v : Int) : Option Int))
            (pos0 d.data (((if 32 ≤ y then
              ((bsGet d.directory (y / 32 * rdL1Bits d - rdL1Bits d) (rdL1Bits d) : Nat) : Int)
              else -1) + 1).toNat) (if 32 ≤ y then y % 32 else y))
        else Except.ok (some (if 32 ≤ y then
          ((bsGet d.directory (y / 32 * rdL1Bits d - rdL1Bits d) (rdL1Bits d) : Nat) : Int)
          else -1))) := by
      unfold rdRank
      rw [hsel]
      rfl
    rw [hexp] at hrun
    by_cases h32 : 32 ≤ y
    · -- the stored sample is the position of the 32·(y/32)-th zero
      obtain ⟨rm, hrmle, hrm32⟩ := nthZero_exists_of_le data 0 y q (32 * (y / 32)) hq
        (by omega) (by omega)
      obtain ⟨hmlt, hgetm⟩ := hent (y / 32) rm (by omega) hrm32 (by omega)
      have hL1 : rdL1Bits d = ceilLog2 (nodecount * 2 + 1) := by
        unfold rdL1Bits
        rw [hnode]
      have hoff : y / 32 * rdL1Bits d - rdL1Bits d =
          widthsSum (E.take (y / 32 - 1)) := by
        rw [widthsSum_take_const (ceilLog2 (nodecount * 2 + 1)) E (y / 32 - 1)
          hwid (by omega), hL1]
        obtain ⟨c, hc⟩ : ∃ c, y / 32 = c + 1 := ⟨y / 32 - 1, by omega⟩
        rw [hc]
        rw [show (c + 1) * ceilLog2 (nodecount * 2 + 1) =
          c * ceilLog2 (nodecount * 2 + 1) + ceilLog2 (nodecount * 2 + 1) by ring]
        rw [Nat.add_sub_cancel]
        rw [show c + 1 - 1 = c from rfl]
      have hreadv : bsGet d.directory (y / 32 * rdL1Bits d - rdL1Bits d) (rdL1Bits d) =
          rm := by
        rw [hoff, hL1, hdir]
        have := writeFields_read E hwid32 (y / 32 - 1) hmlt
        rw [hgetm] at this
        rw [show ((rm, ceilLog2 (nodecount * 2 + 1)) : Nat × Nat).2 =
          ceilLog2 (nodecount * 2 + 1) from rfl] at this
        rw [this]
        exact Nat.mod_eq_of_lt (by omega)
      rw [if_pos h32, if_pos h32, hreadv] at hrun
      by_cases hmod : 0 < y % 32
      · rw [if_pos hmod] at hrun
        have hdiff := nthZero_diff data 0 (32 * (y / 32)) y rm q (by omega) hrm32 hq
          (by omega)
        rw [show y - 32 * (y / 32) = y % 32 by omega] at hdiff
        cases hp : pos0 data (((rm : Int) + 1).toNat) (y % 32) with
        | error e =>
          rw [hdata, hp] at hrun
          exact absurd hrun (by simp [Except.map])
        | ok v =>
          rw [hdata, hp] at hrun
          simp only [Except.map] at hrun
          have hrv : r = some (v : Int) := (Except.ok.inj hrun).symm
          have htn : ((rm : Int) + 1).toNat = rm + 1 := by omega
          rw [htn] at hp
          have := pos0_ok_of_nth data hwf (rm + 1) (y % 32) q v (by omega) hdiff hp
          rw [hrv, this]
      · rw [if_neg hmod] at hrun
        have hr : r = some (rm : Int) := (Except.ok.inj hrun).symm
        have hyq : y = 32 * (y / 32) := by omega
        have : q = rm := by
          refine nthZero_unique data 0 y q rm (by omega) hq ?_
          rw [hyq]
          exact hrm32
        rw [hr, this]
    · rw [if_neg h32, if_neg h32] at hrun
      rw [if_pos (by omega)] at hrun
      cases hp : pos0 data ((-1 + 1 : Int).toNat) y with
      | error e =>
        rw [hdata, hp] at hrun
        exact absurd hrun (by simp [Except.map])
      | ok v =>
        rw [hdata, hp] at hrun
        simp only [Except.map] at hrun
        have hrv : r = some (v : Int) := (Except.ok.inj hrun).symm
        have htn : ((-1 : Int) + 1).toNat = 0 := by norm_num
        rw [htn] at hp
        have := pos0_ok_of_nth data hwf 0 y q v hy hq hp
        rw [hrv, this]

/-- C3 counterexample: the layouts do not agree over `[0, zero_count)`.
(a) At `y = 0` the popcount binary search returns position 0 while the
select-as-rank path returns its `-1` sentinel.  (b) At `y = 1` on the
stream `[0xFFFF, 0]` (`nodecount = 15`, first zero at bit 16), every
popcount rank probe in the upper half reads `bitsSetTable256` out of
range, the `NaN` rank sends the search the wrong way, and popcount
`select(0, 1)` returns `-1` even though the first zero exists. -/
theorem c3_select_layouts_counterexample :
    (createRankDirectory [40960] 2 false =
      Except.ok (⟨[], [40960], 2, false⟩ : RankDir) ∧
    createRankDirectory [40960] 2 true =
      Except.ok (⟨[], [40960], 2, true⟩ : RankDir) ∧
    0 < zerosIn [40960] 0 (2 * 2 + 1) ∧
    rdSelect (⟨[], [40960], 2, false⟩ : RankDir) 0 0 = Except.ok (some 0) ∧
    rdSelect (⟨[], [40960], 2, true⟩ : RankDir) 0 0 = Except.ok (some (-1))) ∧
    (createRankDirectory [65535, 0] 15 false =
      Except.ok (⟨[], [65535, 0], 15, false⟩ : RankDir) ∧
    IsNthZeroFrom [65535, 0] 0 1 16 ∧
    rdSelect (⟨[], [65535, 0], 15, false⟩ : RankDir) 0 1 =
      Except.ok (some (-1))) :=
  ⟨⟨rfl, rfl, by decide, rfl, rfl⟩, ⟨rfl, by decide, rfl⟩⟩

/-- C3 (amended): For every LOUDS child-count bit stream with `L1 = 1024`
and `L2 = 32` whose popcount-table reads all stay inside the 256-entry
table (otherwise the popcount rank is `NaN` and its binary search
derails), and for every `y ≥ 1` whose `y`-th zero exists in-stream, the
popcount-layout directory answers `select(0, y)` with the position `q` of
the `y`-th zero, and the select-as-rank directory agrees whenever its
`pos0` scans return instead of throwing.  At `y = 0` the two layouts
disagree (0 versus -1). -/
theorem c3_select_layouts_amended (data : List Nat) (nodecount : Nat)
    (hwf : WfBuf data) (hnc : nodecount * 2 + 1 ≤ 2 ^ 31)
    (hdefall : ∀ z, z < nodecount * 2 + 1 →
      bsCount data (z - z % 32) (z % 32 + 1) ≠ none)
    (dp ds : RankDir)
    (hbp : createRankDirectory data nodecount false = Except.ok dp)
    (hbs : createRankDirectory data nodecount true = Except.ok ds)
    (y q : Nat) (hy : 1 ≤ y) (hq : IsNthZeroFrom data 0 y q)
    (hqlt : q < nodecount * 2 + 1) :
    rdSelect dp 0 y = Except.ok (some (q : Int)) ∧
      ∀ r : Option Int, rdSelect ds 0 y = Except.ok r → r = some (q : Int) := by
  constructor
  · exact rdSelect_pop_ok data nodecount hwf hnc hdefall dp hbp y q hy hq hqlt
  · intro r hr
    have hbs2 := hbs
    have hsel : ds.selectsearch = true := by
      unfold createRankDirectory at hbs2
      rw [if_neg (by simp)] at hbs2
      cases hb : buildSelLoop data (nodecount * 2 + 1)
          (ceilLog2 (nodecount * 2 + 1)) (nodecount * 2 + 1 + 2) 0 initWriter with
      | error e =>
        rw [hb] at hbs2
        exact absurd hbs2 (by simp [Except.map])
      | ok w =>
        rw [hb] at hbs2
        simp only [Except.map] at hbs2
        have := Except.ok.inj hbs2
        rw [← this]
    unfold rdSelect at hr
    rw [hsel] at hr
    rw [if_pos rfl] at hr
    exact rdRank_ss_ok data nodecount hwf hnc ds hbs y q hy hq hqlt r hr

theorem c3_select_layouts_amended_witness :
    (∀ z, z < 2 * 2 + 1 → bsCount [40960] (z - z % 32) (z % 32 + 1) ≠ none) ∧
    (rdSelect (⟨[], [40960], 2, false⟩ : RankDir) 0 2 =
        Except.ok (some ((3 : Nat) : Int)) ∧
      ∀ r : Option Int, rdSelect (⟨[], [40960], 2, true⟩ : RankDir) 0 2 =
        Except.ok r → r = some ((3 : Nat) : Int)) :=
  ⟨by decide, c3_select_layouts_amended [40960] 2 (by decide) (by norm_num) (by decide)
    ⟨[], [40960], 2, false⟩ ⟨[], [40960], 2, true⟩ rfl rfl 2 3
    (by norm_num) (by decide) (by norm_num)⟩

/-! ### Tag bitmap codec (src/unnamed/part_000: flagsToTags / tagsToFlags) -/

/-- `MaskBottom[16][k]` from src/src/bufreader.js: clears the low `k` bits
of a 16-bit word. -/
def maskBottom16 (k : Nat) : Nat := 2 ^ 16 - 2 ^ k

/-- The bit-scan loop shared by both loops of `flagsToTags`: collect the
MSB-first positions `j` whose bit `15 - j` is set in `w`, breaking early
when the remaining shifted word `w << j` is all zero (a 32-bit shift). -/
def bitPosLoop (w : Nat) : Nat → Nat → List Nat
  | 0, _ => []
  | fuel + 1, j =>
    if w * 2 ^ j % 2 ^ 32 = 0 then []
    else if w &&& 2 ^ (15 - j) = 2 ^ (15 - j) then j :: bitPosLoop w fuel (j + 1)
    else bitPosLoop w fuel (j + 1)

/-- The second loop of `flagsToTags`: for each header index, decode the
matching group word into tag ordinals `index * 16 + j`.  The final
iteration reads one word past the end, which decodes to nothing. -/
def tagValuesLoop (flags tagIndices : List Nat) : Nat → Nat → List Nat
  | 0, _ => []
  | fuel + 1, i =>
    (bitPosLoop (flags.getD (i + 1) 0) 16 0).map
        (fun j => tagIndices.getD i 0 * 16 + j) ++
      tagValuesLoop flags tagIndices fuel (i + 1)

/-- `flagsToTags(flags)` (src/unnamed/part_000): decode a tag bitmap into
the list of tag ordinals.  On a header/body length mismatch it logs and
returns the empty list. -/
def flagsToTags (flags : List Nat) : List Nat :=
  let header := flags.getD 0 0
  let tagIndices := bitPosLoop header 16 0
  if tagIndices.length + 1 ≠ flags.length then []
  else tagValuesLoop flags tagIndices flags.length 0

/-- One iteration of the `tagsToFlags` loop: set tag `val` in the bitmap
string `res` (a header word followed by one word per populated group). -/
def tagsToFlagsStep (res : List Nat) (val : Nat) : List Nat :=
  let index := val / 16
  let pos := val % 16
  let h := res.getD 0 0
  let dataIndex := countSetBits (h &&& maskBottom16 (16 - index)) + 1
  let n := if (h / 2 ^ (15 - index)) % 2 ≠ 1 then 0 else res.getD dataIndex 0
  let upsertData := n ≠ 0
  (h ||| 2 ^ (15 - index)) ::
    ((res.drop 1).take (dataIndex - 1) ++
      (n ||| 2 ^ (15 - pos)) ::
        res.drop (if upsertData then dataIndex + 1 else dataIndex))

/-- `tagsToFlags(tags)` (src/unnamed/part_000): encode a list of tag
ordinals into a tag bitmap, starting from the bare zero header. -/
def tagsToFlags (tags : List Nat) : List Nat := tags.foldl tagsToFlagsStep [0]

theorem nat_or_and_right (a b c : Nat) :
    (a ||| b) &&& c = (a &&& c) ||| (b &&& c) := by
  apply Nat.eq_of_testBit_eq
  intro i
  simp only [Nat.testBit_and, Nat.testBit_or]
  cases a.testBit i <;> cases b.testBit i <;> cases c.testBit i <;> rfl

theorem and_two_pow_eq_iff (w i : Nat) :
    (w &&& 2 ^ i = 2 ^ i) ↔ w.testBit i = true := by
  constructor
  · intro h
    have := congrArg (fun x => x.testBit i) h
    simp only [Nat.testBit_and, Nat.testBit_two_pow] at this
    simpa using this
  · intro h
    apply Nat.eq_of_testBit_eq
    intro t
    simp only [Nat.testBit_and, Nat.testBit_two_pow]
    by_cases ht : i = t
    · subst ht
      simp [h]
    · simp [ht]

theorem testBit_div_pow (w i j : Nat) : (w / 2 ^ i).testBit j = w.testBit (i + j) := by
  rw [← Nat.shiftRight_eq_div_pow]
  exact Nat.testBit_shiftRight w

theorem maskBottom16_testBit (k t : Nat) (hk : k ≤ 16) :
    (maskBottom16 k).testBit t = true ↔ (k ≤ t ∧ t < 16) := by
  have hmask : maskBottom16 k = (2 ^ (16 - k) - 1) * 2 ^ k := by
    unfold maskBottom16
    rw [Nat.sub_mul, one_mul, ← pow_add]
    congr 2
    omega
  rw [hmask, ← Nat.shiftLeft_eq, Nat.testBit_shiftLeft, Nat.testBit_two_pow_sub_one]
  simp only [Bool.and_eq_true, decide_eq_true_eq]
  omega

theorem and_maskBottom16 (w k : Nat) (hw : w < 2 ^ 16) (hk : k ≤ 16) :
    w &&& maskBottom16 k = w / 2 ^ k * 2 ^ k := by
  apply Nat.eq_of_testBit_eq
  intro t
  rw [Nat.testBit_and]
  rw [show w / 2 ^ k * 2 ^ k = (w / 2 ^ k) <<< k by rw [Nat.shiftLeft_eq]]
  rw [Nat.testBit_shiftLeft]
  by_cases hkt : k ≤ t
  · rw [testBit_div_pow]
    rw [show k + (t - k) = t by omega]
    by_cases ht16 : t < 16
    · have hm : (maskBottom16 k).testBit t = true := (maskBottom16_testBit k t hk).mpr ⟨hkt, ht16⟩
      rw [hm]
      simp [hkt]
    · have hwt : w.testBit t = false := Nat.testBit_eq_false_of_lt
        (lt_of_lt_of_le hw (Nat.pow_le_pow_right (by norm_num) (by omega)))
      simp [hwt]
  · have hm : (maskBottom16 k).testBit t = false := by
      rcases hb : (maskBottom16 k).testBit t with _ | _
      · rfl
      · exact absurd ((maskBottom16_testBit k t hk).mp hb).1 hkt
    rw [hm]
    simp [hkt]

theorem two_pow_and_maskBottom16 (j k : Nat) (hj : j < 16) (hk : k ≤ 16) :
    2 ^ j &&& maskBottom16 k = if k ≤ j then 2 ^ j else 0 := by
  apply Nat.eq_of_testBit_eq
  intro t
  rw [Nat.testBit_and]
  by_cases hkj : k ≤ j
  · rw [if_pos hkj]
    by_cases hjt : j = t
    · subst hjt
      have hm : (maskBottom16 k).testBit j = true := (maskBottom16_testBit k j hk).mpr ⟨hkj, hj⟩
      simp [hm]
    · simp [Nat.testBit_two_pow, hjt]
  · rw [if_neg hkj]
    rw [Nat.zero_testBit]
    by_cases hjt : j = t
    · subst hjt
      have hm : (maskBottom16 k).testBit j = false := by
        rcases hb : (maskBottom16 k).testBit j with _ | _
        · rfl
        · exact absurd ((maskBottom16_testBit k j hk).mp hb).1 hkj
      simp [hm]
    · simp [Nat.testBit_two_pow, hjt]

theorem two_pow_lor_eq_add (j r : Nat) (hr : r < 2 ^ j) : 2 ^ j ||| r = 2 ^ j + r := by
  have := shiftLeft_lor_eq_add 1 r j hr
  rw [Nat.one_shiftLeft] at this
  rw [this]
  omega

theorem countSetBits_two_pow_add (j : Nat) :
    ∀ r, r < 2 ^ j → j ≤ 31 → countSetBits (2 ^ j + r) = 1 + countSetBits r := by
  induction j with
  | zero =>
    intro r hr _
    have : r = 0 := by omega
    subst this
    rfl
  | succ m ih =>
    intro r hr hm
    have hpos : 0 < 2 ^ (m + 1) + r := by positivity
    have hlt : 2 ^ (m + 1) + r < 2 ^ 32 := by
      have h1 : (2:Nat) ^ (m + 1) ≤ 2 ^ 31 := Nat.pow_le_pow_right (by norm_num) (by omega)
      have h2 : (2:Nat) ^ 31 + 2 ^ 31 = 2 ^ 32 := by rw [← two_mul, ← pow_succ']
      omega
    rw [countSetBits_pos _ hpos hlt]
    have hmod : (2 ^ (m + 1) + r) % 2 = r % 2 := by
      have : (2:Nat) ^ (m + 1) % 2 = 0 := by
        rw [pow_succ']
        omega
      omega
    have hdiv : (2 ^ (m + 1) + r) / 2 = 2 ^ m + r / 2 := by
      have h2 : (2:Nat) ^ (m + 1) = 2 * 2 ^ m := by rw [pow_succ']
      omega
    rw [hmod, hdiv]
    have hrd : r / 2 < 2 ^ m := by
      have h2 : (2:Nat) ^ (m + 1) = 2 * 2 ^ m := by rw [pow_succ']
      omega
    rw [ih (r / 2) hrd (by omega)]
    rcases Nat.eq_zero_or_pos r with h0 | h0
    · subst h0
      simp
    · have hr32 : r < 2 ^ 32 := by
        have h1 : (2:Nat) ^ (m + 1) ≤ 2 ^ 31 := Nat.pow_le_pow_right (by norm_num) (by omega)
        have h2 : (2:Nat) ^ 31 < 2 ^ 32 := by norm_num
        omega
      rw [countSetBits_pos r h0 hr32]
      omega

/-- The header word encoding a list of populated group indices: bit
`15 - g` is set for each group `g`. -/
def headerOfList : List Nat → Nat
  | [] => 0
  | g :: rest => 2 ^ (15 - g) ||| headerOfList rest

theorem headerOfList_lt (gs : List Nat) (h : ∀ g ∈ gs, g < 16) :
    headerOfList gs < 2 ^ 16 := by
  induction gs with
  | nil => norm_num [headerOfList]
  | cons x rest ih =>
    show 2 ^ (15 - x) ||| headerOfList rest < 2 ^ 16
    apply lor_lt_two_pow
    · exact Nat.pow_lt_pow_right (by norm_num) (by omega)
    · exact ih (fun g hg => h g (by simp [hg]))

theorem headerOfList_testBit (gs : List Nat) (t : Nat) :
    (headerOfList gs).testBit t = true ↔ ∃ x ∈ gs, t = 15 - x := by
  induction gs with
  | nil =>
    show (Nat.testBit 0 t) = true ↔ _
    rw [Nat.zero_testBit]
    simp
  | cons x rest ih =>
    show (2 ^ (15 - x) ||| headerOfList rest).testBit t = true ↔ _
    rw [Nat.testBit_or]
    simp only [Bool.or_eq_true, Nat.testBit_two_pow, decide_eq_true_eq, ih]
    constructor
    · rintro (h | ⟨y, hy, hyt⟩)
      · exact ⟨x, by simp, h.symm⟩
      · exact ⟨y, by simp [hy], hyt⟩
    · rintro ⟨y, hy, hyt⟩
      rcases List.mem_cons.mp hy with h | h
      · subst h
        exact Or.inl hyt.symm
      · exact Or.inr ⟨y, h, hyt⟩

theorem headerOfList_mem_iff (gs : List Nat) (g : Nat) (hg : g < 16)
    (h16 : ∀ x ∈ gs, x < 16) :
    (headerOfList gs).testBit (15 - g) = true ↔ g ∈ gs := by
  rw [headerOfList_testBit]
  constructor
  · rintro ⟨x, hx, hxe⟩
    have := h16 x hx
    have : x = g := by omega
    subst this
    exact hx
  · intro h
    exact ⟨g, h, rfl⟩

theorem headerOfList_bound (gs : List Nat) (b : Nat) (hb : ∀ g ∈ gs, b < g)
    (h16 : ∀ g ∈ gs, g < 16) :
    headerOfList gs < 2 ^ (15 - b) := by
  induction gs with
  | nil =>
    show 0 < 2 ^ (15 - b)
    positivity
  | cons x rest ih =>
    show 2 ^ (15 - x) ||| headerOfList rest < 2 ^ (15 - b)
    apply lor_lt_two_pow
    · apply Nat.pow_lt_pow_right (by norm_num)
      have := hb x (by simp)
      have := h16 x (by simp)
      omega
    · exact ih (fun g hg => hb g (by simp [hg])) (fun g hg => h16 g (by simp [hg]))

/-- The masked-popcount index computation of `tagsToFlags`: for a sorted
group list, `popcount(header & MaskBottom[16][16 - g])` counts the
populated groups before `g`. -/
theorem countSetBits_header_mask (g : Nat) (hg : g ≤ 16) :
    ∀ gs : List Nat, List.Pairwise (· < ·) gs → (∀ x ∈ gs, x < 16) →
      countSetBits (headerOfList gs &&& maskBottom16 (16 - g)) =
        (gs.filter (fun x => decide (x < g))).length := by
  intro gs
  induction gs with
  | nil =>
    intro _ _
    show countSetBits (0 &&& maskBottom16 (16 - g)) = 0
    rw [Nat.zero_and]
    rfl
  | cons x rest ih =>
    intro hsort h16
    have hx16 : x < 16 := h16 x (by simp)
    have hrest : List.Pairwise (· < ·) rest := hsort.of_cons
    have hgt : ∀ y ∈ rest, x < y := fun y hy => (List.pairwise_cons.mp hsort).1 y hy
    have h16r : ∀ y ∈ rest, y < 16 := fun y hy => h16 y (by simp [hy])
    show countSetBits ((2 ^ (15 - x) ||| headerOfList rest) &&& maskBottom16 (16 - g)) = _
    rw [nat_or_and_right]
    rw [two_pow_and_maskBottom16 (15 - x) (16 - g) (by omega) (by omega)]
    by_cases hxg : x < g
    · rw [if_pos (by omega)]
      have hbound : headerOfList rest &&& maskBottom16 (16 - g) < 2 ^ (15 - x) :=
        lt_of_le_of_lt Nat.and_le_left (headerOfList_bound rest x hgt h16r)
      rw [two_pow_lor_eq_add _ _ hbound]
      rw [countSetBits_two_pow_add (15 - x) _ hbound (by omega)]
      rw [ih hrest h16r]
      rw [show (List.filter (fun x => decide (x < g)) (x :: rest)) =
        x :: List.filter (fun x => decide (x < g)) rest by
        simp [List.filter, hxg]]
      simp
      omega
    · rw [if_neg (by omega)]
      rw [Nat.zero_or]
      rw [ih hrest h16r]
      rw [show (List.filter (fun x => decide (x < g)) (x :: rest)) =
        List.filter (fun x => decide (x < g)) rest by
        simp [List.filter, hxg]]

/-- The bitmap string for a sorted list of `(group, word)` entries: the
header word followed by the group words in group order. -/
def encodeTags (entries : List (Nat × Nat)) : List Nat :=
  headerOfList (entries.map Prod.fst) :: entries.map Prod.snd

/-- Well-formedness of a tag-bitmap state: groups strictly ascending and
in range, words nonzero 16-bit values. -/
def TagsWf (entries : List (Nat × Nat)) : Prop :=
  List.Pairwise (fun a b => a.1 < b.1) entries ∧ (∀ e ∈ entries, e.1 < 16) ∧
    (∀ e ∈ entries, 0 < e.2 ∧ e.2 < 2 ^ 16)

/-- Tag ordinal `v` is present in the bitmap state. -/
def EncodedIn (entries : List (Nat × Nat)) (v : Nat) : Prop :=
  ∃ e ∈ entries, e.1 = v / 16 ∧ e.2.testBit (15 - v % 16) = true

theorem headerOfList_append (xs ys : List Nat) :
    headerOfList (xs ++ ys) = headerOfList xs ||| headerOfList ys := by
  induction xs with
  | nil =>
    show headerOfList ys = 0 ||| headerOfList ys
    rw [Nat.zero_or]
  | cons a l ih =>
    show 2 ^ (15 - a) ||| headerOfList (l ++ ys) = _
    rw [ih]
    show _ = 2 ^ (15 - a) ||| headerOfList l ||| headerOfList ys
    rw [Nat.lor_assoc]

theorem lor_two_pow_of_testBit (w i : Nat) (h : w.testBit i = true) :
    w ||| 2 ^ i = w := by
  apply Nat.eq_of_testBit_eq
  intro t
  rw [Nat.testBit_or, Nat.testBit_two_pow]
  by_cases ht : i = t
  · subst ht
    simp [h]
  · simp [ht]

theorem getD_append_cons (xs : List Nat) (y : Nat) (ys : List Nat) (d : Nat) :
    (xs ++ y :: ys).getD xs.length d = y := by
  induction xs with
  | nil => rfl
  | cons a l ih => simpa using ih

theorem drop_append_cons (xs : List Nat) (y : Nat) (ys : List Nat) :
    (xs ++ y :: ys).drop (xs.length + 1) = ys := by
  induction xs with
  | nil => rfl
  | cons a l ih => simpa using ih

/-- `tagsToFlagsStep` with its lets unfolded. -/
theorem tagsToFlagsStep_eq (res : List Nat) (val : Nat) :
    tagsToFlagsStep res val =
      (res.getD 0 0 ||| 2 ^ (15 - val / 16)) ::
        ((res.drop 1).take
            (countSetBits (res.getD 0 0 &&& maskBottom16 (16 - val / 16)) + 1 - 1) ++
          ((if (res.getD 0 0 / 2 ^ (15 - val / 16)) % 2 ≠ 1 then 0
            else res.getD
              (countSetBits (res.getD 0 0 &&& maskBottom16 (16 - val / 16)) + 1) 0) |||
              2 ^ (15 - val % 16)) ::
            res.drop
              (if (if (res.getD 0 0 / 2 ^ (15 - val / 16)) % 2 ≠ 1 then 0
                  else res.getD
                    (countSetBits (res.getD 0 0 &&& maskBottom16 (16 - val / 16)) + 1) 0) ≠ 0
                then countSetBits (res.getD 0 0 &&& maskBottom16 (16 - val / 16)) + 1 + 1
                else countSetBits (res.getD 0 0 &&& maskBottom16 (16 - val / 16)) + 1)) :=
  rfl

theorem map_fst_bound (A : List (Nat × Nat)) (h : ∀ e ∈ A, e.1 < 16) :
    ∀ x ∈ A.map Prod.fst, x < 16 := by
  intro x hx
  rcases List.mem_map.mp hx with ⟨e, he, hfst⟩
  rw [← hfst]
  exact h e he

/-- Inserting a fresh group `g`: the step splices the new group word into
place and sets the header bit. -/
theorem tagsToFlagsStep_absent (A B : List (Nat × Nat)) (g p : Nat)
    (hg : g < 16) (hp : p < 16) (hwf : TagsWf (A ++ B))
    (hA : ∀ e ∈ A, e.1 < g) (hBgt : ∀ e ∈ B, g < e.1) :
    tagsToFlagsStep (encodeTags (A ++ B)) (g * 16 + p) =
      encodeTags (A ++ (g, 2 ^ (15 - p)) :: B) := by
  obtain ⟨hpw, h16, hwords⟩ := hwf
  have hdiv : (g * 16 + p) / 16 = g := by omega
  have hmod : (g * 16 + p) % 16 = p := by omega
  have hgs16 : ∀ x ∈ (A ++ B).map Prod.fst, x < 16 := map_fst_bound _ h16
  have hgspw : List.Pairwise (· < ·) ((A ++ B).map Prod.fst) :=
    hpw.map Prod.fst (fun a b h => h)
  have hcount : countSetBits
      (headerOfList ((A ++ B).map Prod.fst) &&& maskBottom16 (16 - g)) = A.length := by
    rw [countSetBits_header_mask g (by omega) _ hgspw hgs16]
    rw [List.map_append, List.filter_append]
    have h1 : (A.map Prod.fst).filter (fun x => decide (x < g)) = A.map Prod.fst := by
      apply List.filter_eq_self.mpr
      intro x hx
      rcases List.mem_map.mp hx with ⟨e, he, hfst⟩
      simp only [decide_eq_true_eq]
      rw [← hfst]
      exact hA e he
    have h2 : (B.map Prod.fst).filter (fun x => decide (x < g)) = [] := by
      apply List.filter_eq_nil_iff.mpr
      intro x hx
      rcases List.mem_map.mp hx with ⟨e, he, hfst⟩
      simp only [decide_eq_true_eq]
      rw [← hfst]
      have := hBgt e he
      omega
    rw [h1, h2, List.append_nil, List.length_map]
  have hnotin : g ∉ (A ++ B).map Prod.fst := by
    intro hmem
    rcases List.mem_map.mp hmem with ⟨e, he, hfst⟩
    rcases List.mem_append.mp he with h | h
    · have := hA e h; omega
    · have := hBgt e h; omega
  have hbit : (headerOfList ((A ++ B).map Prod.fst)).testBit (15 - g) = false := by
    rcases hb : (headerOfList ((A ++ B).map Prod.fst)).testBit (15 - g) with _ | _
    · rfl
    · exact absurd ((headerOfList_mem_iff _ g hg hgs16).mp hb) hnotin
  have hcond : headerOfList ((A ++ B).map Prod.fst) / 2 ^ (15 - g) % 2 ≠ 1 := by
    have h2 := Nat.testBit_to_div_mod
      (x := headerOfList ((A ++ B).map Prod.fst)) (i := 15 - g)
    rw [hbit] at h2
    intro hc
    rw [hc] at h2
    simp at h2
  rw [tagsToFlagsStep_eq]
  rw [show (encodeTags (A ++ B)).getD 0 0 =
    headerOfList ((A ++ B).map Prod.fst) from rfl]
  rw [show (encodeTags (A ++ B)).drop 1 = (A ++ B).map Prod.snd from rfl]
  rw [hdiv, hmod, hcount]
  rw [if_pos hcond]
  rw [if_neg (show ¬((0 : Nat) ≠ 0) from fun h => h rfl)]
  rw [Nat.zero_or, Nat.add_sub_cancel]
  rw [show (encodeTags (A ++ B)).drop (A.length + 1) =
    ((A ++ B).map Prod.snd).drop A.length from rfl]
  rw [show ((A ++ B).map Prod.snd) = A.map Prod.snd ++ B.map Prod.snd from
    List.map_append _ _ _]
  rw [show A.length = (A.map Prod.snd).length from (List.length_map _ _).symm]
  rw [List.take_left, List.drop_left]
  show _ :: _ = encodeTags (A ++ (g, 2 ^ (15 - p)) :: B)
  rw [show encodeTags (A ++ (g, 2 ^ (15 - p)) :: B) =
    headerOfList (A.map Prod.fst ++ g :: B.map Prod.fst) ::
      (A.map Prod.snd ++ 2 ^ (15 - p) :: B.map Prod.snd) from by
    unfold encodeTags
    rw [List.map_append, List.map_append]
    rfl]
  congr 1
  rw [List.map_append, headerOfList_append, headerOfList_append]
  rw [show headerOfList (g :: B.map Prod.fst) =
    2 ^ (15 - g) ||| headerOfList (B.map Prod.fst) from rfl]
  rw [Nat.lor_assoc]
  congr 1
  rw [Nat.lor_comm]

/-- Updating an existing group `g`: the step ORs the new position bit into
the group word in place. -/
theorem tagsToFlagsStep_present (A B' : List (Nat × Nat)) (w g p : Nat)
    (hg : g < 16) (hp : p < 16) (hwf : TagsWf (A ++ (g, w) :: B'))
    (hA : ∀ e ∈ A, e.1 < g) :
    tagsToFlagsStep (encodeTags (A ++ (g, w) :: B')) (g * 16 + p) =
      encodeTags (A ++ (g, w ||| 2 ^ (15 - p)) :: B') := by
  obtain ⟨hpw, h16, hwords⟩ := hwf
  have hdiv : (g * 16 + p) / 16 = g := by omega
  have hmod : (g * 16 + p) % 16 = p := by omega
  have hgs16 : ∀ x ∈ (A ++ (g, w) :: B').map Prod.fst, x < 16 := map_fst_bound _ h16
  have hgspw : List.Pairwise (· < ·) ((A ++ (g, w) :: B').map Prod.fst) :=
    hpw.map Prod.fst (fun a b h => h)
  have hBgt : ∀ e ∈ B', g < e.1 := by
    intro e he
    have := (List.pairwise_append.mp hpw).2.1
    exact (List.pairwise_cons.mp this).1 e he
  have hcount : countSetBits
      (headerOfList ((A ++ (g, w) :: B').map Prod.fst) &&& maskBottom16 (16 - g)) =
      A.length := by
    rw [countSetBits_header_mask g (by omega) _ hgspw hgs16]
    rw [List.map_append, List.filter_append]
    have h1 : (A.map Prod.fst).filter (fun x => decide (x < g)) = A.map Prod.fst := by
      apply List.filter_eq_self.mpr
      intro x hx
      rcases List.mem_map.mp hx with ⟨e, he, hfst⟩
      simp only [decide_eq_true_eq]
      rw [← hfst]
      exact hA e he
    have h2 : (((g, w) :: B').map Prod.fst).filter (fun x => decide (x < g)) = [] := by
      apply List.filter_eq_nil_iff.mpr
      intro x hx
      rcases List.mem_map.mp hx with ⟨e, he, hfst⟩
      simp only [decide_eq_true_eq]
      rw [← hfst]
      rcases List.mem_cons.mp he with h | h
      · rw [h]
        omega
      · have := hBgt e h
        omega
    rw [h1, h2, List.append_nil, List.length_map]
  have hin : g ∈ (A ++ (g, w) :: B').map Prod.fst := by
    apply List.mem_map.mpr
    exact ⟨(g, w), by simp, rfl⟩
  have hbit : (headerOfList ((A ++ (g, w) :: B').map Prod.fst)).testBit (15 - g) =
      true := (headerOfList_mem_iff _ g hg hgs16).mpr hin
  have hcondeq : headerOfList ((A ++ (g, w) :: B').map Prod.fst) / 2 ^ (15 - g) % 2 = 1 := by
    have h2 := Nat.testBit_to_div_mod
      (x := headerOfList ((A ++ (g, w) :: B').map Prod.fst)) (i := 15 - g)
    rw [hbit] at h2
    exact of_decide_eq_true h2.symm
  have hwpos : 0 < w := (hwords (g, w) (by simp)).1
  rw [tagsToFlagsStep_eq]
  rw [show (encodeTags (A ++ (g, w) :: B')).getD 0 0 =
    headerOfList ((A ++ (g, w) :: B').map Prod.fst) from rfl]
  rw [show (encodeTags (A ++ (g, w) :: B')).drop 1 =
    (A ++ (g, w) :: B').map Prod.snd from rfl]
  rw [hdiv, hmod, hcount]
  rw [if_neg (show ¬(headerOfList ((A ++ (g, w) :: B').map Prod.fst) /
    2 ^ (15 - g) % 2 ≠ 1) from fun h => h hcondeq)]
  have hval : (encodeTags (A ++ (g, w) :: B')).getD (A.length + 1) 0 = w := by
    rw [show (encodeTags (A ++ (g, w) :: B')).getD (A.length + 1) 0 =
      ((A ++ (g, w) :: B').map Prod.snd).getD A.length 0 from rfl]
    rw [List.map_append]
    rw [show A.length = (A.map Prod.snd).length from (List.length_map _ _).symm]
    exact getD_append_cons _ _ _ _
  rw [hval]
  rw [if_pos (show w ≠ 0 from by omega)]
  rw [Nat.add_sub_cancel]
  rw [show (encodeTags (A ++ (g, w) :: B')).drop (A.length + 1 + 1) =
    ((A ++ (g, w) :: B').map Prod.snd).drop (A.length + 1) from rfl]
  rw [show ((A ++ (g, w) :: B').map Prod.snd) =
    A.map Prod.snd ++ w :: B'.map Prod.snd from by
    rw [List.map_append]
    rfl]
  rw [show A.length = (A.map Prod.snd).length from (List.length_map _ _).symm]
  rw [List.take_left, drop_append_cons]
  show _ :: _ = encodeTags (A ++ (g, w ||| 2 ^ (15 - p)) :: B')
  rw [show encodeTags (A ++ (g, w ||| 2 ^ (15 - p)) :: B') =
    headerOfList (A.map Prod.fst ++ g :: B'.map Prod.fst) ::
      (A.map Prod.snd ++ (w ||| 2 ^ (15 - p)) :: B'.map Prod.snd) from by
    unfold encodeTags
    rw [List.map_append, List.map_append]
    rfl]
  congr 1
  · rw [show ((A ++ (g, w) :: B').map Prod.fst) =
      A.map Prod.fst ++ g :: B'.map Prod.fst from by
      rw [List.map_append]
      rfl] at hbit ⊢
    exact lor_two_pow_of_testBit _ _ hbit

theorem split_by_pivot :
    ∀ entries : List (Nat × Nat), List.Pairwise (fun a b => a.1 < b.1) entries →
      ∀ g : Nat, ∃ A B, entries = A ++ B ∧ (∀ e ∈ A, e.1 < g) ∧ (∀ e ∈ B, g ≤ e.1) := by
  intro entries
  induction entries with
  | nil => exact fun _ g => ⟨[], [], rfl, by simp, by simp⟩
  | cons e rest ih =>
    intro hpw g
    by_cases he : e.1 < g
    · obtain ⟨A, B, hAB, hA, hB⟩ := ih hpw.of_cons g
      refine ⟨e :: A, B, by rw [List.cons_append, hAB], ?_, hB⟩
      intro x hx
      rcases List.mem_cons.mp hx with h | h
      · rw [h]; exact he
      · exact hA x h
    · refine ⟨[], e :: rest, rfl, by simp, ?_⟩
      intro x hx
      rcases List.mem_cons.mp hx with h | h
      · rw [h]; omega
      · have := (List.pairwise_cons.mp hpw).1 x h
        omega

/-- One `tagsToFlags` iteration on a well-formed state: the result is a
well-formed state encoding exactly one more ordinal. -/
theorem tagsToFlagsStep_master (entries : List (Nat × Nat)) (hwf : TagsWf entries)
    (val : Nat) (hval : val < 256) :
    ∃ C, tagsToFlagsStep (encodeTags entries) val = encodeTags C ∧ TagsWf C ∧
      ∀ v, EncodedIn C v ↔ (EncodedIn entries v ∨ v = val) := by
  obtain ⟨hpw, h16, hwords⟩ := hwf
  have hg : val / 16 < 16 := by omega
  have hp : val % 16 < 16 := by omega
  have hvgp : val / 16 * 16 + val % 16 = val := by omega
  obtain ⟨A, B, hAB, hA, hB⟩ := split_by_pivot entries hpw (val / 16)
  subst hAB
  have hpwB : List.Pairwise (fun a b => a.1 < b.1) B := (List.pairwise_append.mp hpw).2.1
  have hpwA : List.Pairwise (fun a b => a.1 < b.1) A := (List.pairwise_append.mp hpw).1
  have hcross : ∀ a ∈ A, ∀ b ∈ B, a.1 < b.1 := (List.pairwise_append.mp hpw).2.2
  -- helper for the EncodedIn direction at the new value
  have hvaldiv : (val / 16 * 16 + val % 16) / 16 = val / 16 := by omega
  cases B with
  | nil =>
    have habs := tagsToFlagsStep_absent A [] (val / 16) (val % 16) hg hp
      ⟨hpw, h16, hwords⟩ hA (by simp)
    rw [hvgp] at habs
    refine ⟨A ++ [(val / 16, 2 ^ (15 - val % 16))], habs, ?_, ?_⟩
    · refine ⟨?_, ?_, ?_⟩
      · apply List.pairwise_append.mpr
        refine ⟨hpwA, by simp, ?_⟩
        intro a ha b hb
        rcases List.mem_cons.mp hb with h | h
        · rw [h]; exact hA a ha
        · simp at h
      · intro e he
        rcases List.mem_append.mp he with h | h
        · exact h16 e (by simp [h])
        · rcases List.mem_cons.mp h with h2 | h2
          · rw [h2]; exact hg
          · simp at h2
      · intro e he
        rcases List.mem_append.mp he with h | h
        · exact hwords e (by simp [h])
        · rcases List.mem_cons.mp h with h2 | h2
          · rw [h2]
            constructor
            · positivity
            · exact Nat.pow_lt_pow_right (by norm_num) (by omega)
          · simp at h2
    · intro v
      constructor
      · rintro ⟨e, he, he1, he2⟩
        rcases List.mem_append.mp he with h | h
        · exact Or.inl ⟨e, by simp [h], he1, he2⟩
        · rcases List.mem_cons.mp h with h2 | h2
          · subst h2
            rw [Nat.testBit_two_pow] at he2
            have : 15 - val % 16 = 15 - v % 16 := of_decide_eq_true he2
            have hv16 : v % 16 = val % 16 := by omega
            right
            simp only at he1
            omega
          · simp at h2
      · rintro (⟨e, he, he1, he2⟩ | hv)
        · rcases List.mem_append.mp he with h | h
          · exact ⟨e, by simp [h], he1, he2⟩
          · simp at h
        · rw [hv]
          refine ⟨(val / 16, 2 ^ (15 - val % 16)), by simp, by simp [hvaldiv], ?_⟩
          show (2 ^ (15 - val % 16) : Nat).testBit (15 - val % 16) = true
          rw [Nat.testBit_two_pow]
          simp
  | cons b B' =>
    have hbge : val / 16 ≤ b.1 := hB b (by simp)
    have hB'gt : ∀ e ∈ B', b.1 < e.1 := fun e he => (List.pairwise_cons.mp hpwB).1 e he
    by_cases hbeq : b.1 = val / 16
    · -- update in place
      obtain ⟨bg, bw⟩ := b
      simp only at hbeq
      subst hbeq
      have hpres := tagsToFlagsStep_present A B' bw (val / 16) (val % 16) hg hp
        ⟨hpw, h16, hwords⟩ hA
      rw [hvgp] at hpres
      refine ⟨A ++ (val / 16, bw ||| 2 ^ (15 - val % 16)) :: B', hpres, ?_, ?_⟩
      · refine ⟨?_, ?_, ?_⟩
        · apply List.pairwise_append.mpr
          refine ⟨hpwA, ?_, ?_⟩
          · apply List.pairwise_cons.mpr
            exact ⟨fun e he => (List.pairwise_cons.mp hpwB).1 e he, hpwB.of_cons⟩
          · intro a ha c hc
            rcases List.mem_cons.mp hc with h | h
            · rw [h]; exact hA a ha
            · exact hcross a ha c (by simp [h])
        · intro e he
          rcases List.mem_append.mp he with h | h
          · exact h16 e (by simp [h])
          · rcases List.mem_cons.mp h with h2 | h2
            · rw [h2]; exact hg
            · exact h16 e (by simp [h2])
        · intro e he
          rcases List.mem_append.mp he with h | h
          · exact hwords e (by simp [h])
          · rcases List.mem_cons.mp h with h2 | h2
            · rw [h2]
              constructor
              · have hb1 : ((bw ||| 2 ^ (15 - val % 16)) : Nat).testBit (15 - val % 16) = true := by
                  rw [Nat.testBit_or, Nat.testBit_two_pow]
                  simp
                by_contra h0
                have : (bw ||| 2 ^ (15 - val % 16)) = 0 := by omega
                rw [this, Nat.zero_testBit] at hb1
                exact absurd hb1 (by simp)
              · exact lor_lt_two_pow _ _ _ (hwords (val / 16, bw) (by simp)).2
                  (Nat.pow_lt_pow_right (by norm_num) (by omega))
            · exact hwords e (by simp [h2])
      · intro v
        constructor
        · rintro ⟨e, he, he1, he2⟩
          rcases List.mem_append.mp he with h | h
          · exact Or.inl ⟨e, by simp [h], he1, he2⟩
          · rcases List.mem_cons.mp h with h2 | h2
            · subst h2
              simp only at he1 he2
              rw [Nat.testBit_or] at he2
              rcases Bool.or_eq_true_iff.mp he2 with hb2 | hb2
              · exact Or.inl ⟨(val / 16, bw), by simp, he1, hb2⟩
              · rw [Nat.testBit_two_pow] at hb2
                have : 15 - val % 16 = 15 - v % 16 := of_decide_eq_true hb2
                right
                omega
            · exact Or.inl ⟨e, by simp [h2], he1, he2⟩
        · rintro (⟨e, he, he1, he2⟩ | hv)
          · rcases List.mem_append.mp he with h | h
            · exact ⟨e, by simp [h], he1, he2⟩
            · rcases List.mem_cons.mp h with h2 | h2
              · subst h2
                refine ⟨(val / 16, bw ||| 2 ^ (15 - val % 16)), by simp, he1, ?_⟩
                rw [Nat.testBit_or]
                simp only at he2
                rw [he2]
                rfl
              · exact ⟨e, by simp [h2], he1, he2⟩
          · rw [hv]
            refine ⟨(val / 16, bw ||| 2 ^ (15 - val % 16)), by simp, by simp [hvaldiv], ?_⟩
            show ((bw ||| 2 ^ (15 - val % 16)) : Nat).testBit (15 - val % 16) = true
            rw [Nat.testBit_or, Nat.testBit_two_pow]
            simp
    · -- fresh group strictly before b
      have hbgt : ∀ e ∈ b :: B', val / 16 < e.1 := by
        intro e he
        rcases List.mem_cons.mp he with h | h
        · rw [h]; omega
        · have := hB'gt e h
          omega
      have habs := tagsToFlagsStep_absent A (b :: B') (val / 16) (val % 16) hg hp
        ⟨hpw, h16, hwords⟩ hA hbgt
      rw [hvgp] at habs
      refine ⟨A ++ (val / 16, 2 ^ (15 - val % 16)) :: b :: B', habs, ?_, ?_⟩
      · refine ⟨?_, ?_, ?_⟩
        · apply List.pairwise_append.mpr
          refine ⟨hpwA, ?_, ?_⟩
          · exact List.pairwise_cons.mpr ⟨hbgt, hpwB⟩
          · intro a ha c hc
            rcases List.mem_cons.mp hc with h | h
            · rw [h]; exact hA a ha
            · exact hcross a ha c h
        · intro e he
          rcases List.mem_append.mp he with h | h
          · exact h16 e (by simp [h])
          · rcases List.mem_cons.mp h with h2 | h2
            · rw [h2]; exact hg
            · exact h16 e (by simp [h2])
        · intro e he
          rcases List.mem_append.mp he with h | h
          · exact hwords e (by simp [h])
          · rcases List.mem_cons.mp h with h2 | h2
            · rw [h2]
              exact ⟨by positivity, Nat.pow_lt_pow_right (by norm_num) (by omega)⟩
            · exact hwords e (by simp [h2])
      · intro v
        constructor
        · rintro ⟨e, he, he1, he2⟩
          rcases List.mem_append.mp he with h | h
          · exact Or.inl ⟨e, by simp [h], he1, he2⟩
          · rcases List.mem_cons.mp h with h2 | h2
            · subst h2
              rw [Nat.testBit_two_pow] at he2
              have : 15 - val % 16 = 15 - v % 16 := of_decide_eq_true he2
              right
              simp only at he1
              omega
            · exact Or.inl ⟨e, by simp [h2], he1, he2⟩
        · rintro (⟨e, he, he1, he2⟩ | hv)
          · rcases List.mem_append.mp he with h | h
            · exact ⟨e, by simp [h], he1, he2⟩
            · exact ⟨e, by simp [h], he1, he2⟩
          · rw [hv]
            refine ⟨(val / 16, 2 ^ (15 - val % 16)), by simp, by simp [hvaldiv], ?_⟩
            show (2 ^ (15 - val % 16) : Nat).testBit (15 - val % 16) = true
            rw [Nat.testBit_two_pow]
            simp

theorem bitPosLoop_eq_filter (w : Nat) (hw : w < 2 ^ 16) :
    ∀ fuel s, s + fuel = 16 →
      bitPosLoop w fuel s = (List.range' s fuel).filter (fun j => w.testBit (15 - j)) := by
  intro fuel
  induction fuel with
  | zero => intro s _; rfl
  | succ f ih =>
    intro s hs
    show (if w * 2 ^ s % 2 ^ 32 = 0 then []
      else if w &&& 2 ^ (15 - s) = 2 ^ (15 - s) then s :: bitPosLoop w f (s + 1)
      else bitPosLoop w f (s + 1)) = _
    have hs15 : s ≤ 15 := by omega
    have hsmall : w * 2 ^ s < 2 ^ 32 := by
      have h1 : (2:Nat) ^ s ≤ 2 ^ 15 := Nat.pow_le_pow_right (by norm_num) hs15
      have h2 : w * 2 ^ s ≤ w * 2 ^ 15 := Nat.mul_le_mul_left w h1
      have h3 : w * 2 ^ 15 < 2 ^ 16 * 2 ^ 15 := by
        apply Nat.mul_lt_mul_of_lt_of_le hw (le_refl _)
        positivity
      have h4 : (2:Nat) ^ 16 * 2 ^ 15 = 2 ^ 31 := by norm_num
      have h5 : (2:Nat) ^ 31 < 2 ^ 32 := by norm_num
      omega
    by_cases hz : w = 0
    · subst hz
      rw [if_pos (by simp)]
      symm
      apply List.filter_eq_nil_iff.mpr
      intro j _
      rw [Nat.zero_testBit]
      simp
    · rw [if_neg (by
        rw [Nat.mod_eq_of_lt hsmall]
        positivity)]
      rw [show List.range' s (f + 1) = s :: List.range' (s + 1) f from rfl]
      rw [List.filter_cons]
      by_cases hbit : w.testBit (15 - s) = true
      · rw [if_pos ((and_two_pow_eq_iff w (15 - s)).mpr hbit)]
        rw [ih (s + 1) (by omega)]
        simp [hbit]
      · have hbit2 : w.testBit (15 - s) = false := by
          rcases hb : w.testBit (15 - s) with _ | _
          · rfl
          · exact absurd hb hbit
        rw [if_neg (fun hc => hbit ((and_two_pow_eq_iff w (15 - s)).mp hc))]
        rw [ih (s + 1) (by omega)]
        simp [hbit2]

theorem bitPosLoop_mem (w : Nat) (hw : w < 2 ^ 16) (j : Nat) :
    j ∈ bitPosLoop w 16 0 ↔ j < 16 ∧ w.testBit (15 - j) = true := by
  rw [bitPosLoop_eq_filter w hw 16 0 rfl]
  rw [List.mem_filter, List.mem_range'_1]
  constructor
  · rintro ⟨h1, h2⟩
    exact ⟨by omega, h2⟩
  · rintro ⟨h1, h2⟩
    exact ⟨⟨by omega, by omega⟩, h2⟩

/-- The header scan of `flagsToTags` recovers exactly the sorted list of
populated groups. -/
theorem bitPosLoop_sorted_aux (w : Nat) (hw : w < 2 ^ 16) :
    ∀ m s (gs : List Nat), s + m = 16 → List.Pairwise (· < ·) gs →
      (∀ x ∈ gs, s ≤ x ∧ x < 16) →
      (∀ t, s ≤ t → t < 16 → (w.testBit (15 - t) = true ↔ t ∈ gs)) →
      (List.range' s m).filter (fun j => w.testBit (15 - j)) = gs := by
  intro m
  induction m with
  | zero =>
    intro s gs hs _ hbound _
    have : gs = [] := by
      cases gs with
      | nil => rfl
      | cons a l =>
        have := hbound a (by simp)
        omega
    rw [this]
    rfl
  | succ f ih =>
    intro s gs hs hpw hbound hbits
    rw [show List.range' s (f + 1) = s :: List.range' (s + 1) f from rfl]
    rw [List.filter_cons]
    by_cases hbit : w.testBit (15 - s) = true
    · have hmem : s ∈ gs := (hbits s (le_refl s) (by omega)).mp hbit
      rcases gs with _ | ⟨a, rest⟩
      · simp at hmem
      · have ha : a = s := by
          rcases List.mem_cons.mp hmem with h | h
          · omega
          · have h1 := (List.pairwise_cons.mp hpw).1 s h
            have h2 := (hbound a (by simp)).1
            omega
        subst ha
        rw [if_pos hbit]
        congr 1
        apply ih (a + 1) rest (by omega) hpw.of_cons
        · intro x hx
          have h1 := (List.pairwise_cons.mp hpw).1 x hx
          have h2 := (hbound x (by simp [hx])).2
          omega
        · intro t ht h16
          rw [hbits t (by omega) h16]
          constructor
          · intro h
            rcases List.mem_cons.mp h with h2 | h2
            · omega
            · exact h2
          · intro h
            exact List.mem_cons.mpr (Or.inr h)
    · have hnotmem : s ∉ gs := fun hmem =>
        hbit ((hbits s (le_refl s) (by omega)).mpr hmem)
      rw [if_neg hbit]
      apply ih (s + 1) gs (by omega) hpw
      · intro x hx
        have h1 := (hbound x hx).1
        have : x ≠ s := fun he => hnotmem (he ▸ hx)
        have h2 := (hbound x hx).2
        omega
      · intro t ht h16
        exact hbits t (by omega) h16

/-- Number of set bits below index `m`. -/
def bitsCount (n : Nat) : Nat → Nat
  | 0 => 0
  | m + 1 => bitsCount n m + (if n.testBit m then 1 else 0)

theorem bitsCount_zero_left : ∀ m, bitsCount 0 m = 0 := by
  intro m
  induction m with
  | zero => rfl
  | succ f ih =>
    show bitsCount 0 f + (if Nat.testBit 0 f then 1 else 0) = 0
    rw [ih, Nat.zero_testBit]
    rfl

theorem bitsCount_shift (n : Nat) : ∀ m, bitsCount n (m + 1) = n % 2 + bitsCount (n / 2) m := by
  intro m
  induction m with
  | zero =>
    show bitsCount n 0 + (if n.testBit 0 then 1 else 0) = n % 2 + bitsCount (n / 2) 0
    rw [Nat.testBit_zero]
    by_cases h : n % 2 = 1
    · rw [if_pos (by simp [h])]
      show 0 + 1 = n % 2 + 0
      omega
    · rw [if_neg (by simp [h])]
      show 0 + 0 = n % 2 + 0
      omega
  | succ f ih =>
    show bitsCount n (f + 1) + (if n.testBit (f + 1) then 1 else 0) = _
    rw [ih, Nat.testBit_add_one]
    rw [show bitsCount (n / 2) (f + 1) =
      bitsCount (n / 2) f + (if (n / 2).testBit f then 1 else 0) from rfl]
    omega

theorem countSetBits_eq_bitsCount : ∀ m n, n < 2 ^ m → m ≤ 32 →
    countSetBits n = bitsCount n m := by
  intro m
  induction m with
  | zero =>
    intro n hn _
    have : n = 0 := by simpa using hn
    subst this
    rfl
  | succ f ih =>
    intro n hn hm
    rcases Nat.eq_zero_or_pos n with h0 | h0
    · subst h0
      rw [bitsCount_zero_left]
      rfl
    · have h32 : n < 2 ^ 32 := lt_of_lt_of_le hn (Nat.pow_le_pow_right (by norm_num) hm)
      rw [countSetBits_pos n h0 h32, bitsCount_shift]
      congr 1
      apply ih
      · have h2 : (2:Nat) ^ (f + 1) = 2 * 2 ^ f := by rw [pow_succ']
        omega
      · omega

theorem filter_testBit_length (w : Nat) :
    ∀ m s, s + m = 16 →
      ((List.range' s m).filter (fun j => w.testBit (15 - j))).length = bitsCount w m := by
  intro m
  induction m with
  | zero => intro s _; rfl
  | succ f ih =>
    intro s hs
    rw [show List.range' s (f + 1) = s :: List.range' (s + 1) f from rfl]
    rw [List.filter_cons]
    have h15 : 15 - s = f := by omega
    by_cases hbit : w.testBit (15 - s) = true
    · rw [if_pos hbit]
      show ((List.range' (s + 1) f).filter (fun j => w.testBit (15 - j))).length + 1 = _
      rw [ih (s + 1) (by omega)]
      show bitsCount w f + 1 = bitsCount w f + (if w.testBit f then 1 else 0)
      rw [← h15, hbit]
      rfl
    · have hbit2 : w.testBit (15 - s) = false := by
        rcases hb : w.testBit (15 - s) with _ | _
        · rfl
        · exact absurd hb hbit
      rw [if_neg (by rw [hbit2]; simp)]
      rw [ih (s + 1) (by omega)]
      show bitsCount w f = bitsCount w f + (if w.testBit f then 1 else 0)
      rw [← h15, hbit2]
      rfl

theorem bitPosLoop_length (w : Nat) (hw : w < 2 ^ 16) :
    (bitPosLoop w 16 0).length = countSetBits w := by
  rw [bitPosLoop_eq_filter w hw 16 0 rfl, filter_testBit_length w 16 0 rfl]
  exact (countSetBits_eq_bitsCount 16 w hw (by norm_num)).symm

theorem getD_map_lt {f : Nat × Nat → Nat} (l : List (Nat × Nat)) (k : Nat)
    (h : k < l.length) (d : Nat) :
    (l.map f).getD k d = f (l.get ⟨k, h⟩) := by
  simp [List.getD_eq_getElem?_getD, List.getElem?_map, List.getElem?_eq_getElem h]

theorem tagValuesLoop_mem (flags tis : List Nat) :
    ∀ fuel i v, v ∈ tagValuesLoop flags tis fuel i ↔
      ∃ k, i ≤ k ∧ k < i + fuel ∧ ∃ j ∈ bitPosLoop (flags.getD (k + 1) 0) 16 0,
        v = tis.getD k 0 * 16 + j := by
  intro fuel
  induction fuel with
  | zero =>
    intro i v
    constructor
    · intro h
      exact absurd h (by simp [tagValuesLoop])
    · rintro ⟨k, h1, h2, _⟩
      omega
  | succ f ih =>
    intro i v
    show v ∈ (bitPosLoop (flags.getD (i + 1) 0) 16 0).map
        (fun j => tis.getD i 0 * 16 + j) ++ tagValuesLoop flags tis f (i + 1) ↔ _
    rw [List.mem_append, List.mem_map, ih (i + 1) v]
    constructor
    · rintro (⟨j, hj, hje⟩ | ⟨k, h1, h2, j, hj, hje⟩)
      · exact ⟨i, le_refl i, by omega, j, hj, hje.symm⟩
      · exact ⟨k, by omega, by omega, j, hj, hje⟩
    · rintro ⟨k, h1, h2, j, hj, hje⟩
      by_cases hk : k = i
      · subst hk
        exact Or.inl ⟨j, hj, hje.symm⟩
      · exact Or.inr ⟨k, by omega, by omega, j, hj, hje⟩

/-- Decoding an encoded state: `flagsToTags` lists exactly the encoded
ordinals. -/
theorem flagsToTags_encode (entries : List (Nat × Nat)) (hwf : TagsWf entries)
    (v : Nat) : v ∈ flagsToTags (encodeTags entries) ↔ EncodedIn entries v := by
  obtain ⟨hpw, h16, hwords⟩ := hwf
  have hgs16 : ∀ x ∈ entries.map Prod.fst, x < 16 := map_fst_bound _ h16
  have hgspw : List.Pairwise (· < ·) (entries.map Prod.fst) :=
    hpw.map Prod.fst (fun a b h => h)
  have hhl : headerOfList (entries.map Prod.fst) < 2 ^ 16 :=
    headerOfList_lt _ hgs16
  have hscan : bitPosLoop (headerOfList (entries.map Prod.fst)) 16 0 =
      entries.map Prod.fst := by
    rw [bitPosLoop_eq_filter _ hhl 16 0 rfl]
    apply bitPosLoop_sorted_aux _ hhl 16 0 _ rfl hgspw
    · intro x hx
      exact ⟨Nat.zero_le x, hgs16 x hx⟩
    · intro t _ h16t
      exact headerOfList_mem_iff _ t h16t hgs16
  have hlen : (encodeTags entries).length = entries.length + 1 := by
    unfold encodeTags
    simp
  rw [show flagsToTags (encodeTags entries) =
    (if (bitPosLoop (headerOfList (entries.map Prod.fst)) 16 0).length + 1 ≠
        (encodeTags entries).length then []
      else tagValuesLoop (encodeTags entries)
        (bitPosLoop (headerOfList (entries.map Prod.fst)) 16 0)
        (encodeTags entries).length 0) from rfl]
  rw [hscan]
  rw [if_neg (by
    rw [hlen, List.length_map]
    omega)]
  rw [tagValuesLoop_mem]
  constructor
  · rintro ⟨k, _, hk2, j, hj, hje⟩
    rw [hlen] at hk2
    by_cases hkl : k < entries.length
    · have hflag : (encodeTags entries).getD (k + 1) 0 = (entries.get ⟨k, hkl⟩).2 := by
        rw [show (encodeTags entries).getD (k + 1) 0 =
          (entries.map Prod.snd).getD k 0 from rfl]
        exact getD_map_lt entries k hkl 0
      have htis : (entries.map Prod.fst).getD k 0 = (entries.get ⟨k, hkl⟩).1 :=
        getD_map_lt entries k hkl 0
      rw [hflag] at hj
      rw [htis] at hje
      have hw16 : (entries.get ⟨k, hkl⟩).2 < 2 ^ 16 :=
        (hwords _ (entries.get_mem k hkl)).2
      obtain ⟨hj16, hjbit⟩ := (bitPosLoop_mem _ hw16 j).mp hj
      refine ⟨entries.get ⟨k, hkl⟩, entries.get_mem k hkl, ?_, ?_⟩
      · rw [hje]
        omega
      · rw [show v % 16 = j by omega]
        exact hjbit
    · exfalso
      have hkeq : k = entries.length := by omega
      subst hkeq
      have hflag : (encodeTags entries).getD (entries.length + 1) 0 = 0 := by
        rw [show (encodeTags entries).getD (entries.length + 1) 0 =
          (entries.map Prod.snd).getD entries.length 0 from rfl]
        exact List.getD_eq_default _ 0 (by simp)
      rw [hflag] at hj
      exact absurd hj (by simp [bitPosLoop])
  · rintro ⟨e, he, he1, he2⟩
    obtain ⟨⟨k, hkl⟩, hke⟩ := List.mem_iff_get.mp he
    have hw16 : e.2 < 2 ^ 16 := (hwords e he).2
    refine ⟨k, Nat.zero_le k, by rw [hlen]; omega, v % 16, ?_, ?_⟩
    · rw [show (encodeTags entries).getD (k + 1) 0 =
        (entries.map Prod.snd).getD k 0 from rfl]
      rw [getD_map_lt entries k hkl 0, hke]
      exact (bitPosLoop_mem _ hw16 (v % 16)).mpr ⟨by omega, he2⟩
    · rw [getD_map_lt entries k hkl 0, hke, he1]
      omega

theorem tagsToFlags_foldl_spec :
    ∀ (tags : List Nat) (entries : List (Nat × Nat)), TagsWf entries →
      (∀ t ∈ tags, t < 256) →
      ∃ C, tags.foldl tagsToFlagsStep (encodeTags entries) = encodeTags C ∧
        TagsWf C ∧ ∀ v, EncodedIn C v ↔ (EncodedIn entries v ∨ v ∈ tags) := by
  intro tags
  induction tags with
  | nil =>
    intro entries hwf _
    exact ⟨entries, rfl, hwf, fun v => by simp⟩
  | cons t rest ih =>
    intro entries hwf hb
    obtain ⟨C1, hC1, hwf1, hsem1⟩ :=
      tagsToFlagsStep_master entries hwf t (hb t (by simp))
    obtain ⟨C, hC, hwfC, hsem⟩ := ih C1 hwf1 (fun x hx => hb x (by simp [hx]))
    refine ⟨C, ?_, hwfC, ?_⟩
    · show List.foldl tagsToFlagsStep (tagsToFlagsStep (encodeTags entries) t) rest =
        encodeTags C
      rw [hC1, hC]
    · intro v
      rw [hsem v, hsem1 v, List.mem_cons]
      tauto

/-- C2: For every set `S` of tag ordinals with `S ⊆ [0, 256)`, decoding the
encoding round-trips: `flagsToTags (tagsToFlags S)` holds exactly the
members of `S` (as a set). -/
theorem c2_tag_bitmap_roundtrip (tags : List Nat) (hb : ∀ t ∈ tags, t < 256)
    (v : Nat) : v ∈ flagsToTags (tagsToFlags tags) ↔ v ∈ tags := by
  obtain ⟨C, hC, hwfC, hsem⟩ := tagsToFlags_foldl_spec tags []
    ⟨by simp, by simp, by simp⟩ hb
  unfold tagsToFlags
  rw [show ([0] : List Nat) = encodeTags [] from rfl, hC]
  rw [flagsToTags_encode C hwfC v, hsem v]
  have : ¬EncodedIn [] v := by
    rintro ⟨e, he, _⟩
    simp at he
  tauto

theorem c2_tag_bitmap_roundtrip_witness :
    (200 ∈ flagsToTags (tagsToFlags [5, 200, 77]) ↔ 200 ∈ [5, 200, 77]) ∧
      (201 ∈ flagsToTags (tagsToFlags [5, 200, 77]) ↔ 201 ∈ [5, 200, 77]) :=
  ⟨c2_tag_bitmap_roundtrip [5, 200, 77] (by decide) 200,
    c2_tag_bitmap_roundtrip [5, 200, 77] (by decide) 201⟩

/-- C4 counterexample: `[0x8000]` claims one populated group but carries
no group word; `flagsToTags` does not abort — it returns the empty
ordinal list. -/
theorem c4_mismatch_counterexample :
    countSetBits (([32768] : List Nat).getD 0 0) + 1 ≠ ([32768] : List Nat).length ∧
      flagsToTags [32768] = [] :=
  ⟨by decide, rfl⟩

/-- C4 (amended): on a header/group-word count mismatch `flagsToTags` does
not abort with a decode error; it logs and returns the empty list (the
function is total). -/
theorem c4_mismatch_amended (flags : List Nat) (hwf : WfBuf flags)
    (hmm : countSetBits (flags.getD 0 0) + 1 ≠ flags.length) :
    flagsToTags flags = [] := by
  have hh : flags.getD 0 0 < 2 ^ 16 := by
    cases flags with
    | nil => norm_num [List.getD]
    | cons a t => exact hwf a (by simp)
  rw [show flagsToTags flags =
    (if (bitPosLoop (flags.getD 0 0) 16 0).length + 1 ≠ flags.length then []
      else tagValuesLoop flags (bitPosLoop (flags.getD 0 0) 16 0) flags.length 0)
    from rfl]
  rw [if_pos (by rw [bitPosLoop_length _ hh]; exact hmm)]

theorem c4_mismatch_amended_witness : flagsToTags [32768, 1024, 7] = [] :=
  c4_mismatch_amended [32768, 1024, 7] (by decide) (by decide)

/-! ### FrozenTrie (src/src/ftrie.js)

The trie holds its bit-string data and the rank directory.  The directory
is abstracted as the total function `select0 = directory.select(0, ·)`,
and the codec (codec.js, imported by ftrie.js but not part of the
repository) is abstracted as opaque function fields; the traversal logic
below is translated from ftrie.js itself.  The node cache is absent
(`cache = null`), matching the `createTrie` default. -/

structure FTrie where
  data : List Nat
  select0 : Nat → Int
  nodeCount : Nat
  typ : Nat
  useCodec6 : Bool
  optflags : Bool
  encodedDelim0 : Nat
  encodedPeriod0 : Nat
  decode8 : List Nat → List Nat
  decode16raw : List Nat → List Nat
  str2buf : List Nat → List Nat
  decodeStr : List Nat → List Nat

/-- `this.bitslen = this.proto.typ + this.extraBit` with `extraBit = 2`. -/
def ftBitslen (t : FTrie) : Nat := t.typ + 2

/-- `this.letterStart = nodeCount * 2 + 1`. -/
def ftLetterStart (t : FTrie) : Nat := t.nodeCount * 2 + 1

/-- `FrozenTrieNode.final()`: bit 1 of the node's (2 + typ)-bit record. -/
def ftFinal (t : FTrie) (i : Nat) : Bool :=
  bsGet t.data (ftLetterStart t + i * ftBitslen t + 1) 1 = 1

/-- `FrozenTrieNode.compressed()`: bit 0 of the node record. -/
def ftCompressed (t : FTrie) (i : Nat) : Bool :=
  bsGet t.data (ftLetterStart t + i * ftBitslen t) 1 = 1

/-- `FrozenTrieNode.flag()`: compressed and final. -/
def ftFlag (t : FTrie) (i : Nat) : Bool := ftCompressed t i && ftFinal t i

/-- `FrozenTrieNode.where()` / `letter()`: the typ-bit payload past the
2-bit header. -/
def ftWhere (t : FTrie) (i : Nat) : Nat :=
  bsGet t.data (ftLetterStart t + i * ftBitslen t + 2) (ftBitslen t - 2)

/-- `firstChild() = select(0, index + 1) - index`. -/
def ftFirstChild (t : FTrie) (i : Nat) : Int := t.select0 (i + 1) - i

/-- `childOfNextNode() = select(0, index + 2) - index - 1`. -/
def ftChildOfNextNode (t : FTrie) (i : Nat) : Int := t.select0 (i + 2) - i - 1

/-- `childCount() = childOfNextNode() - firstChild()`. -/
def ftChildCount (t : FTrie) (i : Nat) : Int :=
  ftChildOfNextNode t i - ftFirstChild t i

/-- `getChild(j)`: the trie index of the `j`-th child (JS constructs the
node at `firstChild() + j`; negative garbage indices clamp to 0 like any
out-of-range bit read). -/
def ftGetChild (t : FTrie) (i j : Nat) : Nat := (ftFirstChild t i + j).toNat

/-- The scan loop of `lastFlagChild` (src/src/ftrie.js lines 298-314).
The fuel equals the (clamped) child count, so fuel exhaustion coincides
with the loop condition `i < childcount` turning false. -/
def lastFlagChildLoop (t : FTrie) (n : Nat) (cc : Int) : Nat → Nat → Int
  | 0, i => (i : Int)
  | fuel + 1, i =>
    if (i : Int) < cc then
      if ftFlag t (ftGetChild t n i) then lastFlagChildLoop t n cc fuel (i + 1)
      else (i : Int) - 1
    else (i : Int)

/-- `FrozenTrieNode.lastFlagChild()`. -/
def lastFlagChild (t : FTrie) (n : Nat) : Int :=
  lastFlagChildLoop t n (ftChildCount t n) (ftChildCount t n).toNat 0

/-- Backward walk of `radix`: count the run of compressed non-flag nodes
ending at `this` (inclusive), walking toward smaller indices. -/
def ftRadixBack (t : FTrie) (this' : Nat) : Nat → Nat → Nat
  | 0, start => start
  | fuel + 1, start =>
    if ftCompressed t (this' - start) = true ∧ ftFlag t (this' - start) = false then
      ftRadixBack t this' fuel (start + 1)
    else start

/-- Forward walk of `radix`: keep pushing siblings until the first
non-compressed node (inclusive). -/
def ftRadixFwd (t : FTrie) (this' : Nat) : Nat → Nat → Nat
  | 0, endc => endc
  | fuel + 1, endc =>
    if ftCompressed t (this' + endc + 1) = true then
      ftRadixFwd t this' fuel (endc + 1)
    else endc + 1

/-- `FrozenTrieNode.radix(parent)` without the node cache: the word spanned
by the compressed run through `this`, its child-local start `loc`, and the
branch node holding the run's children (src/src/ftrie.js lines 95-175). -/
def ftRadix (t : FTrie) (parent this' : Nat) : List Nat × Int × Nat :=
  let loc : Int := (this' : Int) - ftFirstChild t parent
  let prevOk : Prop := if 0 < loc then
      ftCompressed t ((ftFirstChild t parent + (loc - 1)).toNat) = true ∧
        ftFlag t ((ftFirstChild t parent + (loc - 1)).toNat) = false
    else False
  let thisC : Prop := ftCompressed t this' = true ∧ ftFlag t this' = false
  if thisC ∨ prevOk then
    let start := ftRadixBack t this' this' 1
    let endc := if thisC then
        ftRadixFwd t this' ((ftChildCount t parent).toNat + 1) 0 else 0
    let lo := this' + 1 - start
    let comp := (List.range' lo (start + endc)).map (ftWhere t)
    (comp, (lo : Int) - ftFirstChild t parent, this' + endc)
  else ([ftWhere t this'], loc, this')

instance (t : FTrie) (parent this' : Nat) :
    Decidable (if 0 < ((this' : Int) - ftFirstChild t parent) then
      ftCompressed t ((ftFirstChild t parent +
        (((this' : Int) - ftFirstChild t parent) - 1)).toNat) = true ∧
        ftFlag t ((ftFirstChild t parent +
          (((this' : Int) - ftFirstChild t parent) - 1)).toNat) = false
    else False) := by
  split <;> infer_instance

/-- The flag-children value collector of `FrozenTrieNode.value()`
(src/src/ftrie.js lines 210-246): walk the leading flag children,
accumulating 6-bit letters (`optvalue`) or packed 16-bit pairs (`value`). -/
def ftValueCollect (t : FTrie) (n cc : Nat) :
    Nat → Nat → List Nat × List Nat × Nat → List Nat × List Nat × Nat
  | 0, _, acc => acc
  | fuel + 1, i, (value, optvalue, j) =>
    if i < cc then
      if ftFlag t (ftGetChild t n i) = false then (value, optvalue, j)
      else
        let letter := ftWhere t (ftGetChild t n i)
        if t.useCodec6 then
          ftValueCollect t n cc fuel (i + 1) (value, optvalue ++ [letter], j + 1)
        else if i % 2 = 0 then
          ftValueCollect t n cc fuel (i + 1) (value ++ [letter * 2 ^ 8], optvalue, j)
        else
          ftValueCollect t n cc fuel (i + 1)
            (value.set j (value.getD j 0 ||| letter), optvalue, j + 1)
    else (value, optvalue, j)

/-- `FrozenTrieNode.value()` (src/src/ftrie.js lines 209-260). -/
def ftValue (t : FTrie) (n : Nat) : List Nat :=
  let cc := (ftChildCount t n).toNat
  let r := ftValueCollect t n cc cc 0 ([], [], 0)
  if t.optflags ∧ ((t.useCodec6 ∧ r.2.1.length ≤ 4) ∨ r.2.1.length ≤ 3) then
    t.str2buf (tagsToFlags (if t.useCodec6 then t.decode8 r.2.1 else r.2.1))
  else if t.useCodec6 then t.decode16raw r.2.1 else r.1

/-- Result of the binary-search loop inside `lookup`: a hard return of the
accumulated result, a match advancing to a branch node, or search
exhaustion (the JS `next` stays null). -/
inductive InnerRes where
  | ret : InnerRes
  | advance : Nat → Nat → InnerRes
  | nomatch : InnerRes
deriving Repr, DecidableEq

/-- The binary search over a node's letter children
(src/src/ftrie.js lines 423-466).  `probe = ((high + low) / 2) | 0` is
truncating division. -/
def lookupInner (t : FTrie) (node : Nat) (word : List Nat) (i : Nat) :
    Nat → Int → Int → InnerRes
  | 0, _, _ => InnerRes.nomatch
  | fuel + 1, high, low =>
    if 1 < high - low then
      let probe := Int.tdiv (high + low) 2
      let child := (ftFirstChild t node + probe).toNat
      let r := ftRadix t node child
      let comp := r.1
      let w := (word.drop i).take comp.length
      if comp.getD 0 0 > w.getD 0 0 then
        lookupInner t node word i fuel r.2.1 low
      else if comp.getD 0 0 < w.getD 0 0 then
        lookupInner t node word i fuel high (r.2.1 + comp.length - 1)
      else if w.length < comp.length then InnerRes.ret
      else if w ≠ comp then InnerRes.ret
      else InnerRes.advance r.2.2 w.length
    else InnerRes.nomatch

/-- The label-boundary capture of `lookup` (src/src/ftrie.js lines
400-405): on a period over a final node, record the interim value
(`returnValue.set(partial, node.value())`, creating the map first if
`returnValue` was still `false`). -/
def lookupHit (t : FTrie) (word : List Nat) (i node : Nat)
    (acc : Option (List (List Nat × List Nat))) :
    Option (List (List Nat × List Nat)) :=
  if word.getD i 0 = t.encodedPeriod0 ∧ ftFinal t node = true then
    some (acc.getD [] ++ [(t.decodeStr (word.take i).reverse, ftValue t node)])
  else acc

/-- The traversal loop of `FrozenTrie.lookup`
(src/src/ftrie.js lines 389-478).  `acc` is the JS `returnValue`
(`none` for the initial `false`); the fuel only bounds the loop (a word
match advances `i` by at least one each round). -/
def lookupOuter (t : FTrie) (word : List Nat) :
    Nat → Option Nat → Nat → Option (List (List Nat × List Nat)) →
      Option (List (List Nat × List Nat))
  | 0, _, _, acc => acc
  | fuel + 1, onode, i, acc =>
    if i < word.length then
      match onode with
      | none => acc
      | some node =>
        if ftChildCount t node - 1 ≤ lastFlagChild t node then
          lookupHit t word i node acc
        else
          match lookupInner t node word i ((ftChildCount t node).toNat + 2)
              (ftChildCount t node) (lastFlagChild t node) with
          | InnerRes.ret => lookupHit t word i node acc
          | InnerRes.nomatch =>
              lookupOuter t word fuel none i (lookupHit t word i node acc)
          | InnerRes.advance branch di =>
              lookupOuter t word fuel (some branch) (i + di)
                (lookupHit t word i node acc)
    else
      match onode with
      | none => acc
      | some node =>
        if ftFinal t node = true then
          some (acc.getD [] ++ [(t.decodeStr word.reverse, ftValue t node)])
        else acc

/-- `Array.prototype.lastIndexOf` for a single element: the largest index
holding `target`, or -1. -/
def jsLastIndexOf (l : List Nat) (target : Nat) : Int :=
  match l with
  | [] => -1
  | a :: rest =>
    let r := jsLastIndexOf rest target
    if 0 ≤ r then r + 1
    else if a = target then 0
    else -1

/-- `FrozenTrie.lookup(word)` (src/src/ftrie.js lines 378-484): truncate
at the last delimiter occurrence past index 0, then walk from the root. -/
def ftLookup (t : FTrie) (word : List Nat) : Option (List (List Nat × List Nat)) :=
  let idx := jsLastIndexOf word t.encodedDelim0
  let w := if 0 < idx then word.take idx.toNat else word
  lookupOuter t w (2 * w.length + 4) (some 0) 0 none

/-- Spec-side predicate, following the spec's words for C8: the traversal
reaches a final node — at a label boundary or at the end of the word —
along the same walk `lookup` performs. -/
def reachesHit (t : FTrie) (word : List Nat) (i node : Nat) : Bool :=
  decide (word.getD i 0 = t.encodedPeriod0) && ftFinal t node

def reachesFinalOuter (t : FTrie) (word : List Nat) :
    Nat → Option Nat → Nat → Bool
  | 0, _, _ => false
  | fuel + 1, onode, i =>
    if i < word.length then
      match onode with
      | none => false
      | some node =>
        if ftChildCount t node - 1 ≤ lastFlagChild t node then
          reachesHit t word i node
        else
          match lookupInner t node word i ((ftChildCount t node).toNat + 2)
              (ftChildCount t node) (lastFlagChild t node) with
          | InnerRes.ret => reachesHit t word i node
          | InnerRes.nomatch =>
              reachesHit t word i node || reachesFinalOuter t word fuel none i
          | InnerRes.advance branch di =>
              reachesHit t word i node ||
                reachesFinalOuter t word fuel (some branch) (i + di)
    else
      match onode with
      | none => false
      | some node => ftFinal t node

/-- Whether `lookup`'s traversal of `word` reaches any final node. -/
def reachesFinal (t : FTrie) (word : List Nat) : Bool :=
  let idx := jsLastIndexOf word t.encodedDelim0
  let w := if 0 < idx then word.take idx.toNat else word
  reachesFinalOuter t w (2 * w.length + 4) (some 0) 0

/-- A 3-node trie (root with two children) whose LOUDS stream is
`10 110 0 0` and whose two children both carry the flag header `11`:
letters `11000001` and `11000010` after the root's zero letter.
`select0` tabulates the directory answers for that stream
(zeros at bit positions 1, 4, 5, 6). -/
def trieAllFlags : FTrie :=
  ⟨[45057, 33668],
    fun y => if y = 1 then 1 else if y = 2 then 4 else if y = 3 then 5
      else if y = 4 then 6 else 0,
    3, 6, true, true, 0, 0, id, id, id, id⟩

/-- As `trieAllFlags` but the second child is a plain letter node
(header `00`). -/
def trieOneFlag : FTrie :=
  ⟨[45057, 33284],
    fun y => if y = 1 then 1 else if y = 2 then 4 else if y = 3 then 5
      else if y = 4 then 6 else 0,
    3, 6, true, true, 0, 0, id, id, id, id⟩

/-- C7 counterexample: a node whose children are all flag children.  The
scan runs off the end and returns the child count (here 2), not the index
of the last flag child (1). -/
theorem c7_lastflag_counterexample :
    ftChildCount trieAllFlags 0 = 2 ∧
      ftFlag trieAllFlags (ftGetChild trieAllFlags 0 0) = true ∧
      ftFlag trieAllFlags (ftGetChild trieAllFlags 0 1) = true ∧
      lastFlagChild trieAllFlags 0 = 2 :=
  ⟨rfl, rfl, rfl, rfl⟩

theorem lastFlagChildLoop_run (t : FTrie) (n : Nat) (cc : Int) (k : Nat)
    (hflags : ∀ j : Nat, j < k → ftFlag t (ftGetChild t n j) = true)
    (hnot : (k : Int) < cc → ftFlag t (ftGetChild t n k) = false)
    (hk : (k : Int) ≤ cc) :
    ∀ fuel i, i + fuel = cc.toNat → i ≤ k →
      lastFlagChildLoop t n cc fuel i =
        (if (k : Int) < cc then (k : Int) - 1 else (k : Int)) := by
  intro fuel
  induction fuel with
  | zero =>
    intro i hfi hik
    show (i : Int) = _
    by_cases hlt : (k : Int) < cc
    · exfalso
      omega
    · rw [if_neg hlt]
      omega
  | succ f ih =>
    intro i hfi hik
    show (if (i : Int) < cc then
        if ftFlag t (ftGetChild t n i) then lastFlagChildLoop t n cc f (i + 1)
        else (i : Int) - 1
      else (i : Int)) = _
    rw [if_pos (by omega : (i : Int) < cc)]
    by_cases hieq : i = k
    · subst hieq
      rw [hnot (by omega)]
      rw [if_pos (by omega : (i : Int) < cc)]
      simp
    · rw [hflags i (by omega)]
      rw [if_pos rfl]
      exact ih (i + 1) (by omega) (by omega)

/-- C7 (amended): `lastFlagChild` scans children from index 0 upward; if
the first `k` children are flag children and child `k` exists and is not
(so the last flag child has index `k - 1`), it returns `k - 1` (-1 when
`k = 0`).  But when all children are flag children it runs off the end
and returns the child count itself, not the index of the last flag
child. -/
theorem c7_lastflagchild_amended (t : FTrie) (n : Nat) (k : Nat)
    (hk : (k : Int) ≤ ftChildCount t n)
    (hflags : ∀ j : Nat, j < k → ftFlag t (ftGetChild t n j) = true) :
    ((k : Int) < ftChildCount t n → ftFlag t (ftGetChild t n k) = false →
      lastFlagChild t n = (k : Int) - 1) ∧
    ((k : Int) = ftChildCount t n → lastFlagChild t n = (k : Int)) := by
  constructor
  · intro hlt hnf
    unfold lastFlagChild
    rw [lastFlagChildLoop_run t n (ftChildCount t n) k hflags (fun _ => hnf) hk
      (ftChildCount t n).toNat 0 (Nat.zero_add _) (Nat.zero_le k)]
    rw [if_pos hlt]
  · intro heq
    unfold lastFlagChild
    rw [lastFlagChildLoop_run t n (ftChildCount t n) k hflags
      (fun h => absurd h (by omega)) hk (ftChildCount t n).toNat 0
      (Nat.zero_add _) (Nat.zero_le k)]
    rw [if_neg (by omega)]

theorem c7_lastflagchild_amended_witness :
    lastFlagChild trieOneFlag 0 = (1 : Int) - 1 :=
  (c7_lastflagchild_amended trieOneFlag 0 1 (by decide) (by decide)).1
    (by decide) (by decide)

/-- `lastIndexOf` trichotomy: either no occurrence (-1) or the position of
the last occurrence. -/
theorem jsLastIndexOf_spec (target : Nat) :
    ∀ l : List Nat,
      (jsLastIndexOf l target = -1 ∧ ∀ k, k < l.length → l.getD k 0 ≠ target) ∨
      (∃ idx : Nat, jsLastIndexOf l target = idx ∧ idx < l.length ∧
        l.getD idx 0 = target ∧
        ∀ k, idx < k → k < l.length → l.getD k 0 ≠ target) := by
  intro l
  induction l with
  | nil =>
    left
    refine ⟨rfl, ?_⟩
    intro k hk
    simp at hk
  | cons a rest ih =>
    rcases ih with ⟨hval, hnone⟩ | ⟨idx, hval, hlt, hat, hlast⟩
    · by_cases ha : a = target
      · right
        refine ⟨0, ?_, by simp, by simpa using ha, ?_⟩
        · show (if (0 : Int) ≤ jsLastIndexOf rest target then jsLastIndexOf rest target + 1
            else if a = target then 0 else -1) = (0 : Int)
          rw [hval]
          rw [if_neg (by norm_num)]
          rw [if_pos ha]
        · intro k h0 hk
          cases k with
          | zero => omega
          | succ m =>
            rw [List.getD_cons_succ]
            exact hnone m (by simpa using hk)
      · left
        constructor
        · show (if (0 : Int) ≤ jsLastIndexOf rest target then jsLastIndexOf rest target + 1
            else if a = target then 0 else -1) = (-1 : Int)
          rw [hval]
          rw [if_neg (by norm_num)]
          rw [if_neg ha]
        · intro k hk
          cases k with
          | zero => simpa using ha
          | succ m =>
            rw [List.getD_cons_succ]
            exact hnone m (by simpa using hk)
    · right
      refine ⟨idx + 1, ?_, by simpa using hlt, by simpa using hat, ?_⟩
      · show (if (0 : Int) ≤ jsLastIndexOf rest target then jsLastIndexOf rest target + 1
          else if a = target then 0 else -1) = ((idx + 1 : Nat) : Int)
        rw [hval]
        rw [if_pos (by positivity)]
        push_cast
        ring
      · intro k h0 hk
        cases k with
        | zero => omega
        | succ m =>
          rw [List.getD_cons_succ]
          exact hlast m (by omega) (by simpa using hk)

/-- C10: `lookup` truncates its input at the last delimiter occurrence
when that occurrence is at an index greater than 0, traversing only the
prefix before it; with no delimiter past index 0 the word is traversed
unchanged. -/
theorem c10_delim_truncation (t : FTrie) (word : List Nat) :
    (∀ idx : Nat, 0 < idx → idx < word.length →
      word.getD idx 0 = t.encodedDelim0 →
      (∀ k, idx < k → k < word.length → word.getD k 0 ≠ t.encodedDelim0) →
      ftLookup t word =
        lookupOuter t (word.take idx) (2 * (word.take idx).length + 4)
          (some 0) 0 none) ∧
    ((∀ k, 0 < k → k < word.length → word.getD k 0 ≠ t.encodedDelim0) →
      ftLookup t word = lookupOuter t word (2 * word.length + 4) (some 0) 0 none) := by
  have hexp : ftLookup t word = lookupOuter t
      (if 0 < jsLastIndexOf word t.encodedDelim0 then
        word.take (jsLastIndexOf word t.encodedDelim0).toNat else word)
      (2 * (if 0 < jsLastIndexOf word t.encodedDelim0 then
        word.take (jsLastIndexOf word t.encodedDelim0).toNat else word).length + 4)
      (some 0) 0 none := rfl
  constructor
  · intro idx h0 hlen hat hlast
    have hval : jsLastIndexOf word t.encodedDelim0 = (idx : Int) := by
      rcases jsLastIndexOf_spec t.encodedDelim0 word with ⟨_, hnone⟩ |
          ⟨idx2, hval2, hlt2, hat2, hlast2⟩
      · exact absurd hat (hnone idx hlen)
      · rcases Nat.lt_trichotomy idx2 idx with h | h | h
        · exact absurd hat (hlast2 idx h hlen)
        · rw [hval2, h]
        · exact absurd hat2 (hlast idx2 h hlt2)
    rw [hexp, hval]
    rw [if_pos (by exact_mod_cast h0)]
    rw [Int.toNat_natCast]
  · intro hnone
    rcases jsLastIndexOf_spec t.encodedDelim0 word with ⟨hval, _⟩ |
        ⟨idx2, hval2, hlt2, hat2, hlast2⟩
    · rw [hexp, hval]
      rw [if_neg (by norm_num)]
    · have hidx0 : idx2 = 0 := by
        by_contra hne
        exact absurd hat2 (hnone idx2 (by omega) hlt2)
      subst hidx0
      rw [hexp, hval2]
      rw [if_neg (by norm_num)]

theorem c10_delim_truncation_witness :
    ftLookup trieOneFlag [3, 0, 5] =
      lookupOuter trieOneFlag ([3, 0, 5].take 1)
        (2 * ([3, 0, 5].take 1).length + 4) (some 0) 0 none :=
  (c10_delim_truncation trieOneFlag [3, 0, 5]).1 1 (by norm_num) (by norm_num)
    (by decide)
    (by
      intro k h1 h2
      have h3 : k < 3 := by simpa using h2
      have : k = 2 := by omega
      subst this
      decide)


/-- A non-`none` result of the boundary capture means the accumulator was
already non-`none`, or the capture fired: a period over a final node. -/
theorem lookupHit_ne_none (t : FTrie) (word : List Nat) (i node : Nat)
    (acc : Option (List (List Nat × List Nat)))
    (h : lookupHit t word i node acc ≠ none) :
    acc ≠ none ∨ reachesHit t word i node = true := by
  by_cases hp : word.getD i 0 = t.encodedPeriod0 ∧ ftFinal t node = true
  · right
    show (decide (word.getD i 0 = t.encodedPeriod0) && ftFinal t node) = true
    rw [decide_eq_true hp.1, hp.2]
    rfl
  · left
    unfold lookupHit at h
    rw [if_neg hp] at h
    exact h

theorem lookupOuter_succ_in_none (t : FTrie) (word : List Nat) (f i : Nat)
    (acc : Option (List (List Nat × List Nat))) (hi : i < word.length) :
    lookupOuter t word (f + 1) none i acc = acc := by
  have hexp : lookupOuter t word (f + 1) none i acc =
      (if i < word.length then acc else acc) := rfl
  rw [hexp, if_pos hi]

theorem lookupOuter_succ_out_none (t : FTrie) (word : List Nat) (f i : Nat)
    (acc : Option (List (List Nat × List Nat))) (hi : ¬ i < word.length) :
    lookupOuter t word (f + 1) none i acc = acc := by
  have hexp : lookupOuter t word (f + 1) none i acc =
      (if i < word.length then acc else acc) := rfl
  rw [hexp, if_neg hi]

theorem lookupOuter_succ_in_some (t : FTrie) (word : List Nat) (f i node : Nat)
    (acc : Option (List (List Nat × List Nat))) (hi : i < word.length) :
    lookupOuter t word (f + 1) (some node) i acc =
      (if ftChildCount t node - 1 ≤ lastFlagChild t node then
        lookupHit t word i node acc
      else
        match lookupInner t node word i ((ftChildCount t node).toNat + 2)
            (ftChildCount t node) (lastFlagChild t node) with
        | InnerRes.ret => lookupHit t word i node acc
        | InnerRes.nomatch =>
            lookupOuter t word f none i (lookupHit t word i node acc)
        | InnerRes.advance branch di =>
            lookupOuter t word f (some branch) (i + di)
              (lookupHit t word i node acc)) := by
  have hexp : lookupOuter t word (f + 1) (some node) i acc =
      (if i < word.length then
        if ftChildCount t node - 1 ≤ lastFlagChild t node then
          lookupHit t word i node acc
        else
          match lookupInner t node word i ((ftChildCount t node).toNat + 2)
              (ftChildCount t node) (lastFlagChild t node) with
          | InnerRes.ret => lookupHit t word i node acc
          | InnerRes.nomatch =>
              lookupOuter t word f none i (lookupHit t word i node acc)
          | InnerRes.advance branch di =>
              lookupOuter t word f (some branch) (i + di)
                (lookupHit t word i node acc)
      else
        if ftFinal t node = true then
          some (acc.getD [] ++ [(t.decodeStr word.reverse, ftValue t node)])
        else acc) := rfl
  rw [hexp, if_pos hi]

theorem lookupOuter_succ_out_some (t : FTrie) (word : List Nat) (f i node : Nat)
    (acc : Option (List (List Nat × List Nat))) (hi : ¬ i < word.length) :
    lookupOuter t word (f + 1) (some node) i acc =
      (if ftFinal t node = true then
        some (acc.getD [] ++ [(t.decodeStr word.reverse, ftValue t node)])
      else acc) := by
  have hexp : lookupOuter t word (f + 1) (some node) i acc =
      (if i < word.length then
        if ftChildCount t node - 1 ≤ lastFlagChild t node then
          lookupHit t word i node acc
        else
          match lookupInner t node word i ((ftChildCount t node).toNat + 2)
              (ftChildCount t node) (lastFlagChild t node) with
          | InnerRes.ret => lookupHit t word i node acc
          | InnerRes.nomatch =>
              lookupOuter t word f none i (lookupHit t word i node acc)
          | InnerRes.advance branch di =>
              lookupOuter t word f (some branch) (i + di)
                (lookupHit t word i node acc)
      else
        if ftFinal t node = true then
          some (acc.getD [] ++ [(t.decodeStr word.reverse, ftValue t node)])
        else acc) := rfl
  rw [hexp, if_neg hi]

theorem reachesFinalOuter_succ_in_some (t : FTrie) (word : List Nat)
    (f i node : Nat) (hi : i < word.length) :
    reachesFinalOuter t word (f + 1) (some node) i =
      (if ftChildCount t node - 1 ≤ lastFlagChild t node then
        reachesHit t word i node
      else
        match lookupInner t node word i ((ftChildCount t node).toNat + 2)
            (ftChildCount t node) (lastFlagChild t node) with
        | InnerRes.ret => reachesHit t word i node
        | InnerRes.nomatch =>
            reachesHit t word i node || reachesFinalOuter t word f none i
        | InnerRes.advance branch di =>
            reachesHit t word i node ||
              reachesFinalOuter t word f (some branch) (i + di)) := by
  have hexp : reachesFinalOuter t word (f + 1) (some node) i =
      (if i < word.length then
        if ftChildCount t node - 1 ≤ lastFlagChild t node then
          reachesHit t word i node
        else
          match lookupInner t node word i ((ftChildCount t node).toNat + 2)
              (ftChildCount t node) (lastFlagChild t node) with
          | InnerRes.ret => reachesHit t word i node
          | InnerRes.nomatch =>
              reachesHit t word i node || reachesFinalOuter t word f none i
          | InnerRes.advance branch di =>
              reachesHit t word i node ||
                reachesFinalOuter t word f (some branch) (i + di)
      else ftFinal t node) := rfl
  rw [hexp, if_pos hi]

theorem reachesFinalOuter_succ_out_some (t : FTrie) (word : List Nat)
    (f i node : Nat) (hi : ¬ i < word.length) :
    reachesFinalOuter t word (f + 1) (some node) i = ftFinal t node := by
  have hexp : reachesFinalOuter t word (f + 1) (some node) i =
      (if i < word.length then
        if ftChildCount t node - 1 ≤ lastFlagChild t node then
          reachesHit t word i node
        else
          match lookupInner t node word i ((ftChildCount t node).toNat + 2)
              (ftChildCount t node) (lastFlagChild t node) with
          | InnerRes.ret => reachesHit t word i node
          | InnerRes.nomatch =>
              reachesHit t word i node || reachesFinalOuter t word f none i
          | InnerRes.advance branch di =>
              reachesHit t word i node ||
                reachesFinalOuter t word f (some branch) (i + di)
      else ftFinal t node) := rfl
  rw [hexp, if_neg hi]

/-- Partial-correctness invariant of the lookup loop: a `some` result
means the accumulator was already `some`, or the walk reaches a final
node (at a label boundary or at the end of the word). -/
theorem lookupOuter_some_reaches (t : FTrie) (word : List Nat) :
    ∀ fuel onode i acc m,
      lookupOuter t word fuel onode i acc = some m →
      acc ≠ none ∨ reachesFinalOuter t word fuel onode i = true := by
  intro fuel
  induction fuel with
  | zero =>
    intro onode i acc m h
    left
    have hred : lookupOuter t word 0 onode i acc = acc := rfl
    rw [hred] at h
    rw [h]
    exact fun hc => Option.noConfusion hc
  | succ f ih =>
    intro onode i acc m h
    by_cases hi : i < word.length
    · cases onode with
      | none =>
        rw [lookupOuter_succ_in_none t word f i acc hi] at h
        left
        rw [h]
        exact fun hc => Option.noConfusion hc
      | some node =>
        rw [lookupOuter_succ_in_some t word f i node acc hi] at h
        rw [reachesFinalOuter_succ_in_some t word f i node hi]
        by_cases hcc : ftChildCount t node - 1 ≤ lastFlagChild t node
        · rw [if_pos hcc] at h
          rw [if_pos hcc]
          apply lookupHit_ne_none t word i node acc
          intro hc
          rw [hc] at h
          exact Option.noConfusion h
        · rw [if_neg hcc] at h
          rw [if_neg hcc]
          cases hres : lookupInner t node word i ((ftChildCount t node).toNat + 2)
              (ftChildCount t node) (lastFlagChild t node) with
          | ret =>
            rw [hres] at h
            change lookupHit t word i node acc = some m at h
            show acc ≠ none ∨ reachesHit t word i node = true
            apply lookupHit_ne_none t word i node acc
            intro hc
            rw [hc] at h
            exact Option.noConfusion h
          | advance branch di =>
            rw [hres] at h
            change lookupOuter t word f (some branch) (i + di)
              (lookupHit t word i node acc) = some m at h
            show acc ≠ none ∨
              (reachesHit t word i node ||
                reachesFinalOuter t word f (some branch) (i + di)) = true
            rcases ih (some branch) (i + di) (lookupHit t word i node acc) m h
              with h1 | h1
            · rcases lookupHit_ne_none t word i node acc h1 with h2 | h2
              · exact Or.inl h2
              · right
                rw [h2, Bool.true_or]
            · right
              rw [h1, Bool.or_true]
          | _ =>
            rw [hres] at h
            change lookupOuter t word f none i
              (lookupHit t word i node acc) = some m at h
            show acc ≠ none ∨
              (reachesHit t word i node ||
                reachesFinalOuter t word f none i) = true
            rcases ih none i (lookupHit t word i node acc) m h with h1 | h1
            · rcases lookupHit_ne_none t word i node acc h1 with h2 | h2
              · exact Or.inl h2
              · right
                rw [h2, Bool.true_or]
            · right
              rw [h1, Bool.or_true]
    · cases onode with
      | none =>
        rw [lookupOuter_succ_out_none t word f i acc hi] at h
        left
        rw [h]
        exact fun hc => Option.noConfusion hc
      | some node =>
        rw [lookupOuter_succ_out_some t word f i node acc hi] at h
        rw [reachesFinalOuter_succ_out_some t word f i node hi]
        by_cases hfin : ftFinal t node = true
        · exact Or.inr hfin
        · rw [if_neg hfin] at h
          left
          rw [h]
          exact fun hc => Option.noConfusion hc

/-- C8: for every input word whose traversal reaches no final node —
neither at a label boundary nor at the end of the (delimiter-truncated)
word — `lookup` keeps its initial `false` and returns it: the result is
nullish (`none` in this model), and `lookup` is modelled as a total
function, so it does not throw on a missing key. -/
theorem c8_lookup_nullish (t : FTrie) (word : List Nat)
    (h : reachesFinal t word = false) : ftLookup t word = none := by
  have hexp : ftLookup t word =
      lookupOuter t
        (if 0 < jsLastIndexOf word t.encodedDelim0 then
          word.take (jsLastIndexOf word t.encodedDelim0).toNat
        else word)
        (2 * (if 0 < jsLastIndexOf word t.encodedDelim0 then
          word.take (jsLastIndexOf word t.encodedDelim0).toNat
        else word).length + 4) (some 0) 0 none := rfl
  have hexp2 : reachesFinal t word =
      reachesFinalOuter t
        (if 0 < jsLastIndexOf word t.encodedDelim0 then
          word.take (jsLastIndexOf word t.encodedDelim0).toNat
        else word)
        (2 * (if 0 < jsLastIndexOf word t.encodedDelim0 then
          word.take (jsLastIndexOf word t.encodedDelim0).toNat
        else word).length + 4) (some 0) 0 := rfl
  rw [hexp]
  cases hres : lookupOuter t
      (if 0 < jsLastIndexOf word t.encodedDelim0 then
        word.take (jsLastIndexOf word t.encodedDelim0).toNat
      else word)
      (2 * (if 0 < jsLastIndexOf word t.encodedDelim0 then
        word.take (jsLastIndexOf word t.encodedDelim0).toNat
      else word).length + 4) (some 0) 0 none with
  | none => rfl
  | some m =>
    rcases lookupOuter_some_reaches t _ _ _ _ _ m hres with h1 | h1
    · exact absurd rfl h1
    · rw [hexp2, h1] at h
      exact Bool.noConfusion h

/-- C8 witness: on `trieOneFlag`, the letter 9 matches no child of the
root, the walk reaches no final node, and the lookup result is `none`. -/
theorem c8_lookup_nullish_witness :
    reachesFinal trieOneFlag [9] = false ∧ ftLookup trieOneFlag [9] = none :=
  ⟨rfl, c8_lookup_nullish trieOneFlag [9] rfl⟩

end TrieSpec
